import Mathlib

/-!
# OAM Omnibus firmware: the UberFDN reverb engine (`uber_fdn.h`)

Shallow embedding of `OmniDelay`, `OmniAllpass`, `OmniOnePole` and `UberFDN`
(`Init`, `SetMode`, `SetDecay` and the per-sample signal flow of
`ProcessBlock`), of the diffuser and the feedback path of `SuperFDN`
(`fdn.h`), and of what `main.cpp` does to the engine (mode selection, engine
initialisation, decay control).

* C++ `float` values are modelled by exact rationals (`ℚ`), so a statement
  below is a statement in exact arithmetic unless it names a definition with
  the suffix `F32`; `int` values are integers (no index computed here leaves
  the range of a 32-bit `int`).
* Where the rounding of binary32 decides the outcome (the value of `shift_mix`
  at `warp = 1.0`, the termination of the loops of `OmniDelay::Read`), a second
  definition with the suffix `F32` rounds every operation to the nearest
  binary32 value (`f32`).
* The SDRAM arena is a map from indices to samples; a delay line holds the
  index of the first sample of its region.
* The two `while` loops of `OmniDelay::Read` run with a bound `fuel` on their
  iterations, and `Read` returns `none` when a loop has not finished by then.
* The DaisySP primitives the engines call (`PitchShifter`, `Svf`, `Oscillator`,
  `OnePole`), the C library functions `expf` and `powf` and the hardware
  readings of `main` are not part of the repository; their internal states and
  functions are parameters of the definitions.
-/

namespace OAM

/-! ## Modes -/

/-- The enum `FdnMode` of `uber_fdn.h`. -/
inductive FdnMode where
  | MODE_STUDIO
  | MODE_SHIMMER
  | MODE_MASSIVE
  deriving DecidableEq, Repr

/-! ## Soft limiter -/

/-- `UberFDN::SoftLimit` (and, with the same body, `SuperFDN::SoftLimit`):
`x * (27 + x * x) / (27 + 9 * x * x)`. -/
def SoftLimit (x : ℚ) : ℚ :=
  x * (27 + x * x) / (27 + 9 * x * x)

/-! ## Matrix mix -/

/-- The accumulation loop `for k: sum += delay_outs[k]` of the "Mix" step,
followed by `sum *= 0.25f`. -/
def mixSum {N : Nat} (delay_outs : Fin N → ℚ) : ℚ :=
  (List.finRange N).foldl (fun sum k => sum + delay_outs k) 0 * 0.25

/-- The loop `matrix_out[k] = delay_outs[k] - sum` of `UberFDN::ProcessBlock`. -/
def matrixMix {N : Nat} (delay_outs : Fin N → ℚ) : Fin N → ℚ :=
  fun k => delay_outs k - mixSum delay_outs

/-- Sum of squares of the `N` line values, accumulated line by line. -/
def energy {N : Nat} (v : Fin N → ℚ) : ℚ :=
  (List.finRange N).foldl (fun e k => e + v k * v k) 0

/-! ## Feedback gain and input injection -/

/-- The "Feedback" lines of the per-line loop of `UberFDN::ProcessBlock`:
`fb = gains[k] * master_decay_`, clamped to `0.99f`, then forced to `1.0f` when
the mode is Massive and `master_decay_ > 0.98f`. -/
def feedbackGain (mode : FdnMode) (gain master_decay : ℚ) : ℚ :=
  let fb := gain * master_decay
  let fb := if fb > 0.99 then 0.99 else fb
  if mode = FdnMode.MODE_MASSIVE ∧ master_decay > 0.98 then 1.0 else fb

/-- The lines `next = matrix_out[k] * fb; if (mode_ != MODE_MASSIVE ||
master_decay_ <= 0.98f) next += diffused * 0.25f;`. -/
def injectNext (mode : FdnMode) (master_decay matrix_out_k fb diffused : ℚ) : ℚ :=
  let next := matrix_out_k * fb
  if mode ≠ FdnMode.MODE_MASSIVE ∨ master_decay ≤ 0.98 then next + diffused * 0.25 else next

/-! ## Pitch shifters (DaisySP primitive, external) -/

/-- A DaisySP `PitchShifter` as the engine sees it: the transposition in
semitones last given to `SetTransposition`, and an internal state of an
unspecified type `σ` that only `Process` touches. -/
structure PitchShifter (σ : Type) where
  transpose : ℚ
  st : σ

/-- `PitchShifter::SetTransposition`. -/
def PitchShifter.SetTransposition {σ : Type} (p : PitchShifter σ) (t : ℚ) : PitchShifter σ :=
  { p with transpose := t }

/-- `PitchShifter::Process`: the library function `psProcess` maps the
transposition, the internal state and the input sample to the output sample
and the next internal state. -/
def PitchShifter.Process {σ : Type} (psProcess : ℚ → σ → ℚ → ℚ × σ)
    (p : PitchShifter σ) (x : ℚ) : ℚ × PitchShifter σ :=
  ((psProcess p.transpose p.st x).1, { p with st := (psProcess p.transpose p.st x).2 })

/-- The member array `shimmers_[2]`. -/
abbrev Shimmers (σ : Type) := Fin 2 → PitchShifter σ

/-- The call `shimmers_[i].SetTransposition(t)`. -/
def Shimmers.set {σ : Type} (sh : Shimmers σ) (i : Fin 2) (t : ℚ) : Shimmers σ :=
  Function.update sh i ((sh i).SetTransposition t)

/-! ## Parameter setup at the top of `ProcessBlock` -/

/-- What the parameter setup at the top of `UberFDN::ProcessBlock` leaves
behind: the locals `depth` and `shift_mix`, and the two pitch shifters. -/
structure BlockSetup (σ : Type) where
  depth : ℚ
  shift_mix : ℚ
  shimmers : Shimmers σ

/-- The parameter setup of `UberFDN::ProcessBlock` (from `float depth = 10.0f`
to the end of the `if (mode_ == MODE_SHIMMER) ... else if (mode_ ==
MODE_MASSIVE) ...` statement). -/
def blockSetup {σ : Type} (mode : FdnMode) (warp : ℚ) (shimmers : Shimmers σ) : BlockSetup σ :=
  let depth : ℚ := if mode = FdnMode.MODE_MASSIVE then 100.0 else 10.0
  if mode = FdnMode.MODE_SHIMMER then
    { depth := depth
      shift_mix := 1.0
      shimmers := (shimmers.set 0 12.0).set 1 12.0 }
  else if mode = FdnMode.MODE_MASSIVE then
    if warp > 0.6 then
      { depth := depth
        shift_mix := (warp - 0.6) * 2.5
        shimmers := (shimmers.set 0 (if warp > 0.85 then 19.0 else 12.0)).set 1
          (if warp > 0.85 then 19.02 else 12.02) }
    else
      { depth := depth
        shift_mix := if warp < 0.4 then 0.5 else 0.0
        shimmers := (shimmers.set 0 ((warp - 0.2) * 2.0)).set 1 ((warp - 0.2) * 2.0 + 0.02) }
  else
    { depth := depth, shift_mix := 0.0, shimmers := shimmers }

/-! ## Shimmer logic of the per-line loop -/

/-- One blend `next * (1 - mix) + shimmers_[i].Process(next) * mix`, with the
shifter's state advanced. -/
def blendShifted {σ : Type} (psProcess : ℚ → σ → ℚ → ℚ × σ) (mix : ℚ) (i : Fin 2)
    (next : ℚ) (sh : Shimmers σ) : ℚ × Shimmers σ :=
  (next * (1.0 - mix) + ((sh i).Process psProcess next).1 * mix,
    Function.update sh i ((sh i).Process psProcess next).2)

/-- The "Shimmer Logic" statement of the per-line loop: from the tone-shaped
value `next` of line `k` to the value handed to `SoftLimit`, together with the
pitch shifters after the step. -/
def shimmerLogic {σ : Type} (psProcess : ℚ → σ → ℚ → ℚ × σ) (mode : FdnMode)
    (shift_mix : ℚ) (k : Nat) (next : ℚ) (sh : Shimmers σ) : ℚ × Shimmers σ :=
  if mode = FdnMode.MODE_SHIMMER then
    if h : k = 6 ∨ k = 7 then
      let i : Fin 2 := ⟨k - 6, by omega⟩
      let s := ((sh i).Process psProcess next).1
      (next * 0.5 + s * 0.5, Function.update sh i ((sh i).Process psProcess next).2)
    else (next, sh)
  else if mode = FdnMode.MODE_MASSIVE ∧ shift_mix > 0.0 then
    let r3 := if k = 3 then blendShifted psProcess shift_mix 0 next sh else (next, sh)
    if k = 7 then blendShifted psProcess shift_mix 1 r3.1 r3.2 else r3
  else (next, sh)

/-! ## Tone shaping -/

/-- The class `OmniOnePole`: coefficients `a0_`, `b1_` and the accumulator
`out_`. -/
structure OmniOnePole where
  a0_ : ℚ
  b1_ : ℚ
  out_ : ℚ

/-- `OmniOnePole::SetFreq`; the C library function `expf` is a parameter. -/
def OmniOnePole.SetFreq (expf : ℚ → ℚ) (f : OmniOnePole) (freq : ℚ) : OmniOnePole :=
  let b1 := expf (-2.0 * 3.1415927 * freq / 48000.0)
  { f with b1_ := b1, a0_ := 1.0 - b1 }

/-- `OmniOnePole::Process`: the returned sample and the filter afterwards. -/
def OmniOnePole.Process (f : OmniOnePole) (x : ℚ) : ℚ × OmniOnePole :=
  (x * f.a0_ + f.out_ * f.b1_, { f with out_ := x * f.a0_ + f.out_ * f.b1_ })

/-- The member functions of the DaisySP `Svf` that the engine calls, over an
unspecified filter state `τ`. -/
structure SvfOps (τ : Type) where
  SetFreq : τ → ℚ → τ
  SetRes : τ → ℚ → τ
  Process : τ → ℚ → τ
  Low : τ → ℚ
  Band : τ → ℚ

/-- The "Tone Shaping" statement of the per-line loop: the resonator in Massive
mode (`80 * 2^k` Hz, resonance `0.1 + gains[k] * 0.7`, output
`Low * 0.5 + Band * 0.8`), the one-pole low-pass otherwise. -/
def toneShape {τ : Type} (expf : ℚ → ℚ) (svf : SvfOps τ) (mode : FdnMode) (k : Nat)
    (gain next : ℚ) (lpf : OmniOnePole) (res : τ) : ℚ × OmniOnePole × τ :=
  if mode = FdnMode.MODE_MASSIVE then
    let freq : ℚ := 80.0 * 2.0 ^ k
    let r := svf.Process (svf.SetRes (svf.SetFreq res freq) (0.1 + gain * 0.7)) next
    (svf.Low r * 0.5 + svf.Band r * 0.8, lpf, r)
  else
    let co : ℚ := 2000.0 + gain * 8000.0
    let f := lpf.SetFreq expf co
    ((f.Process next).1, (f.Process next).2, res)

/-! ## The per-line feedback step -/

/-- The body of the "Feedback" loop of `UberFDN::ProcessBlock` for line `k`:
the first component is the value handed to `delays_[k].Write`, the others are
the damping filter, the resonator and the pitch shifters after the step. -/
def feedbackLine {σ τ : Type} (expf : ℚ → ℚ) (svf : SvfOps τ)
    (psProcess : ℚ → σ → ℚ → ℚ × σ) (mode : FdnMode) (master_decay shift_mix : ℚ)
    (k : Nat) (gain matrix_out_k diffused : ℚ) (lpf : OmniOnePole) (res : τ)
    (sh : Shimmers σ) : ℚ × OmniOnePole × τ × Shimmers σ :=
  let fb := feedbackGain mode gain master_decay
  let next := injectNext mode master_decay matrix_out_k fb diffused
  let t := toneShape expf svf mode k gain next lpf res
  let s := shimmerLogic psProcess mode shift_mix k t.1 sh
  (SoftLimit s.1, t.2.1, t.2.2, s.2)

/-- Two pitch shifters as `UberFDN::Init` leaves them (`SetTransposition(12.0f)`),
over a one-point internal state; used to evaluate the setup on concrete input. -/
def initShimmers : Shimmers Unit :=
  fun _ => { transpose := 12.0, st := () }

/-! ## The delay line `OmniDelay` -/

/-- The SDRAM sample arena `big_sdram_buffer`, seen as the sample stored at
each index.  A C++ `float *` into the arena is the index of the sample it
points to. -/
abbrev Arena := Int → ℚ

/-- The class `OmniDelay`: `buffer_` (index in the arena of the first sample
of the bound region), `max_len_` and `write_ptr_`. -/
structure OmniDelay where
  buffer_ : Int
  max_len_ : Int
  write_ptr_ : Int

/-- `OmniDelay::Init(buf, max)`: binds the region, sets the capacity and
resets the cursor; no sample is touched. -/
def OmniDelay.Init (buf : Int) (max : Int) : OmniDelay :=
  { buffer_ := buf, max_len_ := max, write_ptr_ := 0 }

/-- The arena index that `OmniDelay::Write` stores to, `&buffer_[write_ptr_]`. -/
def OmniDelay.writeAddr (d : OmniDelay) : Int :=
  d.buffer_ + d.write_ptr_

/-- `OmniDelay::Write(sample)`: `buffer_[write_ptr_] = sample; write_ptr_++;
if (write_ptr_ >= max_len_) write_ptr_ = 0;`. -/
def OmniDelay.Write (d : OmniDelay) (mem : Arena) (sample : ℚ) : Arena × OmniDelay :=
  (Function.update mem d.writeAddr sample,
    { d with write_ptr_ := if d.write_ptr_ + 1 ≥ d.max_len_ then 0 else d.write_ptr_ + 1 })

/-- The loop `while (read_pos < 0.0f) read_pos += (float)max_len_;` of
`OmniDelay::Read`, run for at most `fuel` iterations: `none` when the loop has
not finished by then. The sum is exact; `wrapUpF32` rounds it to binary32. -/
def wrapUp (max_len : ℚ) : Nat → ℚ → Option ℚ
  | 0, read_pos => if read_pos < 0 then none else some read_pos
  | fuel + 1, read_pos =>
    if read_pos < 0 then wrapUp max_len fuel (read_pos + max_len) else some read_pos

/-- The loop `while (read_pos >= (float)max_len_) read_pos -= (float)max_len_;`
of `OmniDelay::Read`, run for at most `fuel` iterations. The difference is
exact; `wrapDownF32` rounds it to binary32. -/
def wrapDown (max_len : ℚ) : Nat → ℚ → Option ℚ
  | 0, read_pos => if read_pos ≥ max_len then none else some read_pos
  | fuel + 1, read_pos =>
    if read_pos ≥ max_len then wrapDown max_len fuel (read_pos - max_len) else some read_pos

/-- The C++ conversion `(int)x` of a `float`: truncation towards zero. -/
def castInt (x : ℚ) : Int :=
  if 0 ≤ x then ⌊x⌋ else ⌈x⌉

/-- The value of `read_pos` after the two loops of `OmniDelay::Read`. -/
def OmniDelay.readPos (d : OmniDelay) (fuel : Nat) (delay_samps : ℚ) : Option ℚ :=
  (wrapUp d.max_len_ fuel ((d.write_ptr_ : ℚ) - delay_samps)).bind (wrapDown d.max_len_ fuel)

/-- The local `idx = (int)read_pos` of `OmniDelay::Read`. -/
def OmniDelay.idx (read_pos : ℚ) : Int :=
  castInt read_pos

/-- The local `idx2` of `OmniDelay::Read`: `idx + 1`, or `0` when that reaches
`max_len_`. -/
def OmniDelay.idx2 (d : OmniDelay) (read_pos : ℚ) : Int :=
  if OmniDelay.idx read_pos + 1 ≥ d.max_len_ then 0 else OmniDelay.idx read_pos + 1

/-- The return expression of `OmniDelay::Read`:
`buffer_[idx] + frac * (buffer_[idx2] - buffer_[idx])`. -/
def OmniDelay.interp (d : OmniDelay) (mem : Arena) (read_pos : ℚ) : ℚ :=
  let frac := read_pos - (OmniDelay.idx read_pos : ℚ)
  mem (d.buffer_ + OmniDelay.idx read_pos)
    + frac * (mem (d.buffer_ + d.idx2 read_pos) - mem (d.buffer_ + OmniDelay.idx read_pos))

/-- `OmniDelay::Read(delay_samps)`, with at most `fuel` iterations of each
loop. -/
def OmniDelay.Read (d : OmniDelay) (fuel : Nat) (mem : Arena) (delay_samps : ℚ) : Option ℚ :=
  (d.readPos fuel delay_samps).map (d.interp mem)

/-- The two arena indices that `OmniDelay::Read(delay_samps)` loads from,
`&buffer_[idx]` and `&buffer_[idx2]`. -/
def OmniDelay.readAddrs (d : OmniDelay) (fuel : Nat) (delay_samps : ℚ) : Option (Int × Int) :=
  (d.readPos fuel delay_samps).map
    (fun read_pos => (d.buffer_ + OmniDelay.idx read_pos, d.buffer_ + d.idx2 read_pos))

/-- A run of `Write` calls, one per sample of the list, in order. -/
def OmniDelay.writeAll (d : OmniDelay) (mem : Arena) : List ℚ → Arena × OmniDelay
  | [] => (mem, d)
  | sample :: rest => (d.Write mem sample).2.writeAll (d.Write mem sample).1 rest

/-- The value in `[0, capacity)` congruent to `x` modulo `capacity`, as the
specification of the delay line describes the read position. -/
def wrapPos (capacity : Int) (x : ℚ) : ℚ :=
  x - (⌊x / capacity⌋ : ℚ) * capacity

/-! ## The diffuser `OmniAllpass` -/

/-- The class `OmniAllpass`: the array `buffer_[600]` (a slot for each index;
only `0 .. 599` exist in the C++ object), `write_ptr_` and `delay_len_`. -/
structure OmniAllpass where
  buffer_ : Int → ℚ
  write_ptr_ : Int
  delay_len_ : Int

/-- `OmniAllpass::Init`: zeroes the 600 slots, resets the cursor and sets the
delay length to 100. -/
def OmniAllpass.Init (a : OmniAllpass) : OmniAllpass :=
  { buffer_ := fun i => if 0 ≤ i ∧ i < 600 then 0 else a.buffer_ i
    write_ptr_ := 0
    delay_len_ := 100 }

/-- `OmniAllpass::SetDelay(len)`: `delay_len_ = len; if (len > 599) delay_len_ = 599;`. -/
def OmniAllpass.SetDelay (a : OmniAllpass) (len : Int) : OmniAllpass :=
  { a with delay_len_ := if len > 599 then 599 else len }

/-- The local `read_ptr` of `OmniAllpass::Process`: `write_ptr_ - delay_len_`,
plus 600 when that is negative. -/
def OmniAllpass.read_ptr (a : OmniAllpass) : Int :=
  if a.write_ptr_ - a.delay_len_ < 0 then a.write_ptr_ - a.delay_len_ + 600
  else a.write_ptr_ - a.delay_len_

/-- `OmniAllpass::Process(in)`: the returned sample and the diffuser afterwards. -/
def OmniAllpass.Process (a : OmniAllpass) (x : ℚ) : ℚ × OmniAllpass :=
  let buf_out := a.buffer_ a.read_ptr
  (-x + buf_out,
    { a with
      buffer_ := Function.update a.buffer_ a.write_ptr_ (x + 0.5 * buf_out)
      write_ptr_ := if a.write_ptr_ + 1 ≥ 600 then 0 else a.write_ptr_ + 1 })

/-- A call made on a diffuser after `Init`. -/
inductive AllpassCall where
  | SetDelay (len : Int)
  | Process (x : ℚ)

/-- The diffuser after one call. -/
def OmniAllpass.call (a : OmniAllpass) : AllpassCall → OmniAllpass
  | AllpassCall.SetDelay len => a.SetDelay len
  | AllpassCall.Process x => (a.Process x).2

/-- The diffuser after a sequence of calls, made in order. -/
def OmniAllpass.calls (a : OmniAllpass) (cs : List AllpassCall) : OmniAllpass :=
  cs.foldl OmniAllpass.call a

/-- The argument of the last `SetDelay` among the calls, if there is one. -/
def lastSetDelay : List AllpassCall → Option Int
  | [] => none
  | AllpassCall.SetDelay len :: rest => (lastSetDelay rest).orElse (fun _ => some len)
  | AllpassCall.Process _ :: rest => lastSetDelay rest

/-- Every `SetDelay` among the calls has a length `≥ 0`. -/
def nonnegDelays : List AllpassCall → Prop
  | [] => True
  | AllpassCall.SetDelay len :: rest => 0 ≤ len ∧ nonnegDelays rest
  | AllpassCall.Process _ :: rest => nonnegDelays rest

/-! ## The matrix mix of `SuperFDN` and the Householder reflection -/

/-- The "Matrix Mixing" step of `SuperFDN::ProcessBlock` (`fdn.h`): the sum of
the reads scaled by `2.0f / (float)N_LINES`, subtracted from each read. -/
def SuperFDN.matrixMix {N : Nat} (delay_outs : Fin N → ℚ) : Fin N → ℚ :=
  fun k => delay_outs k
    - (List.finRange N).foldl (fun sum k => sum + delay_outs k) 0 * (2.0 / (N : ℚ))

/-- The Householder reflection as the specification writes it:
`mixed_k = read_k − (2/N)·Σ_j read_j`. -/
def householder (N : Nat) (read : Fin N → ℚ) : Fin N → ℚ :=
  fun k => read k - (2 / (N : ℚ)) * ∑ j, read j

/-! ## Delay times -/

/-- The member table `base_ratios_`. -/
def base_ratios_ : Fin 8 → ℚ :=
  ![1.000, 1.137, 1.289, 1.458, 1.632, 1.815, 2.053, 2.311]

/-- The "Delay Time" lines of the read loop of `UberFDN::ProcessBlock` for line
`k`: `final_t` from the modulation value `mod_val`.  The C library function
`powf` is a parameter. -/
def delayTime (powf : ℚ → ℚ → ℚ) (sample_rate_ size_param skew depth : ℚ) (k : Fin 8)
    (mod_val : ℚ) : ℚ :=
  let ratio := base_ratios_ k
  let s := powf ratio (0.5 + skew)
  let base_t := s * size_param * sample_rate_ * 0.15
  let base_t := if base_t > 230000 then 230000 else base_t
  base_t + mod_val * depth

/-! ## Binding the arena -/

/-- The macro `TOTAL_SDRAM_SAMPLES` of `main.cpp`, the size of
`big_sdram_buffer`. -/
def TOTAL_SDRAM_SAMPLES : Int := 15000000

/-- The first loop of `UberFDN::Init(sample_rate, big_buffer)`:
`delays_[i].Init(&big_buffer[i * 240000], 240000)`. -/
def initDelays (big_buffer : Int) : Fin 8 → OmniDelay :=
  fun i => OmniDelay.Init (big_buffer + (i : Nat) * 240000) 240000

/-- The region of the arena bound to a delay line:
`buffer_ ≤ a < buffer_ + max_len_`. -/
def OmniDelay.region (d : OmniDelay) (a : Int) : Prop :=
  d.buffer_ ≤ a ∧ a < d.buffer_ + d.max_len_

/-! ## The engine `UberFDN<8>` and its per-sample loop -/

/-- The library functions the engine calls that are not part of the
repository: `expf` and `powf` of the C library, and the `Process` functions of
the DaisySP `Svf`, `PitchShifter` and `Oscillator` (over unspecified internal
states `τ`, `σ`, `ω`). -/
structure External (σ τ ω : Type) where
  expf : ℚ → ℚ
  powf : ℚ → ℚ → ℚ
  svf : SvfOps τ
  psProcess : ℚ → σ → ℚ → ℚ × σ
  oscProcess : ω → ℚ × ω

/-- The data members of `UberFDN<8>` (the arena the delay lines point into is
kept apart, as an `Arena`). -/
structure UberFDN (σ τ ω : Type) where
  sample_rate_ : ℚ
  delays_ : Fin 8 → OmniDelay
  diffusers_ : Fin 4 → OmniAllpass
  lfo_ : Fin 8 → ω
  wander1_ : Fin 8 → ω
  wander2_ : Fin 8 → ω
  damp_lpf_ : Fin 8 → OmniOnePole
  resonators_ : Fin 8 → τ
  shimmers_ : Shimmers σ
  master_decay_ : ℚ
  mode_ : FdnMode

/-- The "Diffusion" loop: `diffused = diffusers_[k].Process(diffused)` for
`k = 0 .. 3`. -/
def UberFDN.diffuse {σ τ ω : Type} (e : UberFDN σ τ ω) (input : ℚ) :
    ℚ × (Fin 4 → OmniAllpass) :=
  (List.finRange 4).foldl
    (fun acc k => (((acc.2 k).Process acc.1).1, Function.update acc.2 k ((acc.2 k).Process acc.1).2))
    (input, e.diffusers_)

/-- The local `mod_val` of the read loop for line `k`: the two wander
oscillators in Massive mode, the LFO otherwise. -/
def UberFDN.modVal {σ τ ω : Type} (ext : External σ τ ω) (e : UberFDN σ τ ω) (k : Fin 8) : ℚ :=
  if e.mode_ = FdnMode.MODE_MASSIVE then
    (ext.oscProcess (e.wander1_ k)).1 + (ext.oscProcess (e.wander2_ k)).1
  else (ext.oscProcess (e.lfo_ k)).1

/-- The oscillators after the read loop: those that were asked for a sample
have advanced. -/
def UberFDN.advanceOsc {σ τ ω : Type} (ext : External σ τ ω) (e : UberFDN σ τ ω) :
    UberFDN σ τ ω :=
  if e.mode_ = FdnMode.MODE_MASSIVE then
    { e with
      wander1_ := fun k => (ext.oscProcess (e.wander1_ k)).2
      wander2_ := fun k => (ext.oscProcess (e.wander2_ k)).2 }
  else { e with lfo_ := fun k => (ext.oscProcess (e.lfo_ k)).2 }

/-- The local `final_t` of the read loop for line `k`. -/
def UberFDN.finalDelay {σ τ ω : Type} (ext : External σ τ ω) (e : UberFDN σ τ ω)
    (depth size_param skew : ℚ) (k : Fin 8) : ℚ :=
  delayTime ext.powf e.sample_rate_ size_param skew depth k (e.modVal ext k)

/-- The read loop: `delay_outs[k] = delays_[k].Read(final_t)` for the 8 lines;
`none` when a `Read` has not finished within `fuel` iterations. -/
def UberFDN.readLines {σ τ ω : Type} (ext : External σ τ ω) (fuel : Nat) (e : UberFDN σ τ ω)
    (mem : Arena) (depth size_param skew : ℚ) : Option (Fin 8 → ℚ) :=
  if h : ∀ k : Fin 8,
      ((e.delays_ k).Read fuel mem (e.finalDelay ext depth size_param skew k)).isSome = true then
    some (fun k => ((e.delays_ k).Read fuel mem (e.finalDelay ext depth size_param skew k)).get (h k))
  else none

/-- One iteration of the "Feedback" loop: `feedbackLine` for line `k`, then
`delays_[k].Write(next)`. -/
def UberFDN.feedbackStep {σ τ ω : Type} (ext : External σ τ ω) (shift_mix : ℚ)
    (gains matrix_out : Fin 8 → ℚ) (diffused : ℚ) (st : Arena × UberFDN σ τ ω) (k : Fin 8) :
    Arena × UberFDN σ τ ω :=
  let r := feedbackLine ext.expf ext.svf ext.psProcess st.2.mode_ st.2.master_decay_ shift_mix
    k.val (gains k) (matrix_out k) diffused (st.2.damp_lpf_ k) (st.2.resonators_ k) st.2.shimmers_
  (((st.2.delays_ k).Write st.1 r.1).1,
    { st.2 with
      delays_ := Function.update st.2.delays_ k ((st.2.delays_ k).Write st.1 r.1).2
      damp_lpf_ := Function.update st.2.damp_lpf_ k r.2.1
      resonators_ := Function.update st.2.resonators_ k r.2.2.1
      shimmers_ := r.2.2.2 })

/-- The body of the sample loop of `UberFDN::ProcessBlock` for the input pair
`x = (in_l[i], in_r[i])`: the output pair `(out_l[i], out_r[i])`, the arena and
the engine afterwards. -/
def UberFDN.processSample {σ τ ω : Type} (ext : External σ τ ω) (fuel : Nat)
    (depth shift_mix : ℚ) (gains : Fin 8 → ℚ) (size_param skew : ℚ)
    (st : Arena × UberFDN σ τ ω) (x : ℚ × ℚ) : Option ((ℚ × ℚ) × Arena × UberFDN σ τ ω) :=
  let input := (x.1 + x.2) * 0.5
  let dif := st.2.diffuse input
  match st.2.readLines ext fuel st.1 depth size_param skew with
  | none => none
  | some delay_outs =>
    let e1 : UberFDN σ τ ω := { st.2.advanceOsc ext with diffusers_ := dif.2 }
    let matrix_out := matrixMix delay_outs
    let st1 := (List.finRange 8).foldl
      (UberFDN.feedbackStep ext shift_mix gains matrix_out dif.1) (st.1, e1)
    let l := delay_outs 0 - delay_outs 2 + delay_outs 4 - delay_outs 6
    let r := delay_outs 1 - delay_outs 3 + delay_outs 5 - delay_outs 7
    some ((l * 0.25, r * 0.25), st1)

/-- The sample loop `for (size_t i = 0; i < size; i++)` over the input pairs. -/
def UberFDN.processSamples {σ τ ω : Type} (ext : External σ τ ω) (fuel : Nat)
    (depth shift_mix : ℚ) (gains : Fin 8 → ℚ) (size_param skew : ℚ) :
    Arena × UberFDN σ τ ω → List (ℚ × ℚ) → Option (List (ℚ × ℚ) × Arena × UberFDN σ τ ω)
  | st, [] => some ([], st)
  | st, x :: rest =>
    match UberFDN.processSample ext fuel depth shift_mix gains size_param skew st x with
    | none => none
    | some (out, st1) =>
      match UberFDN.processSamples ext fuel depth shift_mix gains size_param skew st1 rest with
      | none => none
      | some (outs, st2) => some (out :: outs, st2)

/-- `UberFDN::ProcessBlock` on the input pairs `ins` (its `size` is their
number): the output pairs, the arena and the engine afterwards. -/
def UberFDN.ProcessBlock {σ τ ω : Type} (ext : External σ τ ω) (fuel : Nat)
    (e : UberFDN σ τ ω) (mem : Arena) (ins : List (ℚ × ℚ)) (gains : Fin 8 → ℚ)
    (size_param skew warp : ℚ) : Option (List (ℚ × ℚ) × Arena × UberFDN σ τ ω) :=
  let setup := blockSetup e.mode_ warp e.shimmers_
  UberFDN.processSamples ext fuel setup.depth setup.shift_mix gains size_param skew
    (mem, { e with shimmers_ := setup.shimmers }) ins

/-- Stand-ins for the library functions, over one-point internal states: used
only to evaluate the engine on concrete input. -/
def unitExternal : External Unit Unit Unit :=
  { expf := fun x => x
    powf := fun r _ => r
    svf := { SetFreq := fun s _ => s, SetRes := fun s _ => s, Process := fun s _ => s,
             Low := fun _ => 0, Band := fun _ => 0 }
    psProcess := fun _ s x => (x, s)
    oscProcess := fun w => (0, w) }

/-- An engine in Studio mode at 48 kHz whose lines are bound at the start of
the arena, as `UberFDN::Init` binds them. -/
def unitEngine : UberFDN Unit Unit Unit :=
  { sample_rate_ := 48000
    delays_ := initDelays 0
    diffusers_ := fun _ => { buffer_ := fun _ => 0, write_ptr_ := 0, delay_len_ := 100 }
    lfo_ := fun _ => ()
    wander1_ := fun _ => ()
    wander2_ := fun _ => ()
    damp_lpf_ := fun _ => { a0_ := 0, b1_ := 0, out_ := 0 }
    resonators_ := fun _ => ()
    shimmers_ := initShimmers
    master_decay_ := 0.5
    mode_ := FdnMode.MODE_STUDIO }

/-- The state of the eight lines `t` samples after `UberFDN::Init` on a
zero-filled arena: line `k` is bound at `big_buffer + k * 240000` with cursor
`t mod 240000`, and while `t < 1000` every slot from the cursor to the end of
the line still holds `0`. -/
def linesAt {σ τ ω : Type} (big_buffer : Int) (t : Nat) (st : Arena × UberFDN σ τ ω) : Prop :=
  (∀ k : Fin 8, st.2.delays_ k
      = { buffer_ := big_buffer + (k : Nat) * 240000, max_len_ := 240000,
          write_ptr_ := (t : Int) % 240000 })
    ∧ (t < 1000 → ∀ (k : Fin 8) (i : Int), (t : Int) ≤ i → i < 240000 →
        st.1 (big_buffer + (k : Nat) * 240000 + i) = 0)

/-! ## `fdn.h`: the diffuser `SimpleAllpass` and the feedback path of `SuperFDN` -/

/-- The class `SimpleAllpass` of `fdn.h`: `buffer_[600]`, `write_ptr_` and
`delay_len_`. -/
structure SimpleAllpass where
  buffer_ : Int → ℚ
  write_ptr_ : Int
  delay_len_ : Int

/-- `SimpleAllpass::Init`. -/
def SimpleAllpass.Init (a : SimpleAllpass) : SimpleAllpass :=
  { buffer_ := fun i => if 0 ≤ i ∧ i < 600 then 0 else a.buffer_ i
    write_ptr_ := 0
    delay_len_ := 100 }

/-- `SimpleAllpass::SetDelay(len)`. -/
def SimpleAllpass.SetDelay (a : SimpleAllpass) (len : Int) : SimpleAllpass :=
  { a with delay_len_ := if len > 599 then 599 else len }

/-- The local `read_ptr` of `SimpleAllpass::Process`. -/
def SimpleAllpass.read_ptr (a : SimpleAllpass) : Int :=
  if a.write_ptr_ - a.delay_len_ < 0 then a.write_ptr_ - a.delay_len_ + 600
  else a.write_ptr_ - a.delay_len_

/-- `SimpleAllpass::Process(in)`, with its local `g = 0.5f`:
`out = -in + buf_out; buffer_[write_ptr_] = in + (g * buf_out);`. -/
def SimpleAllpass.Process (a : SimpleAllpass) (x : ℚ) : ℚ × SimpleAllpass :=
  let buf_out := a.buffer_ a.read_ptr
  let g : ℚ := 0.5
  (-x + buf_out,
    { a with
      buffer_ := Function.update a.buffer_ a.write_ptr_ (x + g * buf_out)
      write_ptr_ := if a.write_ptr_ + 1 ≥ 600 then 0 else a.write_ptr_ + 1 })

/-- The same diffuser state seen as an `OmniAllpass`. -/
def SimpleAllpass.toOmni (a : SimpleAllpass) : OmniAllpass :=
  { buffer_ := a.buffer_, write_ptr_ := a.write_ptr_, delay_len_ := a.delay_len_ }

/-- The allpass as the comment in `SimpleAllpass::Process` states it:
`out = -g * in + buf[read]` and `buf[write] = in + g * buf[read]`: the output
and the buffer afterwards. -/
def schroederAllpass (g : ℚ) (buf : Int → ℚ) (read write : Int) (x : ℚ) : ℚ × (Int → ℚ) :=
  (-g * x + buf read, Function.update buf write (x + g * buf read))

/-- `SuperFDN::fclamp`. -/
def SuperFDN.fclamp (x min max : ℚ) : ℚ :=
  if x < min then min else (if x > max then max else x)

/-- The body of the "Feedback, Filter, Write" loop of `SuperFDN::ProcessBlock`
for one line: the first component is the value handed to `delays_[k].Write`.
The DaisySP `OnePole` (`SetFrequency`, `Process`, over a state `ρ`) is a
parameter. -/
def SuperFDN.feedbackLine {ρ : Type} (setFrequency : ρ → ℚ → ρ) (process : ρ → ℚ → ℚ × ρ)
    (sample_rate_ master_decay_ gain matrix_out_k diffused : ℚ) (filt : ρ) : ℚ × ρ :=
  let fb_gain := gain * master_decay_
  let fb_gain := if fb_gain > 0.99 then 0.99 else fb_gain
  let next_in := diffused * 0.25 + matrix_out_k * fb_gain
  let cutoff := 2000.0 + gain * 8000.0
  let r := process (setFrequency filt (cutoff / sample_rate_)) next_in
  (SoftLimit (SuperFDN.fclamp r.1 (-2.0) 2.0), r.2)

/-! ## `UberFDN::Init`, `SetMode`, `SetDecay` -/

/-- The initialisation functions of the DaisySP primitives that
`UberFDN::Init` calls. -/
structure ExternalInit (σ τ ω : Type) where
  shifterInit : ℚ → σ
  shifterSetDelSize : σ → Nat → σ
  oscInit : ℚ → ω
  oscSetWaveformSin : ω → ω
  oscSetAmp : ω → ℚ → ω
  oscSetFreq : ω → ℚ → ω
  svfInit : ℚ → τ

/-- `OmniOnePole::Init`: `out_ = 0.0f; SetFreq(6000.0f);`. -/
def OmniOnePole.Init (expf : ℚ → ℚ) (f : OmniOnePole) : OmniOnePole :=
  ({ f with out_ := 0.0 }).SetFreq expf 6000.0

/-- The local table `diff_lens` of `UberFDN::Init`. -/
def diff_lens : Fin 4 → Int :=
  ![225, 341, 441, 556]

/-- `UberFDN::Init(sample_rate, big_buffer)`, as a step on the arena and the
engine: no statement of it stores through `big_buffer`, so the arena comes
back as it went in. -/
def UberFDN.Init {σ τ ω : Type} (ext : External σ τ ω) (xi : ExternalInit σ τ ω)
    (e : UberFDN σ τ ω) (mem : Arena) (sample_rate : ℚ) (big_buffer : Int) :
    Arena × UberFDN σ τ ω :=
  (mem,
    { sample_rate_ := sample_rate
      delays_ := initDelays big_buffer
      mode_ := FdnMode.MODE_STUDIO
      diffusers_ := fun i => ((e.diffusers_ i).Init).SetDelay (diff_lens i)
      shimmers_ := fun _ =>
        { transpose := 12.0, st := xi.shifterSetDelSize (xi.shifterInit sample_rate) 1600 }
      lfo_ := fun i =>
        xi.oscSetFreq (xi.oscSetAmp (xi.oscSetWaveformSin (xi.oscInit sample_rate)) 1.0)
          (0.1 + ((i : Nat) : ℚ) * 0.05)
      wander1_ := fun i =>
        xi.oscSetAmp (xi.oscSetFreq (xi.oscInit sample_rate) (0.1 + ((i : Nat) : ℚ) * 0.03)) 0.5
      wander2_ := fun i =>
        xi.oscSetAmp (xi.oscSetFreq (xi.oscInit sample_rate) (0.07 + ((i : Nat) : ℚ) * 0.041)) 0.3
      damp_lpf_ := fun i => (e.damp_lpf_ i).Init ext.expf
      resonators_ := fun _ => ext.svf.SetRes (xi.svfInit sample_rate) 0.1
      master_decay_ := 0.5 })

/-- `UberFDN::SetMode`. -/
def UberFDN.SetMode {σ τ ω : Type} (e : UberFDN σ τ ω) (m : FdnMode) : UberFDN σ τ ω :=
  { e with mode_ := m }

/-- `UberFDN::SetDecay`. -/
def UberFDN.SetDecay {σ τ ω : Type} (e : UberFDN σ τ ω) (d : ℚ) : UberFDN σ τ ω :=
  { e with master_decay_ := d }

/-! ## `main.cpp`: mode selection, engine initialisation and the decay control -/

/-- The enum `AppMode` of `main.cpp`. -/
inductive AppMode where
  | APP_STUDIO
  | APP_SHIMMER
  | APP_MASSIVE
  | APP_RESONATOR
  | APP_LEGACY
  deriving DecidableEq, Repr

/-- The mode chosen by `main` from the value `selector` of slider 1. -/
def selectMode (selector : ℚ) : AppMode :=
  if selector < 0.2 then AppMode.APP_STUDIO
  else if selector < 0.4 then AppMode.APP_SHIMMER
  else if selector < 0.6 then AppMode.APP_MASSIVE
  else if selector < 0.8 then AppMode.APP_RESONATOR
  else AppMode.APP_LEGACY

/-- What `main` does to `fdn_engine` before `StartAudio`: in the mode selection
it calls `SetMode` for the three FDN modes, and afterwards, in "Engine Init",
it calls `fdn_engine.Init(samplerate, &big_sdram_buffer[0])` unless the mode is
Legacy or Resonator.  The result is `current_mode`, the arena and the engine. -/
def mainStartup {σ τ ω : Type} (ext : External σ τ ω) (xi : ExternalInit σ τ ω)
    (fdn_engine : UberFDN σ τ ω) (mem : Arena) (samplerate selector : ℚ) :
    AppMode × Arena × UberFDN σ τ ω :=
  let current_mode := selectMode selector
  let e1 :=
    match current_mode with
    | AppMode.APP_STUDIO => fdn_engine.SetMode FdnMode.MODE_STUDIO
    | AppMode.APP_SHIMMER => fdn_engine.SetMode FdnMode.MODE_SHIMMER
    | AppMode.APP_MASSIVE => fdn_engine.SetMode FdnMode.MODE_MASSIVE
    | AppMode.APP_RESONATOR => fdn_engine
    | AppMode.APP_LEGACY => fdn_engine
  if current_mode = AppMode.APP_LEGACY then (current_mode, mem, e1)
  else if current_mode = AppMode.APP_RESONATOR then (current_mode, mem, e1)
  else (current_mode, UberFDN.Init ext xi e1 mem samplerate 0)

/-- The "Combine & Clamp" lines of the main loop for `k_decay`, from the two
ADC readings. -/
def clampDecay (raw_fb_k raw_fb_cv : ℚ) : ℚ :=
  let k_decay := raw_fb_k + raw_fb_cv
  let k_decay := if k_decay < 0.0 then 0.0 else k_decay
  if k_decay > 1.0 then 1.0 else k_decay

/-- The "Update Engines" lines of the main loop, as far as `fdn_engine` is
concerned: in the FDN modes `safe_decay = k_decay`, times `0.98f` unless
`current_mode` is `APP_MASSIVE`, is passed to `SetDecay`. -/
def mainUpdateDecay {σ τ ω : Type} (current_mode : AppMode) (k_decay : ℚ)
    (fdn_engine : UberFDN σ τ ω) : UberFDN σ τ ω :=
  if current_mode = AppMode.APP_LEGACY then fdn_engine
  else if current_mode ≠ AppMode.APP_RESONATOR then
    fdn_engine.SetDecay (if current_mode ≠ AppMode.APP_MASSIVE then k_decay * 0.98 else k_decay)
  else fdn_engine

/-- Stand-ins for the initialisation functions of the library, over one-point
internal states. -/
def unitExternalInit : ExternalInit Unit Unit Unit :=
  { shifterInit := fun _ => ()
    shifterSetDelSize := fun s _ => s
    oscInit := fun _ => ()
    oscSetWaveformSin := fun w => w
    oscSetAmp := fun w _ => w
    oscSetFreq := fun w _ => w
    svfInit := fun _ => () }

/-! ## Binary32 arithmetic -/

/-- Rounding to the nearest integer, a tie going to the even one. -/
def roundEven (q : ℚ) : Int :=
  if q - ⌊q⌋ < 1 / 2 then ⌊q⌋
  else if 1 / 2 < q - ⌊q⌋ then ⌊q⌋ + 1
  else if ⌊q⌋ % 2 = 0 then ⌊q⌋ else ⌊q⌋ + 1

/-- The exponent of the spacing of the binary32 values around `x`: with
`2 ^ e ≤ |x| < 2 ^ (e + 1)` the 24-bit significand leaves a spacing of
`2 ^ (e - 23)`, and below `2 ^ (-126)` (subnormal values) the spacing stays
`2 ^ (-149)`. -/
def ulpExp (x : ℚ) : Int :=
  max (Int.log 2 |x|) (-126) - 23

/-- The binary32 value nearest to `x`, a tie going to the even significand
(the default rounding of IEEE 754 arithmetic). Overflow to infinity, from
`2 ^ 128` on, is not modelled. -/
def f32 (x : ℚ) : ℚ :=
  (roundEven (x / 2 ^ ulpExp x) : ℚ) * 2 ^ ulpExp x

/-- The assignment `shift_mix = (warp - 0.6f) * 2.5f` of `ProcessBlock` as
binary32 arithmetic evaluates it, for a binary32 value `warp`: the two literals,
the difference and the product are each rounded to binary32. -/
def shiftMixF32 (warp : ℚ) : ℚ :=
  f32 (f32 (warp - f32 0.6) * f32 2.5)

/-- The loop `while (read_pos < 0.0f) read_pos += (float)max_len_;` of
`OmniDelay::Read` with the sum rounded to binary32, run for at most `fuel`
iterations: `none` when the loop has not finished by then. -/
def wrapUpF32 (max_len : ℚ) : Nat → ℚ → Option ℚ
  | 0, read_pos => if read_pos < 0 then none else some read_pos
  | fuel + 1, read_pos =>
    if read_pos < 0 then wrapUpF32 max_len fuel (f32 (read_pos + max_len)) else some read_pos

/-- The loop `while (read_pos >= (float)max_len_) read_pos -= (float)max_len_;`
of `OmniDelay::Read` with the difference rounded to binary32, run for at most
`fuel` iterations. -/
def wrapDownF32 (max_len : ℚ) : Nat → ℚ → Option ℚ
  | 0, read_pos => if read_pos ≥ max_len then none else some read_pos
  | fuel + 1, read_pos =>
    if read_pos ≥ max_len then wrapDownF32 max_len fuel (f32 (read_pos - max_len))
    else some read_pos

/-- The value of `read_pos` after the two loops of `OmniDelay::Read` in
binary32, for a binary32 value `delay_samps`: `(float)write_ptr_ - delay_samps`
rounded, then the two loops with the rounded `(float)max_len_`. -/
def OmniDelay.readPosF32 (d : OmniDelay) (fuel : Nat) (delay_samps : ℚ) : Option ℚ :=
  (wrapUpF32 (f32 d.max_len_) fuel (f32 (f32 d.write_ptr_ - delay_samps))).bind
    (wrapDownF32 (f32 d.max_len_) fuel)

/-- The return expression of `OmniDelay::Read` in binary32:
`frac = read_pos - idx` and `buffer_[idx] + frac * (buffer_[idx2] - buffer_[idx])`,
each operation rounded. -/
def OmniDelay.interpF32 (d : OmniDelay) (mem : Arena) (read_pos : ℚ) : ℚ :=
  let frac := f32 (read_pos - f32 (OmniDelay.idx read_pos))
  f32 (mem (d.buffer_ + OmniDelay.idx read_pos)
    + f32 (frac
        * f32 (mem (d.buffer_ + d.idx2 read_pos) - mem (d.buffer_ + OmniDelay.idx read_pos))))

/-- `OmniDelay::Read(delay_samps)` in binary32, with at most `fuel` iterations
of each loop. -/
def OmniDelay.ReadF32 (d : OmniDelay) (fuel : Nat) (mem : Arena) (delay_samps : ℚ) :
    Option ℚ :=
  (d.readPosF32 fuel delay_samps).map (d.interpF32 mem)

end OAM

namespace OAM

/-! ## Matrix mix: energy -/

theorem mixSum_eight (d : Fin 8 → ℚ) :
    mixSum d = (d 0 + d 1 + d 2 + d 3 + d 4 + d 5 + d 6 + d 7) * 0.25 := by
  simp [mixSum, List.finRange, List.ofFn, Fin.foldr, Fin.foldr.loop]

theorem energy_eight (v : Fin 8 → ℚ) :
    energy v = v 0 * v 0 + v 1 * v 1 + v 2 * v 2 + v 3 * v 3 + v 4 * v 4 + v 5 * v 5
      + v 6 * v 6 + v 7 * v 7 := by
  simp [energy, List.finRange, List.ofFn, Fin.foldr, Fin.foldr.loop]

/-- C1: for every vector of 8 delay-line reads, the matrix mix
`matrix_out_k = read_k - 0.25 * sum_j read_j` preserves energy in exact
arithmetic: the sum of the squares of the mixed values equals the sum of the
squares of the reads. -/
theorem matrixMix_energy (delay_outs : Fin 8 → ℚ) :
    energy (matrixMix delay_outs) = energy delay_outs := by
  rw [energy_eight, energy_eight]
  simp only [matrixMix, mixSum_eight]
  norm_num
  ring

/-! ## Soft limiter: bounds -/

theorem SoftLimit_abs (x : ℚ) :
    |SoftLimit x| = |x| * (27 + |x| * |x|) / (27 + 9 * (|x| * |x|)) := by
  have hx : x * x = |x| * |x| := (abs_mul_abs_self x).symm
  have h1 : (0 : ℚ) < 27 + |x| * |x| := by positivity
  have h2 : (0 : ℚ) < 27 + 9 * (|x| * |x|) := by positivity
  unfold SoftLimit
  rw [mul_assoc 9 x x, hx, abs_div, abs_mul, abs_of_pos h1, abs_of_pos h2]

/-- C2 (as stated) fails: at `x = 100` the soft limiter returns
`1002700 / 90027`, which is above 11, so `|SoftLimit x| < 3` does not hold for
inputs of every magnitude. -/
theorem SoftLimit_exceeds_three :
    SoftLimit 100 = 1002700 / 90027 ∧ ¬ (|SoftLimit 100| < 3) := by
  have h : SoftLimit 100 = 1002700 / 90027 := by norm_num [SoftLimit]
  refine ⟨h, ?_⟩
  rw [h]
  norm_num [abs_of_pos]

/-- C2 (amended): for every input `x` with `|x| ≤ 26`, the soft limiter
satisfies `|SoftLimit x| < 3`. -/
theorem SoftLimit_lt_three (x : ℚ) (h : |x| ≤ 26) : |SoftLimit x| < 3 := by
  have ha : 0 ≤ |x| := abs_nonneg x
  have h2 : (0 : ℚ) < 27 + 9 * (|x| * |x|) := by positivity
  rw [SoftLimit_abs, div_lt_iff₀ h2]
  nlinarith [mul_nonneg (sub_nonneg.mpr h) (by nlinarith : 0 ≤ |x| * |x| - |x| + 1)]

theorem SoftLimit_lt_three_witness : |(2 : ℚ)| ≤ 26 ∧ |SoftLimit 2| < 3 :=
  ⟨by norm_num, SoftLimit_lt_three 2 (by norm_num)⟩

/-! ## Feedback gain and injection -/

/-- C4: the feedback gain computed in `UberFDN::ProcessBlock` is
`min (gain_k * masterDecay) 0.99`, except that in Massive mode with
`masterDecay > 0.98` it is exactly `1.0` whatever `gain_k` is; in Studio and
Shimmer modes it never exceeds `0.99`. -/
theorem feedbackGain_spec (mode : FdnMode) (gain master_decay : ℚ) :
    feedbackGain mode gain master_decay
        = (if mode = FdnMode.MODE_MASSIVE ∧ master_decay > 0.98 then 1.0
            else min (gain * master_decay) 0.99)
      ∧ feedbackGain FdnMode.MODE_STUDIO gain master_decay ≤ 0.99
      ∧ feedbackGain FdnMode.MODE_SHIMMER gain master_decay ≤ 0.99 := by
  refine ⟨?_, ?_, ?_⟩
  · unfold feedbackGain
    by_cases hm : mode = FdnMode.MODE_MASSIVE ∧ master_decay > 0.98
    · simp only [hm, and_self, if_true]
    · simp only [hm, if_false]
      by_cases hc : gain * master_decay > 0.99
      · rw [if_pos hc, min_eq_right (le_of_lt hc)]
      · rw [if_neg hc, min_eq_left (not_lt.mp hc)]
  · unfold feedbackGain
    simp only [reduceCtorEq, false_and, if_false]
    split_ifs with hc
    · exact le_refl _
    · exact not_lt.mp hc
  · unfold feedbackGain
    simp only [reduceCtorEq, false_and, if_false]
    split_ifs with hc
    · exact le_refl _
    · exact not_lt.mp hc

theorem blockSetup_massive_low {σ : Type} (warp : ℚ) (sh : Shimmers σ) (h : ¬ warp > 0.6) :
    blockSetup FdnMode.MODE_MASSIVE warp sh
      = { depth := 100.0
          shift_mix := if warp < 0.4 then 0.5 else 0.0
          shimmers := (sh.set 0 ((warp - 0.2) * 2.0)).set 1 ((warp - 0.2) * 2.0 + 0.02) } := by
  simp [blockSetup, h]

theorem blockSetup_massive_high {σ : Type} (warp : ℚ) (sh : Shimmers σ) (h : warp > 0.6) :
    blockSetup FdnMode.MODE_MASSIVE warp sh
      = { depth := 100.0
          shift_mix := (warp - 0.6) * 2.5
          shimmers := (sh.set 0 (if warp > 0.85 then 19.0 else 12.0)).set 1
            (if warp > 0.85 then 19.02 else 12.02) } := by
  simp [blockSetup, h]

theorem Shimmers.set_set_zero {σ : Type} (sh : Shimmers σ) (a b : ℚ) :
    (((sh.set 0 a).set 1 b) 0).transpose = a := by
  simp [Shimmers.set, PitchShifter.SetTransposition, Function.update]

theorem Shimmers.set_set_one {σ : Type} (sh : Shimmers σ) (a b : ℚ) :
    (((sh.set 0 a).set 1 b) 1).transpose = b := by
  simp [Shimmers.set, PitchShifter.SetTransposition, Function.update]

theorem shimmerLogic_massive_zero {σ : Type} (psProcess : ℚ → σ → ℚ → ℚ × σ) (k : Nat)
    (next : ℚ) (sh : Shimmers σ) :
    shimmerLogic psProcess FdnMode.MODE_MASSIVE 0.0 k next sh = (next, sh) := by
  simp [shimmerLogic]

theorem shimmerLogic_massive_three {σ : Type} (psProcess : ℚ → σ → ℚ → ℚ × σ) (mix : ℚ)
    (next : ℚ) (sh : Shimmers σ) (h : mix > 0.0) :
    shimmerLogic psProcess FdnMode.MODE_MASSIVE mix 3 next sh
      = blendShifted psProcess mix 0 next sh := by
  unfold shimmerLogic
  rw [if_neg (by decide), if_pos ⟨rfl, h⟩]
  simp

theorem shimmerLogic_massive_seven {σ : Type} (psProcess : ℚ → σ → ℚ → ℚ × σ) (mix : ℚ)
    (next : ℚ) (sh : Shimmers σ) (h : mix > 0.0) :
    shimmerLogic psProcess FdnMode.MODE_MASSIVE mix 7 next sh
      = blendShifted psProcess mix 1 next sh := by
  unfold shimmerLogic
  rw [if_neg (by decide), if_pos ⟨rfl, h⟩]
  simp

/-- C6 (as stated) fails: in Massive mode at `warp = 0` (which is `≤ 0.4`)
the setup leaves `shift_mix = 0.5`, not `0`. -/
theorem shift_mix_warp_zero :
    (blockSetup FdnMode.MODE_MASSIVE 0 initShimmers).shift_mix = 0.5
      ∧ (blockSetup FdnMode.MODE_MASSIVE 0 initShimmers).shift_mix ≠ 0 := by
  have h : (blockSetup FdnMode.MODE_MASSIVE 0 initShimmers).shift_mix = 0.5 := by
    rw [blockSetup_massive_low 0 initShimmers (by norm_num)]
    norm_num
  refine ⟨h, ?_⟩
  rw [h]
  norm_num

/-- C6 (amended): in Massive mode, for every warp with `0.4 ≤ warp ≤ 0.6`
the blend ratio `shift_mix` computed at the top of `ProcessBlock` is `0` and
lines 3 and 7 are not blended with their pitch-shifted copies; for every
`warp < 0.4` it is `0.5`, and lines 3 and 7 are blended half and half with the
output of pitch shifters 0 and 1. -/
theorem shift_mix_low {σ : Type} (psProcess : ℚ → σ → ℚ → ℚ × σ) (warp : ℚ)
    (sh : Shimmers σ) (next : ℚ) (sh1 : Shimmers σ) (h : warp ≤ 0.6) :
    (blockSetup FdnMode.MODE_MASSIVE warp sh).shift_mix = (if warp < 0.4 then 0.5 else 0)
      ∧ shimmerLogic psProcess FdnMode.MODE_MASSIVE
          (blockSetup FdnMode.MODE_MASSIVE warp sh).shift_mix 3 next sh1
          = (if warp < 0.4 then blendShifted psProcess 0.5 0 next sh1 else (next, sh1))
      ∧ shimmerLogic psProcess FdnMode.MODE_MASSIVE
          (blockSetup FdnMode.MODE_MASSIVE warp sh).shift_mix 7 next sh1
          = (if warp < 0.4 then blendShifted psProcess 0.5 1 next sh1 else (next, sh1)) := by
  rw [blockSetup_massive_low warp sh (not_lt.mpr h)]
  by_cases hw : warp < 0.4
  · simp only [if_pos hw]
    exact ⟨trivial, shimmerLogic_massive_three psProcess 0.5 next sh1 (by norm_num),
      shimmerLogic_massive_seven psProcess 0.5 next sh1 (by norm_num)⟩
  · simp only [if_neg hw]
    refine ⟨by norm_num, ?_, ?_⟩ <;> exact shimmerLogic_massive_zero psProcess _ next sh1

theorem shift_mix_low_witness :
    (blockSetup FdnMode.MODE_MASSIVE 0.5 initShimmers).shift_mix
        = (if (0.5 : ℚ) < 0.4 then 0.5 else 0)
      ∧ shimmerLogic (fun _ s x => (x, s)) FdnMode.MODE_MASSIVE
          (blockSetup FdnMode.MODE_MASSIVE 0.5 initShimmers).shift_mix 3 1 initShimmers
          = (if (0.5 : ℚ) < 0.4 then blendShifted (fun _ s x => (x, s)) 0.5 0 1 initShimmers
              else (1, initShimmers))
      ∧ shimmerLogic (fun _ s x => (x, s)) FdnMode.MODE_MASSIVE
          (blockSetup FdnMode.MODE_MASSIVE 0.5 initShimmers).shift_mix 7 1 initShimmers
          = (if (0.5 : ℚ) < 0.4 then blendShifted (fun _ s x => (x, s)) 0.5 1 1 initShimmers
              else (1, initShimmers)) :=
  shift_mix_low (fun _ s x => (x, s)) 0.5 initShimmers 1 initShimmers (by norm_num)

/-- C7 (as stated) fails: in Massive mode at `warp = 0.5` the transposition
set on pitch shifter 0 is `0.6` semitones, which is not between `-0.6` and `0`. -/
theorem detune_warp_half :
    ((blockSetup FdnMode.MODE_MASSIVE 0.5 initShimmers).shimmers 0).transpose = 0.6
      ∧ ¬ (-0.6 ≤ ((blockSetup FdnMode.MODE_MASSIVE 0.5 initShimmers).shimmers 0).transpose
            ∧ ((blockSetup FdnMode.MODE_MASSIVE 0.5 initShimmers).shimmers 0).transpose ≤ 0) := by
  have h : ((blockSetup FdnMode.MODE_MASSIVE 0.5 initShimmers).shimmers 0).transpose = 0.6 := by
    rw [blockSetup_massive_low 0.5 initShimmers (by norm_num)]
    simp only [Shimmers.set_set_zero]
    norm_num
  refine ⟨h, ?_⟩
  rw [h]
  norm_num

/-- C7 (amended): in Massive mode, for every warp with `0.4 ≤ warp ≤ 0.6`,
`shift_mix` is `0`, the transposition set on pitch shifter 0 is
`(warp - 0.2) * 2` and lies between `0.4` and `0.8` semitones (ramping with
warp), and pitch shifter 1 is set `0.02` semitones above it. -/
theorem detune_mid {σ : Type} (warp : ℚ) (sh : Shimmers σ)
    (h1 : 0.4 ≤ warp) (h2 : warp ≤ 0.6) :
    (blockSetup FdnMode.MODE_MASSIVE warp sh).shift_mix = 0
      ∧ ((blockSetup FdnMode.MODE_MASSIVE warp sh).shimmers 0).transpose = (warp - 0.2) * 2
      ∧ 0.4 ≤ ((blockSetup FdnMode.MODE_MASSIVE warp sh).shimmers 0).transpose
      ∧ ((blockSetup FdnMode.MODE_MASSIVE warp sh).shimmers 0).transpose ≤ 0.8
      ∧ ((blockSetup FdnMode.MODE_MASSIVE warp sh).shimmers 1).transpose
          = ((blockSetup FdnMode.MODE_MASSIVE warp sh).shimmers 0).transpose + 0.02 := by
  rw [blockSetup_massive_low warp sh (not_lt.mpr h2)]
  simp only [Shimmers.set_set_zero, Shimmers.set_set_one, if_neg (not_lt.mpr h1)]
  norm_num
  constructor <;> linarith

theorem detune_mid_witness :
    (blockSetup FdnMode.MODE_MASSIVE 0.5 initShimmers).shift_mix = 0
      ∧ ((blockSetup FdnMode.MODE_MASSIVE 0.5 initShimmers).shimmers 0).transpose
          = (0.5 - 0.2) * 2
      ∧ 0.4 ≤ ((blockSetup FdnMode.MODE_MASSIVE 0.5 initShimmers).shimmers 0).transpose
      ∧ ((blockSetup FdnMode.MODE_MASSIVE 0.5 initShimmers).shimmers 0).transpose ≤ 0.8
      ∧ ((blockSetup FdnMode.MODE_MASSIVE 0.5 initShimmers).shimmers 1).transpose
          = ((blockSetup FdnMode.MODE_MASSIVE 0.5 initShimmers).shimmers 0).transpose + 0.02 :=
  detune_mid 0.5 initShimmers (by norm_num) (by norm_num)

/-- C9 (as stated) fails for line 7: in Massive mode at `warp = 0.7` the
transposition set on pitch shifter 1 (the one blended into line 7) is `12.02`
semitones, not `12`. -/
theorem transposition_line7_warp :
    ((blockSetup FdnMode.MODE_MASSIVE 0.7 initShimmers).shimmers 1).transpose = 12.02
      ∧ ((blockSetup FdnMode.MODE_MASSIVE 0.7 initShimmers).shimmers 1).transpose ≠ 12 := by
  have h : ((blockSetup FdnMode.MODE_MASSIVE 0.7 initShimmers).shimmers 1).transpose
      = 12.02 := by
    rw [blockSetup_massive_high 0.7 initShimmers (by norm_num)]
    simp only [Shimmers.set_set_one]
    norm_num
  refine ⟨h, ?_⟩
  rw [h]
  norm_num

/-- C9 (amended): in Massive mode, for every warp with `0.6 < warp ≤ 0.85`
the transposition set for the pitch-shifted copy of line 3 (pitch shifter 0)
is `12` semitones and the one for line 7 (pitch shifter 1) is `12.02`; for
every `warp > 0.85` they are `19` and `19.02`; so the switch happens exactly at
`warp = 0.85`.  Lines 3 and 7 are blended with pitch shifters 0 and 1. -/
theorem transposition_switch {σ : Type} (psProcess : ℚ → σ → ℚ → ℚ × σ) (warp : ℚ)
    (sh : Shimmers σ) (next : ℚ) (sh1 : Shimmers σ) (h : 0.6 < warp) :
    ((blockSetup FdnMode.MODE_MASSIVE warp sh).shimmers 0).transpose
        = (if warp > 0.85 then 19 else 12)
      ∧ ((blockSetup FdnMode.MODE_MASSIVE warp sh).shimmers 1).transpose
        = (if warp > 0.85 then 19.02 else 12.02)
      ∧ shimmerLogic psProcess FdnMode.MODE_MASSIVE
          (blockSetup FdnMode.MODE_MASSIVE warp sh).shift_mix 3 next sh1
          = blendShifted psProcess (blockSetup FdnMode.MODE_MASSIVE warp sh).shift_mix 0 next sh1
      ∧ shimmerLogic psProcess FdnMode.MODE_MASSIVE
          (blockSetup FdnMode.MODE_MASSIVE warp sh).shift_mix 7 next sh1
          = blendShifted psProcess (blockSetup FdnMode.MODE_MASSIVE warp sh).shift_mix 1 next sh1 := by
  rw [blockSetup_massive_high warp sh h]
  simp only [Shimmers.set_set_zero, Shimmers.set_set_one]
  have hpos : (warp - 0.6) * 2.5 > (0.0 : ℚ) := by
    norm_num at h ⊢
    linarith
  refine ⟨?_, trivial, ?_, ?_⟩
  · split_ifs <;> norm_num
  · exact shimmerLogic_massive_three psProcess _ next sh1 hpos
  · exact shimmerLogic_massive_seven psProcess _ next sh1 hpos

theorem transposition_switch_witness :
    ((blockSetup FdnMode.MODE_MASSIVE 0.9 initShimmers).shimmers 0).transpose
        = (if (0.9 : ℚ) > 0.85 then 19 else 12)
      ∧ ((blockSetup FdnMode.MODE_MASSIVE 0.9 initShimmers).shimmers 1).transpose
        = (if (0.9 : ℚ) > 0.85 then 19.02 else 12.02)
      ∧ shimmerLogic (fun _ s x => (x, s)) FdnMode.MODE_MASSIVE
          (blockSetup FdnMode.MODE_MASSIVE 0.9 initShimmers).shift_mix 3 1 initShimmers
          = blendShifted (fun _ s x => (x, s))
              (blockSetup FdnMode.MODE_MASSIVE 0.9 initShimmers).shift_mix 0 1 initShimmers
      ∧ shimmerLogic (fun _ s x => (x, s)) FdnMode.MODE_MASSIVE
          (blockSetup FdnMode.MODE_MASSIVE 0.9 initShimmers).shift_mix 7 1 initShimmers
          = blendShifted (fun _ s x => (x, s))
              (blockSetup FdnMode.MODE_MASSIVE 0.9 initShimmers).shift_mix 1 1 initShimmers :=
  transposition_switch (fun _ s x => (x, s)) 0.9 initShimmers 1 initShimmers (by norm_num)

/-! ## Shimmer mode -/

theorem feedbackLine_fst {σ τ : Type} (expf : ℚ → ℚ) (svf : SvfOps τ)
    (psProcess : ℚ → σ → ℚ → ℚ × σ) (mode : FdnMode) (master_decay shift_mix : ℚ)
    (k : Nat) (gain matrix_out_k diffused : ℚ) (lpf : OmniOnePole) (res : τ)
    (sh : Shimmers σ) :
    (feedbackLine expf svf psProcess mode master_decay shift_mix k gain matrix_out_k
        diffused lpf res sh).1
      = SoftLimit (shimmerLogic psProcess mode shift_mix k
          (toneShape expf svf mode k gain
            (injectNext mode master_decay matrix_out_k
              (feedbackGain mode gain master_decay) diffused) lpf res).1 sh).1 :=
  rfl

theorem wrapUp_spec (m : ℚ) :
    ∀ (fuel : Nat) (x : ℚ), 0 ≤ x + fuel * m →
      ∃ k : Nat, wrapUp m fuel x = some (x + k * m) ∧ 0 ≤ x + k * m
        ∧ (x < 0 → x + k * m < m) ∧ (0 ≤ x → k = 0) := by
  intro fuel
  induction fuel with
  | zero =>
    intro x hx
    simp only [Nat.cast_zero, zero_mul, add_zero] at hx
    exact ⟨0, by simp [wrapUp, not_lt.mpr hx], by simpa using hx,
      fun h => absurd hx (not_le.mpr h), fun _ => rfl⟩
  | succ n ih =>
    intro x hx
    by_cases hneg : x < 0
    · have h2 : 0 ≤ (x + m) + n * m := by
        push_cast at hx
        linarith
      obtain ⟨k, hk1, hk2, hk3, hk4⟩ := ih (x + m) h2
      refine ⟨k + 1, ?_, ?_, ?_, ?_⟩
      · simp only [wrapUp, if_pos hneg, hk1]
        push_cast
        congr 1
        ring
      · push_cast
        linarith
      · intro _
        push_cast
        by_cases hxm : x + m < 0
        · have := hk3 hxm
          linarith
        · have hk0 := hk4 (not_lt.mp hxm)
          subst hk0
          simp
          linarith
      · intro h
        exact absurd h (not_le.mpr hneg)
    · exact ⟨0, by simp [wrapUp, hneg], by simpa using not_lt.mp hneg,
        fun h => absurd h hneg, fun _ => rfl⟩

theorem wrapDown_spec (m : ℚ) :
    ∀ (fuel : Nat) (x : ℚ), 0 ≤ x → x < (fuel + 1) * m →
      ∃ k : Nat, wrapDown m fuel x = some (x - k * m) ∧ 0 ≤ x - k * m ∧ x - k * m < m := by
  intro fuel
  induction fuel with
  | zero =>
    intro x hx0 hx
    simp only [Nat.cast_zero, zero_add, one_mul] at hx
    exact ⟨0, by simp [wrapDown, not_le.mpr hx], by simpa using hx0, by simpa using hx⟩
  | succ n ih =>
    intro x hx0 hx
    by_cases hge : x ≥ m
    · have h2 : x - m < (n + 1) * m := by
        push_cast at hx
        linarith
      obtain ⟨k, hk1, hk2, hk3⟩ := ih (x - m) (by linarith) h2
      refine ⟨k + 1, ?_, ?_, ?_⟩
      · simp only [wrapDown, if_pos hge, hk1]
        push_cast
        congr 1
        ring
      · push_cast
        linarith
      · push_cast
        linarith
    · exact ⟨0, by simp [wrapDown, hge], by simpa using hx0, by simpa using not_le.mp hge⟩



theorem wrapPos_mem (capacity : Int) (hcap : 1 ≤ capacity) (x : ℚ) :
    0 ≤ wrapPos capacity x ∧ wrapPos capacity x < capacity := by
  have hc : (0 : ℚ) < capacity := by exact_mod_cast (by omega : (0 : Int) < capacity)
  have h1 : (⌊x / capacity⌋ : ℚ) ≤ x / capacity := Int.floor_le _
  have h2 : x / capacity < ⌊x / capacity⌋ + 1 := Int.lt_floor_add_one _
  rw [le_div_iff₀ hc] at h1
  rw [div_lt_iff₀ hc] at h2
  unfold wrapPos
  constructor <;> linarith

theorem wrapPos_unique (capacity : Int) (hcap : 1 ≤ capacity) (x q : ℚ) (n : Int)
    (h0 : 0 ≤ q) (h1 : q < capacity) (hq : q = x + n * capacity) :
    q = wrapPos capacity x := by
  have hc : (0 : ℚ) < capacity := by exact_mod_cast (by omega : (0 : Int) < capacity)
  have hfl : ⌊x / capacity⌋ = -n := by
    rw [Int.floor_eq_iff]
    push_cast
    constructor
    · rw [le_div_iff₀ hc]
      linarith
    · rw [div_lt_iff₀ hc]
      linarith
  unfold wrapPos
  rw [hfl, hq]
  push_cast
  ring

theorem OmniDelay.readPos_spec (d : OmniDelay) (hcap : 1 ≤ d.max_len_) (delay_samps : ℚ)
    (fuel : Nat) (hfuel : |(d.write_ptr_ : ℚ) - delay_samps| ≤ fuel) :
    d.readPos fuel delay_samps = some (wrapPos d.max_len_ ((d.write_ptr_ : ℚ) - delay_samps)) := by
  have hc : (1 : ℚ) ≤ d.max_len_ := by exact_mod_cast hcap
  have hf0 : (0 : ℚ) ≤ fuel := Nat.cast_nonneg fuel
  have hx1 := neg_abs_le ((d.write_ptr_ : ℚ) - delay_samps)
  have hx2 := le_abs_self ((d.write_ptr_ : ℚ) - delay_samps)
  have hfm : (fuel : ℚ) ≤ fuel * d.max_len_ := by nlinarith
  obtain ⟨k, hk1, hk2, hk3, hk4⟩ :=
    wrapUp_spec d.max_len_ fuel ((d.write_ptr_ : ℚ) - delay_samps) (by linarith)
  have hlt : (d.write_ptr_ : ℚ) - delay_samps + k * d.max_len_ < (fuel + 1) * d.max_len_ := by
    by_cases hneg : (d.write_ptr_ : ℚ) - delay_samps < 0
    · have := hk3 hneg
      nlinarith
    · have hk0 := hk4 (not_lt.mp hneg)
      subst hk0
      simp only [Nat.cast_zero, zero_mul, add_zero]
      nlinarith
  obtain ⟨j, hj1, hj2, hj3⟩ :=
    wrapDown_spec d.max_len_ fuel _ hk2 hlt
  unfold OmniDelay.readPos
  rw [hk1, Option.some_bind, hj1]
  congr 1
  apply wrapPos_unique d.max_len_ hcap _ _ ((k : Int) - (j : Int)) hj2 hj3
  push_cast
  ring


theorem OmniDelay.idx_of_nonneg (p : ℚ) (h0 : 0 ≤ p) : OmniDelay.idx p = ⌊p⌋ := by
  simp [OmniDelay.idx, castInt, h0]

theorem floor_wrapPos_mem (capacity : Int) (hcap : 1 ≤ capacity) (x : ℚ) :
    0 ≤ ⌊wrapPos capacity x⌋ ∧ ⌊wrapPos capacity x⌋ < capacity := by
  obtain ⟨h0, h1⟩ := wrapPos_mem capacity hcap x
  exact ⟨Int.floor_nonneg.mpr h0, Int.floor_lt.mpr h1⟩

theorem OmniDelay.idx2_eq (d : OmniDelay) (p : ℚ) (h0 : 0 ≤ OmniDelay.idx p)
    (h1 : OmniDelay.idx p < d.max_len_) :
    d.idx2 p = (OmniDelay.idx p + 1) % d.max_len_ := by
  unfold OmniDelay.idx2
  split_ifs with h
  · have : OmniDelay.idx p + 1 = d.max_len_ := by omega
    rw [this, Int.emod_self]
  · rw [Int.emod_eq_of_lt (by omega) (by omega)]

theorem OmniDelay.Read_eq (d : OmniDelay) (mem : Arena) (hcap : 1 ≤ d.max_len_)
    (delay_samps : ℚ) (fuel : Nat) (hfuel : |(d.write_ptr_ : ℚ) - delay_samps| ≤ fuel) :
    d.Read fuel mem delay_samps
      = some (mem (d.buffer_ + ⌊wrapPos d.max_len_ ((d.write_ptr_ : ℚ) - delay_samps)⌋)
          + (wrapPos d.max_len_ ((d.write_ptr_ : ℚ) - delay_samps)
              - (⌊wrapPos d.max_len_ ((d.write_ptr_ : ℚ) - delay_samps)⌋ : ℚ))
            * (mem (d.buffer_
                  + (⌊wrapPos d.max_len_ ((d.write_ptr_ : ℚ) - delay_samps)⌋ + 1) % d.max_len_)
                - mem (d.buffer_ + ⌊wrapPos d.max_len_ ((d.write_ptr_ : ℚ) - delay_samps)⌋))) := by
  obtain ⟨h0, h1⟩ := wrapPos_mem d.max_len_ hcap ((d.write_ptr_ : ℚ) - delay_samps)
  obtain ⟨hf0, hf1⟩ := floor_wrapPos_mem d.max_len_ hcap ((d.write_ptr_ : ℚ) - delay_samps)
  have hi := OmniDelay.idx_of_nonneg _ h0
  have hi2 := OmniDelay.idx2_eq d (wrapPos d.max_len_ ((d.write_ptr_ : ℚ) - delay_samps))
    (by rw [hi]; exact hf0) (by rw [hi]; exact hf1)
  unfold OmniDelay.Read
  rw [OmniDelay.readPos_spec d hcap delay_samps fuel hfuel, Option.map_some']
  simp only [OmniDelay.interp, hi2, hi]

/-- C11: for every capacity `≥ 1`, every write cursor and every delay `d`,
`OmniDelay::Read(d)` returns (given enough loop iterations, here `fuel`)
`buf[i] + f * (buf[j] - buf[i])`, where `p` is the unique value in
`[0, capacity)` congruent to `cursor - d` modulo the capacity, `i = ⌊p⌋`,
`f = p - i` and `j = (i + 1) mod capacity`; both `i` and `j` are valid
indices in `[0, capacity)`. -/
theorem OmniDelay.Read_interpolates (buf capacity cursor : Int) (mem : Arena) (delay : ℚ)
    (fuel : Nat) (hcap : 1 ≤ capacity)
    (hfuel : |(cursor : ℚ) - delay| ≤ fuel) :
    (0 ≤ wrapPos capacity (cursor - delay) ∧ wrapPos capacity (cursor - delay) < capacity)
      ∧ (∃ n : Int, wrapPos capacity (cursor - delay) = cursor - delay + n * capacity)
      ∧ (∀ q : ℚ, 0 ≤ q → q < capacity → (∃ n : Int, q = cursor - delay + n * capacity) →
          q = wrapPos capacity (cursor - delay))
      ∧ (0 ≤ ⌊wrapPos capacity (cursor - delay)⌋ ∧ ⌊wrapPos capacity (cursor - delay)⌋ < capacity)
      ∧ (0 ≤ (⌊wrapPos capacity (cursor - delay)⌋ + 1) % capacity
          ∧ (⌊wrapPos capacity (cursor - delay)⌋ + 1) % capacity < capacity)
      ∧ OmniDelay.Read { buffer_ := buf, max_len_ := capacity, write_ptr_ := cursor } fuel mem delay
          = some (mem (buf + ⌊wrapPos capacity (cursor - delay)⌋)
              + (wrapPos capacity (cursor - delay) - (⌊wrapPos capacity (cursor - delay)⌋ : ℚ))
                * (mem (buf + (⌊wrapPos capacity (cursor - delay)⌋ + 1) % capacity)
                    - mem (buf + ⌊wrapPos capacity (cursor - delay)⌋))) := by
  have hpos : (0 : Int) < capacity := by omega
  refine ⟨wrapPos_mem capacity hcap _, ⟨-⌊((cursor : ℚ) - delay) / capacity⌋, ?_⟩, ?_,
    floor_wrapPos_mem capacity hcap _,
    ⟨Int.emod_nonneg _ (by omega), Int.emod_lt_of_pos _ hpos⟩, ?_⟩
  · unfold wrapPos
    push_cast
    ring
  · rintro q h0 h1 ⟨n, hn⟩
    exact wrapPos_unique capacity hcap _ q n h0 h1 hn
  · exact OmniDelay.Read_eq { buffer_ := buf, max_len_ := capacity, write_ptr_ := cursor } mem
      hcap delay fuel hfuel


theorem wrapPos_add_capacity (capacity : Int) (hcap : 1 ≤ capacity) (x : ℚ) :
    wrapPos capacity (x - capacity) = wrapPos capacity x := by
  obtain ⟨h0, h1⟩ := wrapPos_mem capacity hcap (x - capacity)
  refine wrapPos_unique capacity hcap x _ (-⌊(x - capacity) / capacity⌋ - 1) h0 h1 ?_
  unfold wrapPos
  push_cast
  ring

/-- Exact arithmetic only: when the two loops of `OmniDelay::Read` add and
subtract the capacity without rounding, they finish within a bounded number of
iterations for every capacity `≥ 1`, every state and every delay `d`, and
`Read(d + capacity) = Read(d)`. In binary32 the loops need not finish (see
`wrapUpF32_stall`). -/
theorem OmniDelay.Read_periodic (d : OmniDelay) (mem : Arena) (delay : ℚ)
    (hcap : 1 ≤ d.max_len_) :
    ∃ N : Nat, ∀ fuel : Nat, N ≤ fuel →
      (d.Read fuel mem delay).isSome = true
        ∧ d.Read fuel mem (delay + d.max_len_) = d.Read fuel mem delay := by
  refine ⟨⌈|(d.write_ptr_ : ℚ) - delay| + d.max_len_⌉₊, fun fuel hfuel => ?_⟩
  have hc : (1 : ℚ) ≤ d.max_len_ := by exact_mod_cast hcap
  have hN : |(d.write_ptr_ : ℚ) - delay| + d.max_len_ ≤ fuel :=
    le_trans (Nat.le_ceil _) (by exact_mod_cast hfuel)
  have h1 : |(d.write_ptr_ : ℚ) - delay| ≤ fuel := by linarith
  have h2 : |(d.write_ptr_ : ℚ) - (delay + d.max_len_)| ≤ fuel := by
    have hsub : (d.write_ptr_ : ℚ) - (delay + d.max_len_)
        = ((d.write_ptr_ : ℚ) - delay) - d.max_len_ := by ring
    rw [hsub]
    have habs : |(d.max_len_ : ℚ)| = d.max_len_ := abs_of_pos (by linarith)
    calc |((d.write_ptr_ : ℚ) - delay) - d.max_len_|
        ≤ |(d.write_ptr_ : ℚ) - delay| + |(d.max_len_ : ℚ)| := abs_sub _ _
      _ = |(d.write_ptr_ : ℚ) - delay| + d.max_len_ := by rw [habs]
      _ ≤ fuel := hN
  have hw : wrapPos d.max_len_ ((d.write_ptr_ : ℚ) - (delay + d.max_len_))
      = wrapPos d.max_len_ ((d.write_ptr_ : ℚ) - delay) := by
    rw [← wrapPos_add_capacity d.max_len_ hcap ((d.write_ptr_ : ℚ) - delay)]
    congr 1
    ring
  rw [OmniDelay.Read_eq d mem hcap delay fuel h1,
    OmniDelay.Read_eq d mem hcap (delay + d.max_len_) fuel h2, hw]
  exact ⟨rfl, rfl⟩

theorem OmniDelay.Write_cursor (d : OmniDelay) (mem : Arena) (sample : ℚ)
    (hcap : 1 ≤ d.max_len_) (h0 : 0 ≤ d.write_ptr_) (h1 : d.write_ptr_ < d.max_len_) :
    (d.Write mem sample).2.write_ptr_ = (d.write_ptr_ + 1) % d.max_len_
      ∧ 0 ≤ (d.Write mem sample).2.write_ptr_
      ∧ (d.Write mem sample).2.write_ptr_ < d.max_len_ := by
  simp only [OmniDelay.Write]
  split_ifs with h
  · have : d.write_ptr_ + 1 = d.max_len_ := by omega
    rw [this, Int.emod_self]
    omega
  · rw [Int.emod_eq_of_lt (by omega) (by omega)]
    omega

theorem OmniDelay.Write_frame (d : OmniDelay) (mem : Arena) (sample : ℚ) :
    (d.Write mem sample).2.buffer_ = d.buffer_ ∧ (d.Write mem sample).2.max_len_ = d.max_len_ :=
  ⟨rfl, rfl⟩

theorem OmniDelay.writeAll_frame (samples : List ℚ) :
    ∀ (d : OmniDelay) (mem : Arena),
      (d.writeAll mem samples).2.buffer_ = d.buffer_
        ∧ (d.writeAll mem samples).2.max_len_ = d.max_len_ := by
  induction samples with
  | nil => intro d mem; exact ⟨rfl, rfl⟩
  | cons s rest ih =>
    intro d mem
    simp only [OmniDelay.writeAll]
    exact ih _ _

theorem OmniDelay.writeAll_cursor (samples : List ℚ) :
    ∀ (d : OmniDelay) (mem : Arena), 1 ≤ d.max_len_ → 0 ≤ d.write_ptr_ →
      d.write_ptr_ < d.max_len_ →
      0 ≤ (d.writeAll mem samples).2.write_ptr_
        ∧ (d.writeAll mem samples).2.write_ptr_ < d.max_len_ := by
  induction samples with
  | nil => intro d mem _ h0 h1; exact ⟨h0, h1⟩
  | cons s rest ih =>
    intro d mem hcap h0 h1
    obtain ⟨_, hw0, hw1⟩ := OmniDelay.Write_cursor d mem s hcap h0 h1
    simp only [OmniDelay.writeAll]
    exact ih (d.Write mem s).2 (d.Write mem s).1 hcap hw0 hw1

/-- C19: for every capacity `≥ 1`, `OmniDelay::Init` sets the write cursor to
`0`, and every `Write` keeps the cursor in `[0, capacity)`: it stores the
sample at the old cursor, changes no other slot, and sets the cursor to
`(old cursor + 1) mod capacity`; so after `Init` and any run of writes the
cursor is in `[0, capacity)`. -/
theorem OmniDelay.Write_spec (buf capacity cursor : Int) (mem : Arena) (sample : ℚ)
    (samples : List ℚ) (hcap : 1 ≤ capacity) (h0 : 0 ≤ cursor) (h1 : cursor < capacity) :
    (OmniDelay.Init buf capacity).write_ptr_ = 0
      ∧ (OmniDelay.Init buf capacity).max_len_ = capacity
      ∧ (OmniDelay.Write { buffer_ := buf, max_len_ := capacity, write_ptr_ := cursor }
          mem sample).1 (buf + cursor) = sample
      ∧ (∀ a : Int, a ≠ buf + cursor →
          (OmniDelay.Write { buffer_ := buf, max_len_ := capacity, write_ptr_ := cursor }
            mem sample).1 a = mem a)
      ∧ (OmniDelay.Write { buffer_ := buf, max_len_ := capacity, write_ptr_ := cursor }
          mem sample).2.write_ptr_ = (cursor + 1) % capacity
      ∧ (0 ≤ (OmniDelay.Write { buffer_ := buf, max_len_ := capacity, write_ptr_ := cursor }
              mem sample).2.write_ptr_
          ∧ (OmniDelay.Write { buffer_ := buf, max_len_ := capacity, write_ptr_ := cursor }
              mem sample).2.write_ptr_ < capacity)
      ∧ (0 ≤ ((OmniDelay.Init buf capacity).writeAll mem samples).2.write_ptr_
          ∧ ((OmniDelay.Init buf capacity).writeAll mem samples).2.write_ptr_ < capacity) := by
  obtain ⟨hw, hw0, hw1⟩ := OmniDelay.Write_cursor
    { buffer_ := buf, max_len_ := capacity, write_ptr_ := cursor } mem sample hcap h0 h1
  refine ⟨rfl, rfl, ?_, ?_, hw, ⟨hw0, hw1⟩, ?_⟩
  · simp [OmniDelay.Write, OmniDelay.writeAddr]
  · intro a ha
    simp [OmniDelay.Write, OmniDelay.writeAddr, Function.update, ha]
  · exact OmniDelay.writeAll_cursor samples (OmniDelay.Init buf capacity) mem hcap
      (le_refl _) (by simp only [OmniDelay.Init]; omega)

theorem OmniDelay.writeAll_append (xs : List ℚ) (y : ℚ) :
    ∀ (d : OmniDelay) (mem : Arena),
      d.writeAll mem (xs ++ [y])
        = (d.writeAll mem xs).2.Write (d.writeAll mem xs).1 y := by
  induction xs with
  | nil => intro d mem; rfl
  | cons x rest ih =>
    intro d mem
    simp only [List.cons_append, OmniDelay.writeAll]
    exact ih _ _

theorem emod_shift_eq_self (capacity c a : Int) (hc0 : 0 ≤ c) (hc1 : c < capacity)
    (ha0 : -capacity < a) (ha1 : a < capacity) :
    (c + a) % capacity = c ↔ a = 0 := by
  constructor
  · intro h
    have hdvd : capacity ∣ a := by
      have h2 : (c + a) % capacity = c % capacity := by
        rw [h, Int.emod_eq_of_lt hc0 hc1]
      have h3 := (Int.emod_emod_of_dvd (c + a) (dvd_refl capacity)).symm
      have h4 : capacity ∣ (c + a) - c := Int.ModEq.dvd (Int.ModEq.symm h2)
      simpa using h4
    exact Int.eq_zero_of_abs_lt_dvd hdvd (abs_lt.mpr ⟨ha0, ha1⟩)
  · intro h
    rw [h, add_zero, Int.emod_eq_of_lt hc0 hc1]

theorem OmniDelay.writeAll_impulse (buf capacity cursor : Int) (mem : Arena) (v : ℚ)
    (hcap : 2 ≤ capacity) (hc0 : 0 ≤ cursor) (hc1 : cursor < capacity)
    (hzero : ∀ i : Int, 0 ≤ i → i < capacity → mem (buf + i) = 0) :
    ∀ j : Nat, (j : Int) ≤ capacity - 2 →
      OmniDelay.writeAll { buffer_ := buf, max_len_ := capacity, write_ptr_ := cursor } mem
          (v :: List.replicate j 0)
        = (Function.update mem (buf + cursor) v,
            { buffer_ := buf, max_len_ := capacity,
              write_ptr_ := (cursor + 1 + j) % capacity }) := by
  intro j
  induction j with
  | zero =>
    intro _
    simp only [List.replicate_zero, OmniDelay.writeAll, OmniDelay.Write, OmniDelay.writeAddr,
      Nat.cast_zero, add_zero]
    congr 2
    split_ifs with h
    · have : cursor + 1 = capacity := by omega
      rw [this, Int.emod_self]
    · rw [Int.emod_eq_of_lt (by omega) (by omega)]
  | succ j ih =>
    intro hj
    have hj2 : (j : Int) ≤ capacity - 2 := by push_cast at hj; omega
    rw [List.replicate_succ', ← List.cons_append, OmniDelay.writeAll_append, ih hj2]
    have hpos : (0 : Int) < capacity := by omega
    have hm0 : 0 ≤ (cursor + 1 + j) % capacity := Int.emod_nonneg _ (by omega)
    have hm1 : (cursor + 1 + j) % capacity < capacity := Int.emod_lt_of_pos _ hpos
    have hne : (cursor + 1 + (j : Int)) % capacity ≠ cursor := by
      intro h
      rw [add_assoc] at h
      have := (emod_shift_eq_self capacity cursor (1 + j) hc0 hc1 (by omega)
        (by push_cast at hj; omega)).mp h
      omega
    have hval : Function.update mem (buf + cursor) v (buf + (cursor + 1 + (j : Int)) % capacity)
        = 0 := by
      rw [Function.update_noteq (by intro h; exact hne (by linarith)), hzero _ hm0 hm1]
    have hupd := Function.update_eq_self (buf + (cursor + 1 + (j : Int)) % capacity)
      (Function.update mem (buf + cursor) v)
    rw [hval] at hupd
    have h4 : (cursor + 1 + ((j + 1 : Nat) : Int)) % capacity
        = ((cursor + 1 + (j : Int)) % capacity + 1) % capacity := by
      rw [Int.emod_add_emod]
      push_cast
      ring_nf
    have h5 : (if (cursor + 1 + (j : Int)) % capacity + 1 ≥ capacity then 0
          else (cursor + 1 + (j : Int)) % capacity + 1)
        = ((cursor + 1 + (j : Int)) % capacity + 1) % capacity := by
      split_ifs with h
      · have h3 : (cursor + 1 + (j : Int)) % capacity + 1 = capacity := by omega
        rw [h3, Int.emod_self]
      · exact (Int.emod_eq_of_lt (by omega) (by omega)).symm
    simp only [OmniDelay.Write, OmniDelay.writeAddr]
    rw [hupd, h5, h4]


theorem wrapPos_of_ceil (capacity c' m : Int) (hcap : 1 ≤ capacity) (delay : ℚ)
    (hm : c' = m % capacity) :
    wrapPos capacity ((c' : ℚ) - delay)
      = (((m - ⌈delay⌉) % capacity : Int) : ℚ) + ((⌈delay⌉ : ℚ) - delay) := by
  have hpos : (0 : Int) < capacity := by omega
  have hi0 : 0 ≤ (m - ⌈delay⌉) % capacity := Int.emod_nonneg _ (by omega)
  have hi1 : (m - ⌈delay⌉) % capacity < capacity := Int.emod_lt_of_pos _ hpos
  have hg0 : (0 : ℚ) ≤ (⌈delay⌉ : ℚ) - delay := sub_nonneg.mpr (Int.le_ceil delay)
  have hg1 : (⌈delay⌉ : ℚ) - delay < 1 := by
    have := Int.ceil_lt_add_one delay
    linarith
  have hi1q : (((m - ⌈delay⌉) % capacity : Int) : ℚ) ≤ (capacity : ℚ) - 1 := by
    have : (m - ⌈delay⌉) % capacity ≤ capacity - 1 := by omega
    exact_mod_cast this
  have hi0q : (0 : ℚ) ≤ (((m - ⌈delay⌉) % capacity : Int) : ℚ) := by exact_mod_cast hi0
  symm
  refine wrapPos_unique capacity hcap _ _ (m / capacity - (m - ⌈delay⌉) / capacity)
    (by linarith) (by linarith) ?_
  rw [hm, Int.emod_def, Int.emod_def]
  push_cast
  ring

theorem impulse_tent (capacity c : Int) (j : Nat) (v delay : ℚ) (m0 m1 : ℚ)
    (hc0 : 0 ≤ c) (hc1 : c < capacity) (hj : (j : Int) ≤ capacity - 2)
    (hd0 : 0 ≤ delay) (hd1 : delay < capacity)
    (h0 : m0 = if (c + 1 + j - ⌈delay⌉) % capacity = c then v else 0)
    (h1 : m1 = if ((c + 1 + j - ⌈delay⌉) % capacity + 1) % capacity = c then v else 0) :
    m0 + ((⌈delay⌉ : ℚ) - delay) * (m1 - m0) = v * max 0 (1 - |delay - (j + 1)|) := by
  have hD0 : 0 ≤ ⌈delay⌉ := Int.ceil_nonneg hd0
  have hD1 : ⌈delay⌉ ≤ capacity := Int.ceil_le.mpr (le_of_lt hd1)
  have hle : delay ≤ ⌈delay⌉ := Int.le_ceil delay
  have hlt : (⌈delay⌉ : ℚ) < delay + 1 := Int.ceil_lt_add_one delay
  have e0 : (c + 1 + j - ⌈delay⌉) % capacity = c ↔ ⌈delay⌉ = j + 1 := by
    have hs : c + 1 + j - ⌈delay⌉ = c + (1 + j - ⌈delay⌉) := by ring
    rw [hs, emod_shift_eq_self capacity c _ hc0 hc1 (by omega) (by omega)]
    omega
  have e1 : ((c + 1 + j - ⌈delay⌉) % capacity + 1) % capacity = c
      ↔ (⌈delay⌉ = j + 2 ∨ (⌈delay⌉ = 0 ∧ (j : Int) + 2 = capacity)) := by
    rw [Int.emod_add_emod]
    by_cases hw : ⌈delay⌉ = 0 ∧ (j : Int) + 2 = capacity
    · have hs : c + 1 + j - ⌈delay⌉ + 1 = c + capacity := by omega
      rw [hs, Int.add_emod_self, Int.emod_eq_of_lt hc0 hc1]
      exact ⟨fun _ => Or.inr hw, fun _ => rfl⟩
    · have hs : c + 1 + j - ⌈delay⌉ + 1 = c + (2 + j - ⌈delay⌉) := by ring
      rw [hs, emod_shift_eq_self capacity c _ hc0 hc1 (by omega) (by omega)]
      constructor
      · intro h
        left
        omega
      · rintro (h | h)
        · omega
        · exact absurd h hw
  simp only [e0, e1] at h0 h1
  subst h0 h1
  by_cases hA : ⌈delay⌉ = j + 1
  · have hAq : (⌈delay⌉ : ℚ) = j + 1 := by exact_mod_cast hA
    have hB : ¬ (⌈delay⌉ = j + 2 ∨ (⌈delay⌉ = 0 ∧ (j : Int) + 2 = capacity)) := by omega
    rw [if_pos hA, if_neg hB, hAq]
    rw [hAq] at hle hlt
    rw [abs_of_nonpos (by linarith), max_eq_right (by linarith)]
    ring
  · rw [if_neg hA]
    by_cases hB : ⌈delay⌉ = j + 2
    · have hBq : (⌈delay⌉ : ℚ) = j + 2 := by exact_mod_cast hB
      rw [if_pos (Or.inl hB), hBq]
      rw [hBq] at hle hlt
      rw [abs_of_nonneg (by linarith), max_eq_right (by linarith)]
      ring
    · by_cases hC : ⌈delay⌉ = 0 ∧ (j : Int) + 2 = capacity
      · have hCq : (⌈delay⌉ : ℚ) = 0 := by exact_mod_cast hC.1
        have hj0 : (0 : ℚ) ≤ j := Nat.cast_nonneg j
        rw [if_pos (Or.inr hC), hCq]
        rw [hCq] at hle
        have hdz : delay = 0 := le_antisymm hle hd0
        rw [hdz, abs_of_nonpos (by linarith), max_eq_left (by linarith)]
        ring
      · have hBC : ¬ (⌈delay⌉ = j + 2 ∨ (⌈delay⌉ = 0 ∧ (j : Int) + 2 = capacity)) := by
          rintro (h | h)
          · exact hB h
          · exact hC h
        rw [if_neg hBC]
        have hfar : 1 ≤ |delay - (j + 1)| := by
          rcases lt_or_gt_of_ne hA with h | h
          · have h2 : ⌈delay⌉ ≤ (j : Int) := by omega
            have h3 : (⌈delay⌉ : ℚ) ≤ j := by exact_mod_cast h2
            rw [abs_of_nonpos (by linarith)]
            linarith
          · have h2 : (j : Int) + 3 ≤ ⌈delay⌉ := by omega
            have h3 : (j : ℚ) + 3 ≤ ⌈delay⌉ := by exact_mod_cast h2
            rw [abs_of_nonneg (by linarith)]
            linarith
        rw [max_eq_left (by linarith)]
        ring


theorem OmniDelay.Read_after_impulse (buf capacity cursor : Int) (mem : Arena) (v : ℚ) (j : Nat)
    (delay : ℚ) (fuel : Nat) (hcap : 2 ≤ capacity) (hc0 : 0 ≤ cursor) (hc1 : cursor < capacity)
    (hzero : ∀ i : Int, 0 ≤ i → i < capacity → mem (buf + i) = 0)
    (hj : (j : Int) ≤ capacity - 2) (hd0 : 0 ≤ delay) (hd1 : delay < capacity)
    (hfuel : (capacity : ℚ) ≤ fuel) :
    OmniDelay.Read
        { buffer_ := buf, max_len_ := capacity, write_ptr_ := (cursor + 1 + j) % capacity }
        fuel (Function.update mem (buf + cursor) v) delay
      = some (v * max 0 (1 - |delay - (j + 1)|)) := by
  have hcap1 : 1 ≤ capacity := by omega
  have hpos : (0 : Int) < capacity := by omega
  have hm0 : 0 ≤ (cursor + 1 + (j : Int)) % capacity := Int.emod_nonneg _ (by omega)
  have hm1 : (cursor + 1 + (j : Int)) % capacity < capacity := Int.emod_lt_of_pos _ hpos
  have hm0q : (0 : ℚ) ≤ (((cursor + 1 + (j : Int)) % capacity : Int) : ℚ) := by
    exact_mod_cast hm0
  have hm1q : (((cursor + 1 + (j : Int)) % capacity : Int) : ℚ) < capacity := by
    exact_mod_cast hm1
  have hf : |((((cursor + 1 + (j : Int)) % capacity : Int) : ℚ)) - delay| ≤ fuel := by
    rw [abs_le]
    constructor <;> linarith
  have hread := OmniDelay.Read_eq
    { buffer_ := buf, max_len_ := capacity, write_ptr_ := (cursor + 1 + j) % capacity }
    (Function.update mem (buf + cursor) v) hcap1 delay fuel hf
  rw [hread]
  simp only []
  rw [wrapPos_of_ceil capacity _ (cursor + 1 + j) hcap1 delay rfl]
  have hg0 : (0 : ℚ) ≤ (⌈delay⌉ : ℚ) - delay := sub_nonneg.mpr (Int.le_ceil delay)
  have hg1 : (⌈delay⌉ : ℚ) - delay < 1 := by
    have := Int.ceil_lt_add_one delay
    linarith
  have hfl : ⌊(((cursor + 1 + (j : Int) - ⌈delay⌉) % capacity : Int) : ℚ)
      + ((⌈delay⌉ : ℚ) - delay)⌋ = (cursor + 1 + (j : Int) - ⌈delay⌉) % capacity := by
    rw [Int.floor_int_add, Int.floor_eq_zero_iff.mpr ⟨hg0, hg1⟩, add_zero]
  rw [hfl]
  have hi0 : 0 ≤ (cursor + 1 + (j : Int) - ⌈delay⌉) % capacity := Int.emod_nonneg _ (by omega)
  have hi1 : (cursor + 1 + (j : Int) - ⌈delay⌉) % capacity < capacity :=
    Int.emod_lt_of_pos _ hpos
  have hk0 : 0 ≤ ((cursor + 1 + (j : Int) - ⌈delay⌉) % capacity + 1) % capacity :=
    Int.emod_nonneg _ (by omega)
  have hk1 : ((cursor + 1 + (j : Int) - ⌈delay⌉) % capacity + 1) % capacity < capacity :=
    Int.emod_lt_of_pos _ hpos
  have hval : ∀ i : Int, 0 ≤ i → i < capacity →
      Function.update mem (buf + cursor) v (buf + i) = if i = cursor then v else 0 := by
    intro i h0 h1
    by_cases h : i = cursor
    · rw [if_pos h, h, Function.update_same]
    · rw [if_neg h, Function.update_noteq (by intro h2; exact h (by linarith)), hzero i h0 h1]
  congr 1
  have hfrac : (((cursor + 1 + (j : Int) - ⌈delay⌉) % capacity : Int) : ℚ)
      + ((⌈delay⌉ : ℚ) - delay) - (((cursor + 1 + (j : Int) - ⌈delay⌉) % capacity : Int) : ℚ)
      = (⌈delay⌉ : ℚ) - delay := by ring
  rw [hfrac]
  exact impulse_tent capacity cursor j v delay _ _ hc0 hc1 hj hd0 hd1
    (hval _ hi0 hi1) (hval _ hk0 hk1)


/-- C12: for every capacity `≥ 2`, every `j` with `0 ≤ j ≤ capacity - 2` and
every delay `d` in `[0, capacity)`: on a zero-filled delay line, after
`Write(v)` followed by `j` writes of `0`, `OmniDelay::Read(d)` returns
`v * max 0 (1 - |d - (j + 1)|)`; in particular `Read(j + 1)` returns exactly
`v`, and `Read` at every other integer delay `n` in `[0, capacity)` returns `0`. -/
theorem OmniDelay.impulse_response (buf capacity cursor : Int) (mem : Arena) (v : ℚ) (j : Nat)
    (delay : ℚ) (n : Int) (fuel : Nat) (hcap : 2 ≤ capacity)
    (hc0 : 0 ≤ cursor) (hc1 : cursor < capacity)
    (hzero : ∀ i : Int, 0 ≤ i → i < capacity → mem (buf + i) = 0)
    (hj : (j : Int) ≤ capacity - 2) (hd0 : 0 ≤ delay) (hd1 : delay < capacity)
    (hn0 : 0 ≤ n) (hn1 : n < capacity) (hn : n ≠ j + 1) (hfuel : (capacity : ℚ) ≤ fuel) :
    (OmniDelay.writeAll { buffer_ := buf, max_len_ := capacity, write_ptr_ := cursor } mem
        (v :: List.replicate j 0)).2.Read fuel
      (OmniDelay.writeAll { buffer_ := buf, max_len_ := capacity, write_ptr_ := cursor } mem
        (v :: List.replicate j 0)).1 delay
        = some (v * max 0 (1 - |delay - (j + 1)|))
      ∧ (OmniDelay.writeAll { buffer_ := buf, max_len_ := capacity, write_ptr_ := cursor } mem
        (v :: List.replicate j 0)).2.Read fuel
      (OmniDelay.writeAll { buffer_ := buf, max_len_ := capacity, write_ptr_ := cursor } mem
        (v :: List.replicate j 0)).1 (j + 1) = some v
      ∧ (OmniDelay.writeAll { buffer_ := buf, max_len_ := capacity, write_ptr_ := cursor } mem
        (v :: List.replicate j 0)).2.Read fuel
      (OmniDelay.writeAll { buffer_ := buf, max_len_ := capacity, write_ptr_ := cursor } mem
        (v :: List.replicate j 0)).1 n = some 0 := by
  rw [OmniDelay.writeAll_impulse buf capacity cursor mem v hcap hc0 hc1 hzero j hj]
  have hj0 : (0 : ℚ) ≤ j := Nat.cast_nonneg j
  have hjq : (j : ℚ) + 1 < capacity := by
    have : (j : Int) + 1 < capacity := by omega
    exact_mod_cast this
  refine ⟨?_, ?_, ?_⟩
  · exact OmniDelay.Read_after_impulse buf capacity cursor mem v j delay fuel hcap hc0 hc1 hzero
      hj hd0 hd1 hfuel
  · have h := OmniDelay.Read_after_impulse buf capacity cursor mem v j (j + 1) fuel hcap hc0 hc1
      hzero hj (by linarith) hjq hfuel
    simp only [h, sub_self, abs_zero, sub_zero]
    rw [max_eq_right (by norm_num), mul_one]
  · have h := OmniDelay.Read_after_impulse buf capacity cursor mem v j n fuel hcap hc0 hc1
      hzero hj (by exact_mod_cast hn0) (by exact_mod_cast hn1) hfuel
    simp only [h]
    have hfar : (1 : ℚ) ≤ |(n : ℚ) - (j + 1)| := by
      have h1 : (1 : Int) ≤ |n - (j + 1)| := by
        have hne : n - ((j : Int) + 1) ≠ 0 := sub_ne_zero.mpr hn
        exact Int.one_le_abs hne
      exact_mod_cast h1
    rw [max_eq_left (by linarith), mul_zero]

theorem OmniDelay.Read_interpolates_witness :
    (1 : Int) ≤ 4 ∧ |((0 : Int) : ℚ) - 5 / 2| ≤ ((3 : Nat) : ℚ)
      ∧ ∃ v : ℚ, OmniDelay.Read { buffer_ := 0, max_len_ := 4, write_ptr_ := 0 } 3
          (fun i => (i : ℚ)) (5 / 2) = some v :=
  ⟨by norm_num, by norm_num [abs_of_nonneg],
    _, (OmniDelay.Read_interpolates 0 4 0 (fun i => (i : ℚ)) (5 / 2) 3 (by norm_num)
      (by norm_num [abs_of_nonneg])).2.2.2.2.2⟩

theorem OmniDelay.Read_periodic_witness :
    ∃ N : Nat, ∀ fuel : Nat, N ≤ fuel →
      (OmniDelay.Read { buffer_ := 0, max_len_ := 4, write_ptr_ := 1 } fuel
          (fun i => (i : ℚ)) (-7)).isSome = true
        ∧ OmniDelay.Read { buffer_ := 0, max_len_ := 4, write_ptr_ := 1 } fuel
            (fun i => (i : ℚ)) (-7 + ((4 : Int) : ℚ))
          = OmniDelay.Read { buffer_ := 0, max_len_ := 4, write_ptr_ := 1 } fuel
            (fun i => (i : ℚ)) (-7) :=
  OmniDelay.Read_periodic { buffer_ := 0, max_len_ := 4, write_ptr_ := 1 } (fun i => (i : ℚ))
    (-7) (by norm_num)

theorem OmniDelay.Write_spec_witness :
    (OmniDelay.Write { buffer_ := 10, max_len_ := 4, write_ptr_ := 3 } (fun _ => 0) 7).1 (10 + 3)
        = 7
      ∧ (OmniDelay.Write { buffer_ := 10, max_len_ := 4, write_ptr_ := 3 }
          (fun _ => 0) 7).2.write_ptr_ = (3 + 1) % 4 :=
  ⟨(OmniDelay.Write_spec 10 4 3 (fun _ => 0) 7 [1, 2] (by norm_num) (by norm_num)
      (by norm_num)).2.2.1,
    (OmniDelay.Write_spec 10 4 3 (fun _ => 0) 7 [1, 2] (by norm_num) (by norm_num)
      (by norm_num)).2.2.2.2.1⟩

theorem OmniDelay.impulse_response_witness :
    (OmniDelay.writeAll { buffer_ := 0, max_len_ := 4, write_ptr_ := 0 } (fun _ => 0)
        (5 :: List.replicate 1 0)).2.Read 4
      (OmniDelay.writeAll { buffer_ := 0, max_len_ := 4, write_ptr_ := 0 } (fun _ => 0)
        (5 :: List.replicate 1 0)).1 (((1 : Nat) : ℚ) + 1) = some 5 :=
  (OmniDelay.impulse_response 0 4 0 (fun _ => 0) 5 1 (3 / 2) 0 4 (by norm_num) (by norm_num)
    (by norm_num) (fun _ _ _ => rfl) (by norm_num) (by norm_num) (by norm_num) (by norm_num)
    (by norm_num) (by norm_num) (by norm_num)).2.1

/-! ## The diffuser: bounds -/

theorem OmniAllpass.call_inv (a : OmniAllpass) (c : AllpassCall)
    (hc : ∀ len, c = AllpassCall.SetDelay len → 0 ≤ len)
    (hd : 0 ≤ a.delay_len_ ∧ a.delay_len_ ≤ 599) (hw : 0 ≤ a.write_ptr_ ∧ a.write_ptr_ < 600) :
    (0 ≤ (a.call c).delay_len_ ∧ (a.call c).delay_len_ ≤ 599)
      ∧ (0 ≤ (a.call c).write_ptr_ ∧ (a.call c).write_ptr_ < 600) := by
  cases c with
  | SetDelay len =>
    have h0 := hc len rfl
    simp only [OmniAllpass.call, OmniAllpass.SetDelay]
    refine ⟨?_, hw⟩
    split_ifs <;> omega
  | Process x =>
    simp only [OmniAllpass.call, OmniAllpass.Process]
    refine ⟨hd, ?_⟩
    split_ifs <;> omega

theorem OmniAllpass.call_delay_len (a : OmniAllpass) (c : AllpassCall) :
    (a.call c).delay_len_
      = (match c with
          | AllpassCall.SetDelay len => min len 599
          | AllpassCall.Process _ => a.delay_len_) := by
  cases c with
  | SetDelay len =>
    simp only [OmniAllpass.call, OmniAllpass.SetDelay]
    split_ifs with h
    · rw [min_eq_right (by omega)]
    · rw [min_eq_left (by omega)]
  | Process x => rfl

theorem OmniAllpass.calls_inv (cs : List AllpassCall) :
    ∀ a : OmniAllpass, nonnegDelays cs →
      (0 ≤ a.delay_len_ ∧ a.delay_len_ ≤ 599) → (0 ≤ a.write_ptr_ ∧ a.write_ptr_ < 600) →
      (0 ≤ (a.calls cs).delay_len_ ∧ (a.calls cs).delay_len_ ≤ 599)
        ∧ (0 ≤ (a.calls cs).write_ptr_ ∧ (a.calls cs).write_ptr_ < 600)
        ∧ (a.calls cs).delay_len_
            = (match lastSetDelay cs with
                | some len => min len 599
                | none => a.delay_len_) := by
  induction cs with
  | nil =>
    intro a _ hd hw
    exact ⟨hd, hw, rfl⟩
  | cons c rest ih =>
    intro a hnn hd hw
    cases c with
    | SetDelay len =>
      obtain ⟨h0, hrest⟩ := hnn
      obtain ⟨hd1, hw1⟩ := OmniAllpass.call_inv a (AllpassCall.SetDelay len)
        (fun l hl => by cases hl; exact h0) hd hw
      obtain ⟨i1, i2, i3⟩ := ih (a.call (AllpassCall.SetDelay len)) hrest hd1 hw1
      refine ⟨i1, i2, ?_⟩
      simp only [OmniAllpass.calls, List.foldl_cons] at i3 ⊢
      rw [i3]
      simp only [lastSetDelay]
      cases lastSetDelay rest with
      | none =>
        simp only [Option.orElse]
        exact OmniAllpass.call_delay_len a (AllpassCall.SetDelay len)
      | some l => rfl
    | Process x =>
      obtain ⟨hd1, hw1⟩ := OmniAllpass.call_inv a (AllpassCall.Process x)
        (fun l hl => by cases hl) hd hw
      obtain ⟨i1, i2, i3⟩ := ih (a.call (AllpassCall.Process x)) hnn hd1 hw1
      refine ⟨i1, i2, ?_⟩
      simp only [OmniAllpass.calls, List.foldl_cons] at i3 ⊢
      rw [i3]
      simp only [lastSetDelay]
      rfl

/-- C20: after `OmniAllpass::Init` and any sequence of `SetDelay(len)` calls
with `len ≥ 0` and `Process` calls, the configured delay length is
`min(len, 599)` for the last `SetDelay` (the initial 100 if there was none)
and never exceeds 599, the write cursor is in `[0, 600)`, and the buffer
indices that `Process` reads (`read_ptr`) and writes (`write_ptr_`) lie in
`[0, 600)`. -/
theorem OmniAllpass.bounds (a : OmniAllpass) (cs : List AllpassCall) (h : nonnegDelays cs) :
    (a.Init.calls cs).delay_len_
        = (match lastSetDelay cs with
            | some len => min len 599
            | none => 100)
      ∧ (a.Init.calls cs).delay_len_ ≤ 599
      ∧ (0 ≤ (a.Init.calls cs).write_ptr_ ∧ (a.Init.calls cs).write_ptr_ < 600)
      ∧ (0 ≤ (a.Init.calls cs).read_ptr ∧ (a.Init.calls cs).read_ptr < 600) := by
  obtain ⟨⟨hd0, hd1⟩, ⟨hw0, hw1⟩, hlen⟩ := OmniAllpass.calls_inv cs a.Init h
    (by simp [OmniAllpass.Init]) (by simp [OmniAllpass.Init])
  refine ⟨hlen, hd1, ⟨hw0, hw1⟩, ?_⟩
  unfold OmniAllpass.read_ptr
  split_ifs <;> omega

theorem OmniAllpass.bounds_witness :
    (({ buffer_ := fun _ => 1, write_ptr_ := 7, delay_len_ := 9 } : OmniAllpass).Init.calls
        [AllpassCall.SetDelay 700, AllpassCall.Process 1]).delay_len_ ≤ 599 :=
  (OmniAllpass.bounds { buffer_ := fun _ => 1, write_ptr_ := 7, delay_len_ := 9 }
    [AllpassCall.SetDelay 700, AllpassCall.Process 1] ⟨by norm_num, trivial⟩).2.1

/-! ## The matrix mix as a Householder reflection -/

/-- C17: for the 8-line instantiation, the mix computed by
`UberFDN::ProcessBlock` (sum scaled by the hard-coded `0.25`) equals the
Householder reflection `mixed_k = read_k - (2/N) * sum_j read_j` with `N = 8`,
and equals the mix computed by `SuperFDN::ProcessBlock` (sum scaled by
`2/N_LINES`) on the same reads. -/
theorem matrixMix_householder (delay_outs : Fin 8 → ℚ) :
    matrixMix delay_outs = householder 8 delay_outs
      ∧ matrixMix delay_outs = SuperFDN.matrixMix delay_outs := by
  constructor
  · funext k
    simp only [matrixMix, mixSum_eight, householder, Fin.sum_univ_eight]
    norm_num
    ring
  · funext k
    simp only [matrixMix, mixSum_eight, SuperFDN.matrixMix]
    simp [List.finRange, List.ofFn, Fin.foldr, Fin.foldr.loop]
    norm_num

/-! ## Delay times stay inside the line -/

theorem base_ratios_ge_one (k : Fin 8) : 1 ≤ base_ratios_ k := by
  fin_cases k <;> norm_num [base_ratios_]

theorem blockSetup_depth {σ : Type} (mode : FdnMode) (warp : ℚ) (sh : Shimmers σ) :
    (blockSetup mode warp sh).depth = if mode = FdnMode.MODE_MASSIVE then 100 else 10 := by
  cases mode
  · simp only [blockSetup, reduceCtorEq, if_false]
    norm_num
  · simp only [blockSetup, reduceCtorEq, if_false, if_true]
    norm_num
  · simp only [blockSetup, reduceCtorEq, if_false, if_true]
    split_ifs <;> norm_num

/-- C14: for every `sizeParam`, every `skew ≥ -0.5` and every sample rate with
`sizeParam * sampleRate * 0.15 ≥ depth * m`, where `|modulation| ≤ m` with
`(m, depth) = (1, 10)` in Studio/Shimmer and `(0.8, 100)` in Massive, the final
delay `base_t + modulation * depth` passed to `OmniDelay::Read` for each of the
8 lines is non-negative and strictly below the 240000-sample capacity.  The
library function `powf` is only assumed to return a value `≥ 1` for a base
`≥ 1` and an exponent `≥ 0`. -/
theorem delayTime_in_range {σ : Type} (powf : ℚ → ℚ → ℚ) (mode : FdnMode) (warp : ℚ)
    (sh : Shimmers σ) (sample_rate_ size_param skew mod_val : ℚ) (k : Fin 8)
    (hpow : ∀ r e : ℚ, 1 ≤ r → 0 ≤ e → 1 ≤ powf r e)
    (hskew : -0.5 ≤ skew)
    (hsize : (blockSetup mode warp sh).depth * (if mode = FdnMode.MODE_MASSIVE then 0.8 else 1)
      ≤ size_param * sample_rate_ * 0.15)
    (hmod : |mod_val| ≤ (if mode = FdnMode.MODE_MASSIVE then 0.8 else 1)) :
    0 ≤ delayTime powf sample_rate_ size_param skew (blockSetup mode warp sh).depth k mod_val
      ∧ delayTime powf sample_rate_ size_param skew (blockSetup mode warp sh).depth k mod_val
          < 240000 := by
  have hs : 1 ≤ powf (base_ratios_ k) (0.5 + skew) :=
    hpow _ _ (base_ratios_ge_one k) (by norm_num at hskew ⊢; linarith)
  rw [blockSetup_depth] at hsize ⊢
  obtain ⟨hm1, hm2⟩ := abs_le.mp hmod
  unfold delayTime
  simp only []
  have hB : powf (base_ratios_ k) (0.5 + skew) * size_param * sample_rate_ * 0.15
      = powf (base_ratios_ k) (0.5 + skew) * (size_param * sample_rate_ * 0.15) := by ring
  rw [hB]
  by_cases hmode : mode = FdnMode.MODE_MASSIVE
  · simp only [hmode, if_true] at hsize hm1 hm2 ⊢
    have hB0 : (0 : ℚ) ≤ size_param * sample_rate_ * 0.15 := by
      norm_num at hsize ⊢
      linarith
    have hsB : size_param * sample_rate_ * 0.15
        ≤ powf (base_ratios_ k) (0.5 + skew) * (size_param * sample_rate_ * 0.15) := by
      nlinarith
    split_ifs with hc
    · norm_num at hm1 hm2 hsize ⊢
      constructor <;> linarith
    · have hc2 := not_lt.mp hc
      norm_num at hm1 hm2 hsize hc2 ⊢
      constructor <;> linarith
  · simp only [hmode, if_false] at hsize hm1 hm2 ⊢
    have hB0 : (0 : ℚ) ≤ size_param * sample_rate_ * 0.15 := by
      norm_num at hsize ⊢
      linarith
    have hsB : size_param * sample_rate_ * 0.15
        ≤ powf (base_ratios_ k) (0.5 + skew) * (size_param * sample_rate_ * 0.15) := by
      nlinarith
    split_ifs with hc
    · norm_num at hm1 hm2 hsize ⊢
      constructor <;> linarith
    · have hc2 := not_lt.mp hc
      norm_num at hm1 hm2 hsize hc2 ⊢
      constructor <;> linarith

theorem delayTime_in_range_witness :
    0 ≤ delayTime (fun r _ => r) 48000 1 0.5
          (blockSetup FdnMode.MODE_STUDIO 0 initShimmers).depth 0 0
      ∧ delayTime (fun r _ => r) 48000 1 0.5
          (blockSetup FdnMode.MODE_STUDIO 0 initShimmers).depth 0 0 < 240000 :=
  delayTime_in_range (fun r _ => r) FdnMode.MODE_STUDIO 0 initShimmers 48000 1 0.5 0 0
    (fun _ _ hr _ => hr) (by norm_num)
    (by rw [blockSetup_depth]; simp only [reduceCtorEq, if_false]; norm_num)
    (by simp only [reduceCtorEq, if_false]; norm_num)

/-! ## The arena regions of the eight lines -/

theorem wrapUp_some (m : ℚ) :
    ∀ (fuel : Nat) (x y : ℚ), wrapUp m fuel x = some y → 0 ≤ y := by
  intro fuel
  induction fuel with
  | zero =>
    intro x y h
    simp only [wrapUp] at h
    split_ifs at h with hneg
    cases h
    exact not_lt.mp hneg
  | succ n ih =>
    intro x y h
    simp only [wrapUp] at h
    split_ifs at h with hneg
    · exact ih _ _ h
    · cases h
      exact not_lt.mp hneg

theorem wrapDown_some (m : ℚ) :
    ∀ (fuel : Nat) (x y : ℚ), 0 ≤ x → wrapDown m fuel x = some y → 0 ≤ y ∧ y < m := by
  intro fuel
  induction fuel with
  | zero =>
    intro x y hx h
    simp only [wrapDown] at h
    split_ifs at h with hge
    cases h
    exact ⟨hx, not_le.mp hge⟩
  | succ n ih =>
    intro x y hx h
    simp only [wrapDown] at h
    split_ifs at h with hge
    · exact ih _ _ (by linarith) h
    · cases h
      exact ⟨hx, not_le.mp hge⟩

theorem OmniDelay.readPos_some (d : OmniDelay) (fuel : Nat)
    (delay_samps p : ℚ) (h : d.readPos fuel delay_samps = some p) :
    0 ≤ p ∧ p < d.max_len_ := by
  unfold OmniDelay.readPos at h
  cases hu : wrapUp d.max_len_ fuel ((d.write_ptr_ : ℚ) - delay_samps) with
  | none => rw [hu] at h; cases h
  | some y =>
    rw [hu, Option.some_bind] at h
    exact wrapDown_some d.max_len_ fuel y p (wrapUp_some _ fuel _ y hu) h

theorem OmniDelay.readAddrs_region (d : OmniDelay) (hcap : 1 ≤ d.max_len_) (fuel : Nat)
    (delay_samps : ℚ) (p q : Int) (h : d.readAddrs fuel delay_samps = some (p, q)) :
    d.region p ∧ d.region q := by
  unfold OmniDelay.readAddrs at h
  cases hr : d.readPos fuel delay_samps with
  | none => rw [hr] at h; cases h
  | some pos =>
    rw [hr, Option.map_some'] at h
    obtain ⟨h0, h1⟩ := OmniDelay.readPos_some d fuel delay_samps pos hr
    have hi := OmniDelay.idx_of_nonneg pos h0
    have hi0 : 0 ≤ OmniDelay.idx pos := by rw [hi]; exact Int.floor_nonneg.mpr h0
    have hi1 : OmniDelay.idx pos < d.max_len_ := by rw [hi]; exact Int.floor_lt.mpr h1
    have hi2 := OmniDelay.idx2_eq d pos hi0 hi1
    have hk0 : 0 ≤ (OmniDelay.idx pos + 1) % d.max_len_ := Int.emod_nonneg _ (by omega)
    have hk1 : (OmniDelay.idx pos + 1) % d.max_len_ < d.max_len_ :=
      Int.emod_lt_of_pos _ (by omega)
    simp only [Option.some.injEq, Prod.mk.injEq] at h
    obtain ⟨hp, hq⟩ := h
    rw [hi2] at hq
    unfold OmniDelay.region
    constructor <;> constructor <;> omega

theorem OmniDelay.readAddrs_isSome (d : OmniDelay) (hcap : 1 ≤ d.max_len_) (fuel : Nat)
    (delay_samps : ℚ) (hfuel : |(d.write_ptr_ : ℚ) - delay_samps| ≤ fuel) :
    (d.readAddrs fuel delay_samps).isSome = true := by
  unfold OmniDelay.readAddrs
  rw [OmniDelay.readPos_spec d hcap delay_samps fuel hfuel]
  rfl

/-- C15: `UberFDN::Init` binds line `i` to the arena indices
`[i * 240000, (i + 1) * 240000)` (counted from the start of the buffer it is
given); the regions of two different lines are disjoint; each lies inside the
first `8 * 240000 = 1920000` samples, which fit in the 15000000-sample buffer
of `main`; and after any run of writes, the index that `Write` stores to and
the two indices that `Read` loads from (for any delay, whenever its loops
have finished, which they do given enough iterations) are inside the line's
own region. -/
theorem initDelays_regions (big_buffer : Int) (i j : Fin 8) (mem : Arena) (samples : List ℚ)
    (delay : ℚ) (hij : i ≠ j) :
    (∀ a : Int, (initDelays big_buffer i).region a
        ↔ (big_buffer + (i : Nat) * 240000 ≤ a ∧ a < big_buffer + ((i : Nat) + 1) * 240000))
      ∧ (∀ a : Int, (initDelays big_buffer i).region a → ¬ (initDelays big_buffer j).region a)
      ∧ (∀ a : Int, (initDelays big_buffer i).region a →
          big_buffer ≤ a ∧ a < big_buffer + 1920000)
      ∧ (8 * 240000 = (1920000 : Int) ∧ (1920000 : Int) ≤ TOTAL_SDRAM_SAMPLES)
      ∧ (initDelays big_buffer i).region
          ((initDelays big_buffer i).writeAll mem samples).2.writeAddr
      ∧ (∀ (fuel : Nat) (p q : Int),
          ((initDelays big_buffer i).writeAll mem samples).2.readAddrs fuel delay = some (p, q) →
          (initDelays big_buffer i).region p ∧ (initDelays big_buffer i).region q)
      ∧ (∃ N : Nat, ∀ fuel : Nat, N ≤ fuel →
          (((initDelays big_buffer i).writeAll mem samples).2.readAddrs fuel delay).isSome
            = true) := by
  have hi : ((i : Nat) : Int) < 8 := by exact_mod_cast i.isLt
  have hj : ((j : Nat) : Int) < 8 := by exact_mod_cast j.isLt
  have hi0 : (0 : Int) ≤ ((i : Nat) : Int) := Int.natCast_nonneg _
  have hj0 : (0 : Int) ≤ ((j : Nat) : Int) := Int.natCast_nonneg _
  have hne : ((i : Nat) : Int) ≠ ((j : Nat) : Int) := by
    intro h
    exact hij (Fin.ext (by exact_mod_cast h))
  obtain ⟨hfb, hfm⟩ := OmniDelay.writeAll_frame samples (initDelays big_buffer i) mem
  obtain ⟨hc0, hc1⟩ := OmniDelay.writeAll_cursor samples (initDelays big_buffer i) mem
    (by simp [initDelays, OmniDelay.Init]) (by simp [initDelays, OmniDelay.Init])
    (by simp [initDelays, OmniDelay.Init])
  have hcap : 1 ≤ ((initDelays big_buffer i).writeAll mem samples).2.max_len_ := by
    rw [hfm]
    simp [initDelays, OmniDelay.Init]
  have hreg : ∀ a : Int, ((initDelays big_buffer i).writeAll mem samples).2.region a
      ↔ (initDelays big_buffer i).region a := by
    intro a
    unfold OmniDelay.region
    rw [hfb, hfm]
  refine ⟨?_, ?_, ?_, ⟨by norm_num, by norm_num [TOTAL_SDRAM_SAMPLES]⟩, ?_, ?_, ?_⟩
  · intro a
    simp only [OmniDelay.region, initDelays, OmniDelay.Init]
    constructor <;> intro h <;> constructor <;> omega
  · intro a h1 h2
    simp only [OmniDelay.region, initDelays, OmniDelay.Init] at h1 h2
    omega
  · intro a h1
    simp only [OmniDelay.region, initDelays, OmniDelay.Init] at h1
    constructor <;> omega
  · rw [← hreg]
    unfold OmniDelay.region OmniDelay.writeAddr
    rw [hfm]
    constructor <;> omega
  · intro fuel p q h
    rw [← hreg, ← hreg]
    exact OmniDelay.readAddrs_region _ hcap fuel delay p q h
  · refine ⟨⌈|((((initDelays big_buffer i).writeAll mem samples).2.write_ptr_ : Int) : ℚ)
        - delay|⌉₊, fun fuel hfuel => ?_⟩
    exact OmniDelay.readAddrs_isSome _ hcap fuel delay
      (le_trans (Nat.le_ceil _) (by exact_mod_cast hfuel))

theorem initDelays_regions_witness :
    (2 : Fin 8) ≠ 5
      ∧ (initDelays 0 2).region ((initDelays 0 2).writeAll (fun _ => 0) [1, 2, 3]).2.writeAddr :=
  ⟨by decide,
    (initDelays_regions 0 2 5 (fun _ => 0) [1, 2, 3] (7 / 2) (by decide)).2.2.2.2.1⟩

/-! ## The sample loop: what the feedback loop does to the delay lines -/

theorem UberFDN.feedbackStep_delays {σ τ ω : Type} (ext : External σ τ ω) (shift_mix : ℚ)
    (gains matrix_out : Fin 8 → ℚ) (diffused : ℚ) (st : Arena × UberFDN σ τ ω) (k : Fin 8) :
    (UberFDN.feedbackStep ext shift_mix gains matrix_out diffused st k).2.delays_
      = Function.update st.2.delays_ k ((st.2.delays_ k).Write st.1 0).2 :=
  rfl

theorem UberFDN.feedbackStep_mem {σ τ ω : Type} (ext : External σ τ ω) (shift_mix : ℚ)
    (gains matrix_out : Fin 8 → ℚ) (diffused : ℚ) (st : Arena × UberFDN σ τ ω) (k : Fin 8)
    (a : Int) (ha : a ≠ (st.2.delays_ k).writeAddr) :
    (UberFDN.feedbackStep ext shift_mix gains matrix_out diffused st k).1 a = st.1 a := by
  simp only [UberFDN.feedbackStep, OmniDelay.Write]
  exact Function.update_noteq ha _ _

theorem UberFDN.feedbackLoop_delays {σ τ ω : Type} (ext : External σ τ ω) (shift_mix : ℚ)
    (gains matrix_out : Fin 8 → ℚ) (diffused : ℚ) (L : List (Fin 8)) :
    ∀ st : Arena × UberFDN σ τ ω, L.Nodup →
      (∀ k, k ∉ L →
        ((L.foldl (UberFDN.feedbackStep ext shift_mix gains matrix_out diffused) st).2.delays_ k)
          = st.2.delays_ k)
      ∧ (∀ k, k ∈ L →
        ((L.foldl (UberFDN.feedbackStep ext shift_mix gains matrix_out diffused) st).2.delays_ k)
          = ((st.2.delays_ k).Write st.1 0).2)
      ∧ (∀ a : Int, (∀ k, k ∈ L → a ≠ (st.2.delays_ k).writeAddr) →
        (L.foldl (UberFDN.feedbackStep ext shift_mix gains matrix_out diffused) st).1 a
          = st.1 a) := by
  induction L with
  | nil =>
    intro st _
    exact ⟨fun _ _ => rfl, fun _ h => absurd h (List.not_mem_nil _), fun _ _ => rfl⟩
  | cons k0 rest ih =>
    intro st hnd
    obtain ⟨hk0, hrest⟩ := List.nodup_cons.mp hnd
    obtain ⟨i1, i2, i3⟩ :=
      ih (UberFDN.feedbackStep ext shift_mix gains matrix_out diffused st k0) hrest
    simp only [List.foldl_cons]
    refine ⟨?_, ?_, ?_⟩
    · intro k hk
      have hne : k ≠ k0 := fun h => hk (by rw [h]; exact List.mem_cons_self _ _)
      have hnr : k ∉ rest := fun h => hk (List.mem_cons_of_mem _ h)
      rw [i1 k hnr, UberFDN.feedbackStep_delays, Function.update_noteq hne]
    · intro k hk
      rcases List.mem_cons.mp hk with h | h
      · subst h
        rw [i1 k hk0, UberFDN.feedbackStep_delays, Function.update_same]
      · have hne : k ≠ k0 := fun h2 => hk0 (by rw [← h2]; exact h)
        rw [i2 k h, UberFDN.feedbackStep_delays, Function.update_noteq hne]
        rfl
    · intro a ha
      have h1 : ∀ k, k ∈ rest →
          a ≠ ((UberFDN.feedbackStep ext shift_mix gains matrix_out diffused st k0).2.delays_
            k).writeAddr := by
        intro k hk
        have hne : k ≠ k0 := fun h2 => hk0 (by rw [← h2]; exact hk)
        rw [UberFDN.feedbackStep_delays, Function.update_noteq hne]
        exact ha k (List.mem_cons_of_mem _ hk)
      rw [i3 a h1]
      exact UberFDN.feedbackStep_mem ext shift_mix gains matrix_out diffused st k0 a
        (ha k0 (List.mem_cons_self _ _))

theorem OmniDelay.Read_zero_early (buf : Int) (t : Nat) (mem : Arena) (delay : ℚ) (fuel : Nat)
    (ht : t < 1000) (hd0 : 1000 ≤ delay) (hd1 : delay < 240000)
    (hzero : ∀ i : Int, (t : Int) ≤ i → i < 240000 → mem (buf + i) = 0)
    (hfuel : 240000 ≤ fuel) :
    OmniDelay.Read { buffer_ := buf, max_len_ := 240000, write_ptr_ := (t : Int) } fuel mem delay
      = some 0 := by
  have htq : (t : ℚ) < 1000 := by exact_mod_cast ht
  have htq0 : (0 : ℚ) ≤ (t : ℚ) := Nat.cast_nonneg t
  have hfq : (240000 : ℚ) ≤ fuel := by exact_mod_cast hfuel
  have hf : |(((t : Int) : ℚ)) - delay| ≤ fuel := by
    rw [abs_le]
    push_cast
    constructor <;> linarith
  have hread := OmniDelay.Read_eq
    { buffer_ := buf, max_len_ := 240000, write_ptr_ := (t : Int) } mem (by norm_num) delay fuel hf
  rw [hread]
  simp only [Int.cast_natCast]
  have hwp : wrapPos 240000 ((t : ℚ) - delay) = (t : ℚ) - delay + 240000 := by
    symm
    refine wrapPos_unique 240000 (by norm_num) _ _ 1 ?_ ?_ ?_
    · linarith
    · push_cast
      linarith
    · push_cast
      ring
  rw [hwp]
  have hfl0 : (t : Int) ≤ ⌊(t : ℚ) - delay + 240000⌋ := by
    rw [Int.le_floor]
    push_cast
    linarith
  have hfl1 : ⌊(t : ℚ) - delay + 240000⌋ < 240000 := by
    rw [Int.floor_lt]
    push_cast
    linarith
  have hle : ((⌊(t : ℚ) - delay + 240000⌋ : Int) : ℚ) ≤ (t : ℚ) - delay + 240000 :=
    Int.floor_le _
  rw [hzero _ hfl0 hfl1]
  by_cases hi : ⌊(t : ℚ) - delay + 240000⌋ + 1 < 240000
  · rw [Int.emod_eq_of_lt (by omega) hi, hzero _ (by omega) hi]
    simp
  · have hi2 : ⌊(t : ℚ) - delay + 240000⌋ = 239999 := by omega
    rw [hi2] at hle ⊢
    have hwq : (t : ℚ) - delay + 240000 = 239999 := by
      push_cast at hle
      have h999 : (t : ℚ) ≤ 999 := by
        have : t ≤ 999 := by omega
        exact_mod_cast this
      linarith
    rw [hwq]
    push_cast
    simp

theorem OmniDelay.Read_isSome_of_range (d : OmniDelay) (mem : Arena) (delay : ℚ) (fuel : Nat)
    (hcap : d.max_len_ = 240000) (hc0 : 0 ≤ d.write_ptr_) (hc1 : d.write_ptr_ < 240000)
    (hd0 : 1000 ≤ delay) (hd1 : delay < 240000) (hfuel : 240000 ≤ fuel) :
    (d.Read fuel mem delay).isSome = true := by
  have h0 : (0 : ℚ) ≤ (d.write_ptr_ : ℚ) := by exact_mod_cast hc0
  have h1 : (d.write_ptr_ : ℚ) < 240000 := by exact_mod_cast hc1
  have hfq : (240000 : ℚ) ≤ fuel := by exact_mod_cast hfuel
  have hf : |(d.write_ptr_ : ℚ) - delay| ≤ fuel := by
    rw [abs_le]
    constructor <;> linarith
  rw [OmniDelay.Read_eq d mem (by omega) delay fuel hf]
  rfl

theorem UberFDN.readLines_eq {σ τ ω : Type} (ext : External σ τ ω) (fuel : Nat)
    (e : UberFDN σ τ ω) (mem : Arena) (depth size_param skew : ℚ)
    (h : ∀ k : Fin 8,
      ((e.delays_ k).Read fuel mem (e.finalDelay ext depth size_param skew k)).isSome = true) :
    ∃ f : Fin 8 → ℚ, e.readLines ext fuel mem depth size_param skew = some f
      ∧ ∀ k, (e.delays_ k).Read fuel mem (e.finalDelay ext depth size_param skew k)
          = some (f k) := by
  refine ⟨fun k => ((e.delays_ k).Read fuel mem
    (e.finalDelay ext depth size_param skew k)).get (h k), ?_, ?_⟩
  · unfold UberFDN.readLines
    rw [dif_pos h]
  · intro k
    simp

theorem UberFDN.processSample_step {σ τ ω : Type} (ext : External σ τ ω) (fuel : Nat)
    (depth shift_mix : ℚ) (gains : Fin 8 → ℚ) (size_param skew : ℚ) (big_buffer : Int)
    (t : Nat) (st : Arena × UberFDN σ τ ω) (x : ℚ × ℚ)
    (hinv : linesAt big_buffer t st)
    (hdelay : ∀ k : Fin 8, 1000 ≤ st.2.finalDelay ext depth size_param skew k
      ∧ st.2.finalDelay ext depth size_param skew k < 240000)
    (hfuel : 240000 ≤ fuel) :
    ∃ out st1, UberFDN.processSample ext fuel depth shift_mix gains size_param skew st x
        = some (out, st1)
      ∧ linesAt big_buffer (t + 1) st1 ∧ (t < 1000 → out = (0, 0)) := by
  obtain ⟨hd, hz⟩ := hinv
  have hm0 : (0 : Int) ≤ (t : Int) % 240000 := Int.emod_nonneg _ (by norm_num)
  have hm1 : (t : Int) % 240000 < 240000 := Int.emod_lt_of_pos _ (by norm_num)
  have hsome : ∀ k : Fin 8, ((st.2.delays_ k).Read fuel st.1
      (st.2.finalDelay ext depth size_param skew k)).isSome = true := by
    intro k
    refine OmniDelay.Read_isSome_of_range _ _ _ _ ?_ ?_ ?_ (hdelay k).1 (hdelay k).2 hfuel
    · rw [hd k]
    · rw [hd k]; exact hm0
    · rw [hd k]; exact hm1
  obtain ⟨f, hf, hfk⟩ := UberFDN.readLines_eq ext fuel st.2 st.1 depth size_param skew hsome
  unfold UberFDN.processSample
  simp only [hf]
  refine ⟨_, _, rfl, ?_, ?_⟩
  · obtain ⟨_, i2, i3⟩ := UberFDN.feedbackLoop_delays ext shift_mix gains (matrixMix f)
      (st.2.diffuse ((x.1 + x.2) * 0.5)).1 (List.finRange 8)
      (st.1, { st.2.advanceOsc ext with
        diffusers_ := (st.2.diffuse ((x.1 + x.2) * 0.5)).2 }) (List.nodup_finRange 8)
    have hadv : ∀ k : Fin 8, (st.2.advanceOsc ext).delays_ k = st.2.delays_ k := by
      intro k
      unfold UberFDN.advanceOsc
      split_ifs <;> rfl
    constructor
    · intro k
      rw [i2 k (List.mem_finRange k)]
      simp only [hadv, hd, OmniDelay.Write]
      congr 1
      have h4 : (((t + 1 : Nat) : Int)) % 240000 = ((t : Int) % 240000 + 1) % 240000 := by
        rw [Int.emod_add_emod]
        push_cast
        rfl
      rw [h4]
      split_ifs with h
      · have h3 : (t : Int) % 240000 + 1 = 240000 := by omega
        rw [h3, Int.emod_self]
      · exact (Int.emod_eq_of_lt (by omega) (by omega)).symm
    · intro ht1 k i hi0 hi1
      have ht : t < 1000 := by omega
      have htm : (t : Int) % 240000 = t := Int.emod_eq_of_lt (by omega) (by omega)
      rw [i3]
      · exact hz ht k i (by push_cast at hi0; omega) hi1
      · intro j _
        simp only [hadv, hd, OmniDelay.writeAddr, htm]
        have hk : ((k : Nat) : Int) < 8 := by exact_mod_cast k.isLt
        have hj : ((j : Nat) : Int) < 8 := by exact_mod_cast j.isLt
        push_cast at hi0
        omega
  · intro ht
    have htm : (t : Int) % 240000 = t := Int.emod_eq_of_lt (by omega) (by omega)
    have hzero : ∀ k : Fin 8, f k = 0 := by
      intro k
      have h1 := hfk k
      rw [hd k, htm, OmniDelay.Read_zero_early _ t st.1 _ fuel ht (hdelay k).1 (hdelay k).2
        (fun i hi0 hi1 => hz ht k i hi0 hi1) hfuel] at h1
      exact (Option.some.inj h1).symm
    simp only [hzero]
    norm_num

theorem UberFDN.processSamples_cons {σ τ ω : Type} (ext : External σ τ ω) (fuel : Nat)
    (depth shift_mix : ℚ) (gains : Fin 8 → ℚ) (size_param skew : ℚ)
    (st st1 st2 : Arena × UberFDN σ τ ω) (x out : ℚ × ℚ) (rest outs : List (ℚ × ℚ))
    (h1 : UberFDN.processSample ext fuel depth shift_mix gains size_param skew st x
      = some (out, st1))
    (h2 : UberFDN.processSamples ext fuel depth shift_mix gains size_param skew st1 rest
      = some (outs, st2)) :
    UberFDN.processSamples ext fuel depth shift_mix gains size_param skew st (x :: rest)
      = some (out :: outs, st2) := by
  simp only [UberFDN.processSamples, h1, h2]

theorem UberFDN.processSamples_quiet {σ τ ω : Type} (ext : External σ τ ω) (fuel : Nat)
    (depth shift_mix : ℚ) (gains : Fin 8 → ℚ) (size_param skew : ℚ) (big_buffer : Int)
    (hfuel : 240000 ≤ fuel) :
    ∀ (ins : List (ℚ × ℚ)) (t : Nat) (st : Arena × UberFDN σ τ ω), linesAt big_buffer t st →
      (∀ n, n < ins.length → ∀ outs stn,
        UberFDN.processSamples ext fuel depth shift_mix gains size_param skew st (ins.take n)
          = some (outs, stn) →
        ∀ k : Fin 8, 1000 ≤ stn.2.finalDelay ext depth size_param skew k
          ∧ stn.2.finalDelay ext depth size_param skew k < 240000) →
      ∃ outs st1,
        UberFDN.processSamples ext fuel depth shift_mix gains size_param skew st ins
          = some (outs, st1)
        ∧ outs.length = ins.length
        ∧ outs.take (1000 - t) = List.replicate (min (1000 - t) ins.length) (0, 0) := by
  intro ins
  induction ins with
  | nil =>
    intro t st _ _
    exact ⟨[], st, rfl, rfl, by simp⟩
  | cons x rest ih =>
    intro t st hinv hdelay
    have hd0 := hdelay 0 (by simp) [] st rfl
    obtain ⟨out, st1, hstep, hinv1, hout⟩ := UberFDN.processSample_step ext fuel depth shift_mix
      gains size_param skew big_buffer t st x hinv hd0 hfuel
    have hdelay1 : ∀ n, n < rest.length → ∀ outs stn,
        UberFDN.processSamples ext fuel depth shift_mix gains size_param skew st1 (rest.take n)
          = some (outs, stn) →
        ∀ k : Fin 8, 1000 ≤ stn.2.finalDelay ext depth size_param skew k
          ∧ stn.2.finalDelay ext depth size_param skew k < 240000 := by
      intro n hn outs stn h
      exact hdelay (n + 1) (by simp; omega) (out :: outs) stn
        (by rw [List.take_succ_cons]
            exact UberFDN.processSamples_cons ext fuel depth shift_mix gains size_param skew
              st st1 stn x out (rest.take n) outs hstep h)
    obtain ⟨outs, st2, hrun, hlen, hq⟩ := ih (t + 1) st1 hinv1 hdelay1
    refine ⟨out :: outs, st2, ?_, by simp [hlen], ?_⟩
    · exact UberFDN.processSamples_cons ext fuel depth shift_mix gains size_param skew
        st st1 st2 x out rest outs hstep hrun
    · by_cases ht : t < 1000
      · have h1 : 1000 - t = (1000 - (t + 1)) + 1 := by omega
        rw [h1, List.take_succ_cons, hq, hout ht, List.length_cons, Nat.succ_min_succ,
          List.replicate_succ]
      · have h0 : 1000 - t = 0 := by omega
        rw [h0]
        simp

theorem UberFDN.feedbackLoop_frame {σ τ ω : Type} (ext : External σ τ ω) (shift_mix : ℚ)
    (gains matrix_out : Fin 8 → ℚ) (diffused : ℚ) (L : List (Fin 8)) :
    ∀ st : Arena × UberFDN σ τ ω,
      (L.foldl (UberFDN.feedbackStep ext shift_mix gains matrix_out diffused) st).2.sample_rate_
          = st.2.sample_rate_
        ∧ (L.foldl (UberFDN.feedbackStep ext shift_mix gains matrix_out diffused) st).2.mode_
          = st.2.mode_ := by
  induction L with
  | nil => intro st; exact ⟨rfl, rfl⟩
  | cons k rest ih =>
    intro st
    simp only [List.foldl_cons]
    exact ih _

theorem UberFDN.processSample_frame {σ τ ω : Type} (ext : External σ τ ω) (fuel : Nat)
    (depth shift_mix : ℚ) (gains : Fin 8 → ℚ) (size_param skew : ℚ)
    (st st1 : Arena × UberFDN σ τ ω) (x out : ℚ × ℚ)
    (h : UberFDN.processSample ext fuel depth shift_mix gains size_param skew st x
      = some (out, st1)) :
    st1.2.sample_rate_ = st.2.sample_rate_ ∧ st1.2.mode_ = st.2.mode_ := by
  unfold UberFDN.processSample at h
  cases hr : st.2.readLines ext fuel st.1 depth size_param skew with
  | none => simp [hr] at h
  | some f =>
    simp only [hr, Option.some.injEq, Prod.mk.injEq] at h
    obtain ⟨_, h2⟩ := h
    rw [← h2]
    have hadv : (st.2.advanceOsc ext).sample_rate_ = st.2.sample_rate_
        ∧ (st.2.advanceOsc ext).mode_ = st.2.mode_ := by
      unfold UberFDN.advanceOsc
      split_ifs <;> exact ⟨rfl, rfl⟩
    obtain ⟨f1, f2⟩ := UberFDN.feedbackLoop_frame ext shift_mix gains (matrixMix f)
      (st.2.diffuse ((x.1 + x.2) * 0.5)).1 (List.finRange 8)
      (st.1, { st.2.advanceOsc ext with
        diffusers_ := (st.2.diffuse ((x.1 + x.2) * 0.5)).2 })
    exact ⟨f1.trans hadv.1, f2.trans hadv.2⟩

theorem UberFDN.processSamples_frame {σ τ ω : Type} (ext : External σ τ ω) (fuel : Nat)
    (depth shift_mix : ℚ) (gains : Fin 8 → ℚ) (size_param skew : ℚ) :
    ∀ (ins : List (ℚ × ℚ)) (st st1 : Arena × UberFDN σ τ ω) (outs : List (ℚ × ℚ)),
      UberFDN.processSamples ext fuel depth shift_mix gains size_param skew st ins
        = some (outs, st1) →
      st1.2.sample_rate_ = st.2.sample_rate_ ∧ st1.2.mode_ = st.2.mode_ := by
  intro ins
  induction ins with
  | nil =>
    intro st st1 outs h
    simp only [UberFDN.processSamples, Option.some.injEq, Prod.mk.injEq] at h
    rw [← h.2]
    exact ⟨rfl, rfl⟩
  | cons x rest ih =>
    intro st st1 outs h
    simp only [UberFDN.processSamples] at h
    cases hs : UberFDN.processSample ext fuel depth shift_mix gains size_param skew st x with
    | none => simp [hs] at h
    | some r =>
      obtain ⟨out, st2⟩ := r
      simp only [hs] at h
      cases hr : UberFDN.processSamples ext fuel depth shift_mix gains size_param skew st2 rest with
      | none => simp [hr] at h
      | some r2 =>
        obtain ⟨outs2, st3⟩ := r2
        simp only [hr, Option.some.injEq, Prod.mk.injEq] at h
        obtain ⟨g1, g2⟩ := UberFDN.processSample_frame ext fuel depth shift_mix gains
          size_param skew st st2 x out hs
        obtain ⟨g3, g4⟩ := ih st2 st3 outs2 hr
        rw [← h.2]
        exact ⟨g3.trans g1, g4.trans g2⟩

/-- C16: starting from zero-filled delay lines bound as `UberFDN::Init` binds
them, if at every sample of the block each line's final read delay `d`
satisfies `1000 ≤ d < 240000` (`hdelay`: the engine that is about to process
sample `n` is the one `ProcessBlock` leaves after the first `n` input pairs),
then for every input signal `ProcessBlock` returns its outputs and both
`out_l[t]` and `out_r[t]` are exactly `0` for every sample index `t < 1000`; a
nonzero output can occur only at index `≥ 1000`. -/
theorem UberFDN.first_output_delay {σ τ ω : Type} (ext : External σ τ ω) (fuel : Nat)
    (e : UberFDN σ τ ω) (mem : Arena) (ins : List (ℚ × ℚ)) (gains : Fin 8 → ℚ)
    (size_param skew warp : ℚ) (big_buffer : Int)
    (hinit : e.delays_ = initDelays big_buffer)
    (hzero : ∀ (k : Fin 8) (i : Int), 0 ≤ i → i < 240000 →
      mem (big_buffer + (k : Nat) * 240000 + i) = 0)
    (hdelay : ∀ n, n < ins.length → ∀ outs memn en,
      e.ProcessBlock ext fuel mem (ins.take n) gains size_param skew warp
        = some (outs, memn, en) →
      ∀ k : Fin 8,
        1000 ≤ en.finalDelay ext (blockSetup e.mode_ warp e.shimmers_).depth size_param skew k
          ∧ en.finalDelay ext (blockSetup e.mode_ warp e.shimmers_).depth size_param skew k
              < 240000)
    (hfuel : 240000 ≤ fuel) :
    ∃ outs mem1 e1,
      e.ProcessBlock ext fuel mem ins gains size_param skew warp = some (outs, mem1, e1)
        ∧ outs.length = ins.length
        ∧ outs.take 1000 = List.replicate (min 1000 ins.length) (0, 0) := by
  have hinv : linesAt big_buffer 0
      (mem, { e with shimmers_ := (blockSetup e.mode_ warp e.shimmers_).shimmers }) := by
    constructor
    · intro k
      simp only [hinit, initDelays, OmniDelay.Init]
      rfl
    · intro _ k i hi0 hi1
      exact hzero k i (by simpa using hi0) hi1
  obtain ⟨outs, st1, hrun, hlen, hq⟩ := UberFDN.processSamples_quiet ext fuel
    (blockSetup e.mode_ warp e.shimmers_).depth (blockSetup e.mode_ warp e.shimmers_).shift_mix
    gains size_param skew big_buffer hfuel ins 0 _ hinv
    (fun n hn outs stn h => hdelay n hn outs stn.1 stn.2 h)
  exact ⟨outs, st1.1, st1.2, hrun, hlen, hq⟩

theorem UberFDN.first_output_delay_witness :
    ∃ outs mem1 e1,
      unitEngine.ProcessBlock unitExternal 240000 (fun _ => 0) [(1, 1), (1, -1)]
          (fun _ => 0.5) 1 0.5 0 = some (outs, mem1, e1)
        ∧ outs.length = [((1 : ℚ), (1 : ℚ)), (1, -1)].length
        ∧ outs.take 1000 = List.replicate (min 1000 [((1 : ℚ), (1 : ℚ)), (1, -1)].length) (0, 0) :=
  UberFDN.first_output_delay unitExternal 240000 unitEngine (fun _ => 0) [(1, 1), (1, -1)]
    (fun _ => 0.5) 1 0.5 0 0 rfl (fun _ _ _ _ => rfl)
    (fun n _ outs memn en h k => by
      obtain ⟨hsr, hmode⟩ := UberFDN.processSamples_frame unitExternal 240000 _ _ _ _ _ _ _
        (memn, en) outs h
      have hsr2 : en.sample_rate_ = 48000 := hsr
      have hmode2 : en.mode_ = FdnMode.MODE_STUDIO := hmode
      have hm : en.modVal unitExternal k = 0 := by
        simp [UberFDN.modVal, unitExternal, hmode2]
      have hdepth : (blockSetup unitEngine.mode_ 0 unitEngine.shimmers_).depth = 10 := by
        rw [blockSetup_depth]
        simp [unitEngine]
      simp only [UberFDN.finalDelay, delayTime, hsr2, hm, hdepth]
      fin_cases k <;> norm_num [unitExternal, base_ratios_])
    (le_refl _)

/-! ## The damping filter -/

theorem toneShape_damping {τ : Type} (expf : ℚ → ℚ) (svf : SvfOps τ) (mode : FdnMode) (k : Nat)
    (gain next : ℚ) (lpf : OmniOnePole) (res : τ) (hmode : mode ≠ FdnMode.MODE_MASSIVE) :
    (toneShape expf svf mode k gain next lpf res).2.1.b1_
        = expf (-2.0 * 3.1415927 * (2000.0 + gain * 8000.0) / 48000.0)
      ∧ (toneShape expf svf mode k gain next lpf res).2.1.a0_
        = 1.0 - (toneShape expf svf mode k gain next lpf res).2.1.b1_
      ∧ (toneShape expf svf mode k gain next lpf res).1
        = next * (toneShape expf svf mode k gain next lpf res).2.1.a0_
          + lpf.out_ * (toneShape expf svf mode k gain next lpf res).2.1.b1_ := by
  simp only [toneShape, if_neg hmode, OmniOnePole.SetFreq, OmniOnePole.Process]
  exact ⟨trivial, trivial, trivial⟩

/-- C18, the code at a sample rate other than 48 kHz: in Studio mode, for an
engine whose `sample_rate_` is 96000 and a line gain of `0` (cutoff 2000 Hz),
the damping filter's `SetFreq` hands `expf` the exponent
`-2 * 3.1415927 * 2000 / 48000` (the stand-in `expf` of `unitExternal` is the
identity, so `b1_` shows that exponent), not `-2 * 3.1415927 * (2000 / 96000)`:
the division is by the constant 48000, not by the engine's sample rate. -/
theorem damping_pole_at_96k :
    ((UberFDN.feedbackStep unitExternal 0 (fun _ => 0) (fun _ => 0) 0
        (fun _ => 0, { unitEngine with sample_rate_ := 96000 }) 0).2.damp_lpf_ 0).b1_
        = -2.0 * 3.1415927 * 2000.0 / 48000.0
      ∧ ((UberFDN.feedbackStep unitExternal 0 (fun _ => 0) (fun _ => 0) 0
        (fun _ => 0, { unitEngine with sample_rate_ := 96000 }) 0).2.damp_lpf_ 0).b1_
        ≠ -2.0 * 3.1415927 * (2000.0 / 96000.0) := by
  have h : ((UberFDN.feedbackStep unitExternal 0 (fun _ => 0) (fun _ => 0) 0
        (fun _ => 0, { unitEngine with sample_rate_ := 96000 }) 0).2.damp_lpf_ 0).b1_
        = -2.0 * 3.1415927 * 2000.0 / 48000.0 := by
    simp only [UberFDN.feedbackStep, feedbackLine, Function.update_same]
    have hm : unitEngine.mode_ = FdnMode.MODE_STUDIO := rfl
    rw [hm, (toneShape_damping unitExternal.expf unitExternal.svf FdnMode.MODE_STUDIO _ _ _ _ _
      (by decide)).1]
    norm_num [unitExternal]
  refine ⟨h, ?_⟩
  rw [h]
  norm_num

/-! ## The two diffusers -/

theorem SimpleAllpass.Process_toOmni (a : SimpleAllpass) (x : ℚ) :
    (a.Process x).1 = (a.toOmni.Process x).1
      ∧ (a.Process x).2.toOmni = (a.toOmni.Process x).2 :=
  ⟨rfl, rfl⟩

theorem OmniAllpass.read_ptr_emod (a : OmniAllpass) (hw0 : 0 ≤ a.write_ptr_)
    (hw1 : a.write_ptr_ < 600) (hd0 : 0 ≤ a.delay_len_) (hd1 : a.delay_len_ ≤ 599) :
    a.read_ptr = (a.write_ptr_ - a.delay_len_) % 600 := by
  unfold OmniAllpass.read_ptr
  split_ifs with h
  · have h2 : (a.write_ptr_ - a.delay_len_) % 600 = (a.write_ptr_ - a.delay_len_ + 600) % 600 := by
      rw [Int.add_emod_self]
    rw [h2, Int.emod_eq_of_lt (by omega) (by omega)]
  · rw [Int.emod_eq_of_lt (by omega) (by omega)]

/-- C21: for every diffuser state and input `in`, `OmniAllpass::Process` and
`SimpleAllpass::Process` both return `out = -in + buf[read]` and store
`buf[write] = in + 0.5 * buf[read]`, leaving the other slots and the delay
length alone, and the two implementations are equal step for step (same
output, same state afterwards); `read` is the code's `read_ptr`, which is
`(write - delay_len) mod 600`, and `write` advances to `(write + 1) mod 600`,
in every state with the write cursor in `[0, 600)` and the delay length in
`[0, 599]` (the states that `Init`, `SetDelay` with a length `≥ 0` and
`Process` produce). -/
theorem allpass_process_spec (a : SimpleAllpass) (x : ℚ) :
    (a.toOmni.Process x).1 = -x + a.buffer_ a.toOmni.read_ptr
      ∧ (a.toOmni.Process x).2.buffer_
          = Function.update a.buffer_ a.write_ptr_ (x + 0.5 * a.buffer_ a.toOmni.read_ptr)
      ∧ (a.toOmni.Process x).2.delay_len_ = a.delay_len_
      ∧ (a.toOmni.Process x).2.write_ptr_
          = (if a.write_ptr_ + 1 ≥ 600 then 0 else a.write_ptr_ + 1)
      ∧ (a.Process x).1 = (a.toOmni.Process x).1
      ∧ (a.Process x).2.toOmni = (a.toOmni.Process x).2
      ∧ (0 ≤ a.write_ptr_ ∧ a.write_ptr_ < 600 ∧ 0 ≤ a.delay_len_ ∧ a.delay_len_ ≤ 599 →
          a.toOmni.read_ptr = (a.write_ptr_ - a.delay_len_) % 600
            ∧ (a.toOmni.Process x).2.write_ptr_ = (a.write_ptr_ + 1) % 600) := by
  refine ⟨rfl, rfl, rfl, rfl, rfl, rfl, ?_⟩
  rintro ⟨hw0, hw1, hd0, hd1⟩
  refine ⟨OmniAllpass.read_ptr_emod a.toOmni hw0 hw1 hd0 hd1, ?_⟩
  simp only [OmniAllpass.Process, SimpleAllpass.toOmni]
  split_ifs with h
  · have h3 : a.write_ptr_ + 1 = 600 := by omega
    rw [h3]
    rfl
  · exact (Int.emod_eq_of_lt (by omega) (by omega)).symm

theorem allpass_process_spec_witness :
    ({ buffer_ := fun i => (i : ℚ), write_ptr_ := 5, delay_len_ := 225 } :
        SimpleAllpass).toOmni.read_ptr = (5 - 225) % 600
      ∧ (({ buffer_ := fun i => (i : ℚ), write_ptr_ := 5, delay_len_ := 225 } :
        SimpleAllpass).toOmni.Process 1).2.write_ptr_ = (5 + 1) % 600 :=
  (allpass_process_spec { buffer_ := fun i => (i : ℚ), write_ptr_ := 5, delay_len_ := 225 }
    1).2.2.2.2.2.2 ⟨by norm_num, by norm_num, by norm_num, by norm_num⟩

/-- C22, the code against its own comment: after `Init`, `Process(1)` returns
`-1`, that is `-in + buf[read]`, while the allpass stated in the comment of
`SimpleAllpass::Process` (`out = -g * in + buf[read]` with `g = 0.5`) returns
`-0.5`; the stored sample `in + g * buf[read]` is the same in both. -/
theorem SimpleAllpass.Process_not_schroeder :
    (({ buffer_ := fun _ => 0, write_ptr_ := 0, delay_len_ := 0 } : SimpleAllpass).Init.Process
        1).1 = -1
      ∧ (schroederAllpass 0.5
          ({ buffer_ := fun _ => 0, write_ptr_ := 0, delay_len_ := 0 } : SimpleAllpass).Init.buffer_
          ({ buffer_ := fun _ => 0, write_ptr_ := 0, delay_len_ := 0 } : SimpleAllpass).Init.read_ptr
          ({ buffer_ := fun _ => 0, write_ptr_ := 0, delay_len_ := 0 } :
            SimpleAllpass).Init.write_ptr_ 1).1 = -0.5
      ∧ (({ buffer_ := fun _ => 0, write_ptr_ := 0, delay_len_ := 0 } : SimpleAllpass).Init.Process
        1).2.buffer_
        = (schroederAllpass 0.5
          ({ buffer_ := fun _ => 0, write_ptr_ := 0, delay_len_ := 0 } : SimpleAllpass).Init.buffer_
          ({ buffer_ := fun _ => 0, write_ptr_ := 0, delay_len_ := 0 } : SimpleAllpass).Init.read_ptr
          ({ buffer_ := fun _ => 0, write_ptr_ := 0, delay_len_ := 0 } :
            SimpleAllpass).Init.write_ptr_ 1).2 := by
  refine ⟨?_, ?_, rfl⟩
  · norm_num [SimpleAllpass.Process, SimpleAllpass.Init, SimpleAllpass.read_ptr]
  · norm_num [schroederAllpass, SimpleAllpass.Init, SimpleAllpass.read_ptr]

theorem SimpleAllpass.Process_vs_comment (a : SimpleAllpass) (x : ℚ) :
    (a.Process x).1 = (schroederAllpass 0.5 a.buffer_ a.read_ptr a.write_ptr_ x).1 - 0.5 * x
      ∧ (a.Process x).2.buffer_ = (schroederAllpass 0.5 a.buffer_ a.read_ptr a.write_ptr_ x).2 := by
  refine ⟨?_, rfl⟩
  simp only [SimpleAllpass.Process, schroederAllpass]
  ring

/-! ## Soft limiter: contraction and monotonicity -/

theorem SoftLimit_sub (x y : ℚ) :
    SoftLimit y - SoftLimit x
      = (y - x) * (9 * (x * y - 9) ^ 2 + 27 * (x - y) ^ 2)
          / ((27 + 9 * x * x) * (27 + 9 * y * y)) := by
  have hx : (27 : ℚ) + 9 * x * x ≠ 0 := by nlinarith [mul_self_nonneg x]
  have hy : (27 : ℚ) + 9 * y * y ≠ 0 := by nlinarith [mul_self_nonneg y]
  unfold SoftLimit
  field_simp
  ring

theorem SoftLimit_monotone : Monotone SoftLimit := by
  intro x y hxy
  have hx : (0 : ℚ) < 27 + 9 * x * x := by nlinarith [mul_self_nonneg x]
  have hy : (0 : ℚ) < 27 + 9 * y * y := by nlinarith [mul_self_nonneg y]
  have h := SoftLimit_sub x y
  have hnum : 0 ≤ (y - x) * (9 * (x * y - 9) ^ 2 + 27 * (x - y) ^ 2) :=
    mul_nonneg (sub_nonneg.mpr hxy) (by positivity)
  have hpos : 0 ≤ SoftLimit y - SoftLimit x := by
    rw [h]
    exact div_nonneg hnum (le_of_lt (mul_pos hx hy))
  linarith

theorem SoftLimit_abs_le_one_iff (x : ℚ) : |SoftLimit x| ≤ 1 ↔ |x| ≤ 3 := by
  have ha : 0 ≤ |x| := abs_nonneg x
  have h2 : (0 : ℚ) < 27 + 9 * (|x| * |x|) := by positivity
  rw [SoftLimit_abs, div_le_iff₀ h2]
  constructor
  · intro h
    by_contra hc
    have h3 : 0 < |x| - 3 := by linarith [not_le.mp hc]
    have h4 : 0 < (|x| - 3) ^ 3 := pow_pos h3 3
    nlinarith
  · intro h
    have h3 : 0 ≤ 3 - |x| := by linarith
    have h4 : 0 ≤ (3 - |x|) ^ 3 := pow_nonneg h3 3
    nlinarith

theorem SuperFDN.fclamp_abs (x : ℚ) : |SuperFDN.fclamp x (-2.0) 2.0| ≤ 2 := by
  unfold SuperFDN.fclamp
  rw [abs_le]
  split_ifs with h1 h2
  · norm_num
  · norm_num
  · norm_num at h1 h2 ⊢
    exact ⟨h1, h2⟩

/-- C23: for every `x` the soft limiter never increases magnitude,
`|SoftLimit x| ≤ |x|`, with equality only at `x = 0` (and `SoftLimit 0 = 0`),
and `SoftLimit x` has the same sign as `x`. -/
theorem SoftLimit_contracts (x : ℚ) :
    |SoftLimit x| ≤ |x|
      ∧ (|SoftLimit x| = |x| ↔ x = 0)
      ∧ SoftLimit 0 = 0
      ∧ SignType.sign (SoftLimit x) = SignType.sign x := by
  have ha : 0 ≤ |x| := abs_nonneg x
  have h2 : (0 : ℚ) < 27 + 9 * (|x| * |x|) := by positivity
  have hsq : 0 ≤ |x| * |x| := mul_nonneg ha ha
  refine ⟨?_, ?_, by norm_num [SoftLimit], ?_⟩
  · rw [SoftLimit_abs, div_le_iff₀ h2]
    nlinarith [mul_nonneg ha hsq]
  · rw [SoftLimit_abs, div_eq_iff (ne_of_gt h2)]
    constructor
    · intro h
      have h3 : |x| * (|x| * |x|) = 0 := by nlinarith
      have h4 : |x| = 0 := by
        rcases mul_eq_zero.mp h3 with h | h
        · exact h
        · rcases mul_eq_zero.mp h with h | h <;> exact h
      exact abs_eq_zero.mp h4
    · intro h
      rw [h]
      simp
  · have hpos : (0 : ℚ) < (27 + x * x) / (27 + 9 * x * x) := by
      apply div_pos <;> nlinarith [mul_self_nonneg x]
    have hs : SoftLimit x = x * ((27 + x * x) / (27 + 9 * x * x)) := by
      unfold SoftLimit
      rw [mul_div_assoc]
    rw [hs, sign_mul, sign_pos hpos, mul_one]

/-- C24: `SoftLimit` is monotonically non-decreasing, `SoftLimit 3 = 1` and
`SoftLimit (-3) = -1`, so `|SoftLimit x| ≤ 1` if and only if `|x| ≤ 3`; and in
`SuperFDN::ProcessBlock`, where the value is first clamped to `[-2, 2]`, every
sample written to a delay line has magnitude at most `62/63`. -/
theorem SoftLimit_monotone_unit {ρ : Type} (setFrequency : ρ → ℚ → ρ)
    (process : ρ → ℚ → ℚ × ρ) (sample_rate_ master_decay_ gain matrix_out_k diffused : ℚ)
    (filt : ρ) (x : ℚ) :
    Monotone SoftLimit
      ∧ SoftLimit 3 = 1
      ∧ SoftLimit (-3) = -1
      ∧ (|SoftLimit x| ≤ 1 ↔ |x| ≤ 3)
      ∧ |(SuperFDN.feedbackLine setFrequency process sample_rate_ master_decay_ gain
            matrix_out_k diffused filt).1| ≤ 62 / 63 := by
  refine ⟨SoftLimit_monotone, by norm_num [SoftLimit], by norm_num [SoftLimit],
    SoftLimit_abs_le_one_iff x, ?_⟩
  simp only [SuperFDN.feedbackLine]
  have hc := abs_le.mp (SuperFDN.fclamp_abs
    (process (setFrequency filt ((2000.0 + gain * 8000.0) / sample_rate_))
      (diffused * 0.25 + matrix_out_k
        * (if gain * master_decay_ > 0.99 then 0.99 else gain * master_decay_))).1)
  have h2 : SoftLimit 2 = 62 / 63 := by norm_num [SoftLimit]
  have hm2 : SoftLimit (-2) = -(62 / 63) := by norm_num [SoftLimit]
  rw [abs_le]
  constructor
  · rw [← hm2]
    exact SoftLimit_monotone hc.1
  · rw [← h2]
    exact SoftLimit_monotone hc.2

/-! ## The delay line: which sample a delay of 0 or 1 returns -/

theorem OmniDelay.readPos_of_bounds (d : OmniDelay) (hcap : 1 ≤ d.max_len_) (delay_samps : ℚ)
    (fuel : Nat) (hlow : 0 ≤ (d.write_ptr_ : ℚ) - delay_samps + fuel * d.max_len_)
    (hhigh : (d.write_ptr_ : ℚ) - delay_samps < (fuel + 1) * d.max_len_) :
    d.readPos fuel delay_samps = some (wrapPos d.max_len_ ((d.write_ptr_ : ℚ) - delay_samps)) := by
  have hc : (1 : ℚ) ≤ d.max_len_ := by exact_mod_cast hcap
  have hf0 : (0 : ℚ) ≤ fuel := Nat.cast_nonneg fuel
  obtain ⟨k, hk1, hk2, hk3, hk4⟩ :=
    wrapUp_spec d.max_len_ fuel ((d.write_ptr_ : ℚ) - delay_samps) hlow
  have hlt : (d.write_ptr_ : ℚ) - delay_samps + k * d.max_len_ < (fuel + 1) * d.max_len_ := by
    by_cases hneg : (d.write_ptr_ : ℚ) - delay_samps < 0
    · have := hk3 hneg
      nlinarith
    · have hk0 := hk4 (not_lt.mp hneg)
      subst hk0
      simp only [Nat.cast_zero, zero_mul, add_zero]
      exact hhigh
  obtain ⟨j, hj1, hj2, hj3⟩ := wrapDown_spec d.max_len_ fuel _ hk2 hlt
  unfold OmniDelay.readPos
  rw [hk1, Option.some_bind, hj1]
  congr 1
  apply wrapPos_unique d.max_len_ hcap _ _ ((k : Int) - (j : Int)) hj2 hj3
  push_cast
  ring

theorem OmniDelay.Read_at_index (d : OmniDelay) (mem : Arena) (hcap : 1 ≤ d.max_len_)
    (delay_samps : ℚ) (fuel : Nat) (i : Int) (hi0 : 0 ≤ i) (hi1 : i < d.max_len_)
    (hlow : 0 ≤ (d.write_ptr_ : ℚ) - delay_samps + fuel * d.max_len_)
    (hhigh : (d.write_ptr_ : ℚ) - delay_samps < (fuel + 1) * d.max_len_)
    (hpos : ∃ n : Int, (i : ℚ) = (d.write_ptr_ : ℚ) - delay_samps + n * d.max_len_) :
    d.Read fuel mem delay_samps = some (mem (d.buffer_ + i)) := by
  obtain ⟨n, hn⟩ := hpos
  have hwp : wrapPos d.max_len_ ((d.write_ptr_ : ℚ) - delay_samps) = (i : ℚ) :=
    (wrapPos_unique d.max_len_ hcap _ (i : ℚ) n (by exact_mod_cast hi0)
      (by exact_mod_cast hi1) hn).symm
  unfold OmniDelay.Read
  rw [OmniDelay.readPos_of_bounds d hcap delay_samps fuel hlow hhigh, Option.map_some', hwp]
  have hidx : OmniDelay.idx (i : ℚ) = i := by
    rw [OmniDelay.idx_of_nonneg _ (by exact_mod_cast hi0), Int.floor_intCast]
  simp only [OmniDelay.interp, hidx, sub_self, zero_mul, add_zero]

theorem OmniDelay.writeAll_untouched (buf capacity : Int) (ws : List ℚ) :
    ∀ (cursor : Int) (mem : Arena), 0 ≤ cursor → cursor + ws.length ≤ capacity →
      (OmniDelay.writeAll { buffer_ := buf, max_len_ := capacity, write_ptr_ := cursor } mem
          ws).2 = { buffer_ := buf, max_len_ := capacity,
                    write_ptr_ := if cursor + ws.length ≥ capacity ∧ ws ≠ [] then 0
                      else cursor + ws.length }
        ∧ ∀ a : Int, (a < buf + cursor ∨ buf + cursor + ws.length ≤ a) →
            (OmniDelay.writeAll { buffer_ := buf, max_len_ := capacity, write_ptr_ := cursor }
              mem ws).1 a = mem a := by
  induction ws with
  | nil =>
    intro cursor mem _ _
    simp [OmniDelay.writeAll]
  | cons s rest ih =>
    intro cursor mem hc0 hlen
    simp only [List.length_cons, Nat.cast_add, Nat.cast_one] at hlen ⊢
    simp only [OmniDelay.writeAll, OmniDelay.Write, OmniDelay.writeAddr]
    by_cases hwrap : cursor + 1 ≥ capacity
    · have hrest : rest = [] := by
        have : (rest.length : Int) = 0 := by omega
        exact List.length_eq_zero.mp (by exact_mod_cast this)
      subst hrest
      simp only [if_pos hwrap, OmniDelay.writeAll, List.length_nil, Nat.cast_zero, zero_add]
      refine ⟨by simp [hwrap], ?_⟩
      intro a ha
      exact Function.update_noteq (by omega) _ _
    · simp only [if_neg hwrap]
      obtain ⟨i1, i2⟩ := ih (cursor + 1) (Function.update mem (buf + cursor) s) (by omega)
        (by omega)
      refine ⟨?_, ?_⟩
      · rw [i1]
        congr 1
        by_cases hr : rest = []
        · subst hr
          simp [hwrap]
        · have e1 : cursor + 1 + (rest.length : Int) = cursor + ((rest.length : Int) + 1) := by
            ring
          simp only [hr, ne_eq, not_false_eq_true, and_true, e1, reduceCtorEq]
      · intro a ha
        rw [i2 a (by omega)]
        exact Function.update_noteq (by omega) _ _

theorem OmniDelay.Read_zero (d : OmniDelay) (mem : Arena) (fuel : Nat) (hcap : 1 ≤ d.max_len_)
    (hc0 : 0 ≤ d.write_ptr_) (hc1 : d.write_ptr_ < d.max_len_) :
    d.Read fuel mem 0 = some (mem (d.buffer_ + d.write_ptr_)) := by
  have hcq : (1 : ℚ) ≤ d.max_len_ := by exact_mod_cast hcap
  have h0q : (0 : ℚ) ≤ d.write_ptr_ := by exact_mod_cast hc0
  have h1q : (d.write_ptr_ : ℚ) < d.max_len_ := by exact_mod_cast hc1
  have hf0 : (0 : ℚ) ≤ fuel := Nat.cast_nonneg fuel
  refine OmniDelay.Read_at_index d mem hcap 0 fuel d.write_ptr_ hc0 hc1 ?_ ?_ ⟨0, by simp⟩
  · have : (0 : ℚ) ≤ fuel * d.max_len_ := mul_nonneg hf0 (by linarith)
    linarith
  · nlinarith

theorem UberFDN.processSample_out {σ τ ω : Type} (ext : External σ τ ω) (fuel : Nat)
    (depth shift_mix : ℚ) (gains : Fin 8 → ℚ) (size_param skew : ℚ)
    (st : Arena × UberFDN σ τ ω) (x : ℚ × ℚ) (f : Fin 8 → ℚ)
    (hf : ∀ k : Fin 8, (st.2.delays_ k).Read fuel st.1
      (st.2.finalDelay ext depth size_param skew k) = some (f k)) :
    ∃ st1, UberFDN.processSample ext fuel depth shift_mix gains size_param skew st x
      = some (((f 0 - f 2 + f 4 - f 6) * 0.25, (f 1 - f 3 + f 5 - f 7) * 0.25), st1) := by
  have hsome : ∀ k : Fin 8, ((st.2.delays_ k).Read fuel st.1
      (st.2.finalDelay ext depth size_param skew k)).isSome = true := by
    intro k
    rw [hf k]
    rfl
  obtain ⟨g, hg, hgk⟩ := UberFDN.readLines_eq ext fuel st.2 st.1 depth size_param skew hsome
  have hfg : g = f := by
    funext k
    have h1 := hgk k
    rw [hf k] at h1
    exact (Option.some.inj h1).symm
  subst hfg
  unfold UberFDN.processSample
  simp only [hg]
  exact ⟨_, rfl⟩

theorem blockSetup_studio {σ : Type} (warp : ℚ) (sh : Shimmers σ) :
    blockSetup FdnMode.MODE_STUDIO warp sh = { depth := 10.0, shift_mix := 0.0, shimmers := sh } := by
  simp [blockSetup]

/-- C26: `UberFDN::Init` (and with it `OmniDelay::Init`) returns the arena as
it received it: it binds line `k` at `big_buffer + k * 240000` with capacity
240000 and cursor 0, and stores no sample.  So a slot that no `Write` has
reached yet still holds what the arena held before `Init`, a `Read` right after
`Init` interpolates between such values, and the first output pair of
`ProcessBlock` is the fixed combination of the eight reads `f k` taken from
that arena. -/
theorem UberFDN.Init_frame {σ τ ω : Type} (ext : External σ τ ω) (xi : ExternalInit σ τ ω)
    (e : UberFDN σ τ ω) (mem : Arena) (sample_rate : ℚ) (big_buffer : Int) (k : Fin 8)
    (ws : List ℚ) (i : Int) (delay : ℚ) (fuel : Nat) (x : ℚ × ℚ) (gains : Fin 8 → ℚ)
    (size_param skew warp : ℚ) (f : Fin 8 → ℚ)
    (hi0 : (ws.length : Int) ≤ i) (hi1 : i < 240000)
    (hfuel : |((0 : Int) : ℚ) - delay| ≤ fuel)
    (hf : ∀ j : Fin 8, (initDelays big_buffer j).Read fuel mem
      ((UberFDN.Init ext xi e mem sample_rate big_buffer).2.finalDelay ext 10.0 size_param skew j)
        = some (f j)) :
    (UberFDN.Init ext xi e mem sample_rate big_buffer).1 = mem
      ∧ (UberFDN.Init ext xi e mem sample_rate big_buffer).2.delays_ k
          = { buffer_ := big_buffer + (k : Nat) * 240000, max_len_ := 240000, write_ptr_ := 0 }
      ∧ ((initDelays big_buffer k).writeAll mem ws).1 (big_buffer + (k : Nat) * 240000 + i)
          = mem (big_buffer + (k : Nat) * 240000 + i)
      ∧ ((UberFDN.Init ext xi e mem sample_rate big_buffer).2.delays_ k).Read fuel
          (UberFDN.Init ext xi e mem sample_rate big_buffer).1 delay
          = some (mem (big_buffer + (k : Nat) * 240000 + ⌊wrapPos 240000 (((0 : Int) : ℚ) - delay)⌋)
              + (wrapPos 240000 (((0 : Int) : ℚ) - delay)
                  - (⌊wrapPos 240000 (((0 : Int) : ℚ) - delay)⌋ : ℚ))
                * (mem (big_buffer + (k : Nat) * 240000
                      + (⌊wrapPos 240000 (((0 : Int) : ℚ) - delay)⌋ + 1) % 240000)
                    - mem (big_buffer + (k : Nat) * 240000
                        + ⌊wrapPos 240000 (((0 : Int) : ℚ) - delay)⌋)))
      ∧ ∃ st1, UberFDN.ProcessBlock ext fuel
            (UberFDN.Init ext xi e mem sample_rate big_buffer).2
            (UberFDN.Init ext xi e mem sample_rate big_buffer).1 [x] gains size_param skew warp
          = some ([((f 0 - f 2 + f 4 - f 6) * 0.25, (f 1 - f 3 + f 5 - f 7) * 0.25)], st1) := by
  refine ⟨rfl, rfl, ?_, ?_, ?_⟩
  · obtain ⟨_, h2⟩ := OmniDelay.writeAll_untouched (big_buffer + (k : Nat) * 240000) 240000 ws 0
      mem (le_refl _) (by omega)
    exact h2 _ (Or.inr (by omega))
  · exact OmniDelay.Read_eq
      { buffer_ := big_buffer + (k : Nat) * 240000, max_len_ := 240000, write_ptr_ := 0 } mem
      (by norm_num) delay fuel hfuel
  · obtain ⟨st1, h1⟩ := UberFDN.processSample_out ext fuel 10.0 0.0 gains size_param skew
      (mem, (UberFDN.Init ext xi e mem sample_rate big_buffer).2) x f hf
    refine ⟨st1, ?_⟩
    unfold UberFDN.ProcessBlock
    have hmode : (UberFDN.Init ext xi e mem sample_rate big_buffer).2.mode_
        = FdnMode.MODE_STUDIO := rfl
    rw [hmode, blockSetup_studio]
    exact UberFDN.processSamples_cons ext fuel 10.0 0.0 gains size_param skew _ st1 st1 x _ []
      [] h1 rfl

theorem UberFDN.Init_frame_witness :
    (UberFDN.Init unitExternal unitExternalInit unitEngine
        (fun a : Int => if a = 0 then (4 : ℚ) else 0) 48000 0).1
      = (fun a : Int => if a = 0 then (4 : ℚ) else 0) :=
  (UberFDN.Init_frame unitExternal unitExternalInit unitEngine
    (fun a : Int => if a = 0 then (4 : ℚ) else 0) 48000 0 0 [1, 2] 5 0 1 (0, 0)
    (fun _ => 0.5) 0 0.5 0
    (fun j => (fun a : Int => if a = 0 then (4 : ℚ) else 0)
      ((initDelays 0 j).buffer_ + (initDelays 0 j).write_ptr_))
    (by norm_num) (by norm_num) (by norm_num)
    (fun j => by
      have hfd : (UberFDN.Init unitExternal unitExternalInit unitEngine
          (fun a : Int => if a = 0 then (4 : ℚ) else 0) 48000 0).2.finalDelay unitExternal 10.0
            0 0.5 j = 0 := by
        simp [UberFDN.finalDelay, delayTime, UberFDN.modVal, UberFDN.Init, unitExternal]
      rw [hfd]
      exact OmniDelay.Read_zero (initDelays 0 j) _ 1 (by simp [initDelays, OmniDelay.Init])
        (by simp [initDelays, OmniDelay.Init]) (by simp [initDelays, OmniDelay.Init]))).1

/-! ## The decay control of `main` and the feedback gain -/

theorem clampDecay_mem (raw_fb_k raw_fb_cv : ℚ) :
    0 ≤ clampDecay raw_fb_k raw_fb_cv ∧ clampDecay raw_fb_k raw_fb_cv ≤ 1 := by
  unfold clampDecay
  simp only []
  by_cases h1 : raw_fb_k + raw_fb_cv < 0.0
  · simp only [if_pos h1]
    norm_num
  · simp only [if_neg h1]
    split_ifs with h3
    · norm_num
    · norm_num at h1 h3
      exact ⟨h1, h3⟩

theorem mainStartup_mode {σ τ ω : Type} (ext : External σ τ ω) (xi : ExternalInit σ τ ω)
    (fdn_engine : UberFDN σ τ ω) (mem : Arena) (samplerate selector : ℚ)
    (h : selector < 0.6) :
    (mainStartup ext xi fdn_engine mem samplerate selector).2.2.mode_ = FdnMode.MODE_STUDIO := by
  unfold mainStartup selectMode
  by_cases h1 : selector < 0.2
  · simp only [if_pos h1, reduceCtorEq, if_false]
    rfl
  · by_cases h2 : selector < 0.4
    · simp only [if_neg h1, if_pos h2, reduceCtorEq, if_false]
      rfl
    · simp only [if_neg h1, if_neg h2, if_pos h, reduceCtorEq, if_false]
      rfl

/-- C27, the code on the Massive setting: with slider 1 at `0.5` at start-up
`main` selects `APP_MASSIVE` and calls `SetMode(MODE_MASSIVE)`, but the
`Init` it calls afterwards sets `mode_` back to `MODE_STUDIO`; with the decay
control at its maximum (`k_decay = 1`, passed unscaled to `SetDecay` because
`current_mode` is `APP_MASSIVE`) and a line gain of `1`, `ProcessBlock` then
computes `fb = 0.99`, not `1.0`. -/
theorem main_massive_feedback :
    (mainStartup unitExternal unitExternalInit unitEngine (fun _ => 0) 48000 0.5).1
        = AppMode.APP_MASSIVE
      ∧ (mainStartup unitExternal unitExternalInit unitEngine (fun _ => 0) 48000 0.5).2.2.mode_
        = FdnMode.MODE_STUDIO
      ∧ clampDecay 1 0 = 1
      ∧ (mainUpdateDecay AppMode.APP_MASSIVE (clampDecay 1 0)
          (mainStartup unitExternal unitExternalInit unitEngine (fun _ => 0) 48000
            0.5).2.2).master_decay_ = 1
      ∧ feedbackGain
          (mainUpdateDecay AppMode.APP_MASSIVE (clampDecay 1 0)
            (mainStartup unitExternal unitExternalInit unitEngine (fun _ => 0) 48000
              0.5).2.2).mode_ 1
          (mainUpdateDecay AppMode.APP_MASSIVE (clampDecay 1 0)
            (mainStartup unitExternal unitExternalInit unitEngine (fun _ => 0) 48000
              0.5).2.2).master_decay_ = 0.99 := by
  have hsel : selectMode 0.5 = AppMode.APP_MASSIVE := by
    norm_num [selectMode]
  have hmode := mainStartup_mode unitExternal unitExternalInit unitEngine (fun _ => 0) 48000 0.5
    (by norm_num)
  have hk : clampDecay 1 0 = 1 := by
    norm_num [clampDecay]
  have hmd : (mainUpdateDecay AppMode.APP_MASSIVE (clampDecay 1 0)
      (mainStartup unitExternal unitExternalInit unitEngine (fun _ => 0) 48000
        0.5).2.2).master_decay_ = 1 := by
    rw [hk]
    simp [mainUpdateDecay, UberFDN.SetDecay]
  have hmo : (mainUpdateDecay AppMode.APP_MASSIVE (clampDecay 1 0)
      (mainStartup unitExternal unitExternalInit unitEngine (fun _ => 0) 48000
        0.5).2.2).mode_ = FdnMode.MODE_STUDIO := by
    simp only [mainUpdateDecay, UberFDN.SetDecay, reduceCtorEq, if_false, ne_eq, not_false_eq_true,
      if_true, not_true_eq_false]
    exact hmode
  refine ⟨?_, hmode, hk, hmd, ?_⟩
  · simp only [mainStartup, hsel, reduceCtorEq, if_false]
  · rw [hmo, hmd]
    simp only [feedbackGain, reduceCtorEq, false_and, if_false]
    norm_num

/-! ## Binary32 arithmetic: the ramp at `warp = 1.0` and the wrap loops of `Read` -/

theorem roundEven_near (q : ℚ) (n : Int) (h0 : (n : ℚ) - 1 / 2 < q) (h1 : q < n + 1 / 2) :
    roundEven q = n := by
  unfold roundEven
  by_cases hq : (n : ℚ) ≤ q
  · have hf : ⌊q⌋ = n := by
      rw [Int.floor_eq_iff]
      constructor <;> linarith
    rw [hf, if_pos (by linarith)]
  · have hf : ⌊q⌋ = n - 1 := by
      rw [Int.floor_eq_iff]
      push_cast
      constructor <;> linarith [not_le.mp hq]
    rw [hf]
    push_cast
    rw [if_neg (by linarith), if_pos (by linarith)]
    ring

theorem ulpExp_eq (x : ℚ) (e : Int) (he : -126 ≤ e) (h1 : (2 : ℚ) ^ e ≤ |x|)
    (h2 : |x| < (2 : ℚ) ^ (e + 1)) : ulpExp x = e - 23 := by
  have hpos : (0 : ℚ) < |x| := lt_of_lt_of_le (by positivity) h1
  have hlog : Int.log 2 |x| = e := by
    have ha : e ≤ Int.log 2 |x| :=
      (Int.zpow_le_iff_le_log (by norm_num) hpos).mp (by exact_mod_cast h1)
    have hb : Int.log 2 |x| < e + 1 :=
      (Int.lt_zpow_iff_log_lt (by norm_num) hpos).mp (by exact_mod_cast h2)
    omega
  unfold ulpExp
  rw [hlog, max_eq_left he]

/-- The binary32 value of `x` in the binade `2 ^ e ≤ |x| < 2 ^ (e + 1)` is
`n * 2 ^ (e - 23)` for the integer `n` less than half a unit away from
`x / 2 ^ (e - 23)`. -/
theorem f32_eq (x : ℚ) (e n : Int) (he : -126 ≤ e) (h1 : (2 : ℚ) ^ e ≤ |x|)
    (h2 : |x| < (2 : ℚ) ^ (e + 1))
    (hn0 : (n : ℚ) - 1 / 2 < x / 2 ^ (e - 23)) (hn1 : x / 2 ^ (e - 23) < n + 1 / 2) :
    f32 x = n * 2 ^ (e - 23) := by
  unfold f32
  rw [ulpExp_eq x e he h1 h2, roundEven_near _ n hn0 hn1]

theorem f32_zero : f32 0 = 0 := by
  unfold f32
  simp [roundEven]

/-- The literal `0.6f` is `10066330 / 2 ^ 24`, a little above `0.6`. -/
theorem f32_literal_06 : f32 0.6 = 10066330 / 16777216 := by
  rw [f32_eq 0.6 (-1) 10066330 (by norm_num) (by norm_num [abs_of_pos])
    (by norm_num [abs_of_pos]) (by norm_num) (by norm_num)]
  norm_num

theorem f32_literal_25 : f32 2.5 = 5 / 2 := by
  rw [f32_eq 2.5 1 10485760 (by norm_num) (by norm_num [abs_of_pos])
    (by norm_num [abs_of_pos]) (by norm_num) (by norm_num)]
  norm_num

/-- In binary32 `(1.0f - 0.6f) * 2.5f` is `16777215 / 16777216`. -/
theorem shiftMixF32_one : shiftMixF32 1 = 16777215 / 16777216 := by
  unfold shiftMixF32
  rw [f32_literal_06, f32_literal_25]
  have hd : f32 (1 - 10066330 / 16777216) = 6710886 / 16777216 := by
    rw [f32_eq (1 - 10066330 / 16777216) (-2) 13421772 (by norm_num)
      (by norm_num [abs_of_pos]) (by norm_num [abs_of_pos]) (by norm_num) (by norm_num)]
    norm_num
  rw [hd]
  rw [f32_eq (6710886 / 16777216 * (5 / 2)) (-1) 16777215 (by norm_num)
    (by norm_num [abs_of_pos]) (by norm_num [abs_of_pos]) (by norm_num) (by norm_num)]
  norm_num

/-- The literal `1e13f` is `9536743 * 2 ^ 20`. -/
theorem f32_literal_1e13 : f32 1e13 = 9999999827968 := by
  rw [f32_eq 1e13 43 9536743 (by norm_num) (by norm_num [abs_of_pos])
    (by norm_num [abs_of_pos]) (by norm_num) (by norm_num)]
  norm_num

theorem f32_capacity : f32 ((240000 : Int) : ℚ) = 240000 := by
  rw [f32_eq ((240000 : Int) : ℚ) 17 15360000 (by norm_num) (by norm_num [abs_of_pos])
    (by norm_num [abs_of_pos]) (by norm_num) (by norm_num)]
  norm_num

theorem f32_neg_1e13 : f32 (0 - 9999999827968) = -9999999827968 := by
  rw [f32_eq (0 - 9999999827968) 43 (-9536743) (by norm_num) (by norm_num [abs_of_neg])
    (by norm_num [abs_of_neg]) (by norm_num) (by norm_num)]
  norm_num

/-- Adding the capacity `240000.0f` to `-1e13f` in binary32 gives `-1e13f`
again: the binary32 values there are `2 ^ 20` apart. -/
theorem f32_absorbs_capacity : f32 (-9999999827968 + 240000) = -9999999827968 := by
  rw [f32_eq (-9999999827968 + 240000) 43 (-9536743) (by norm_num) (by norm_num [abs_of_neg])
    (by norm_num [abs_of_neg]) (by norm_num) (by norm_num)]
  norm_num

/-- A negative position that the rounded addition of `max_len` leaves where it
is keeps the first loop of `Read` running, whatever the iteration bound. -/
theorem wrapUpF32_stall (max_len read_pos : ℚ) (hneg : read_pos < 0)
    (habs : f32 (read_pos + max_len) = read_pos) (fuel : Nat) :
    wrapUpF32 max_len fuel read_pos = none := by
  induction fuel with
  | zero => simp [wrapUpF32, hneg]
  | succ k ih => simp [wrapUpF32, hneg, habs, ih]

theorem roundEven_le (q : ℚ) (N : Int) (h : q ≤ N) : roundEven q ≤ N := by
  have hfl : ⌊q⌋ ≤ N := by
    have h1 : ((⌊q⌋ : Int) : ℚ) ≤ N := le_trans (Int.floor_le q) h
    exact_mod_cast h1
  have hstep : ¬ (q - ⌊q⌋ < 1 / 2) → ⌊q⌋ + 1 ≤ N := by
    intro hfrac
    by_contra hlt
    have heq : ⌊q⌋ = N := by omega
    rw [heq] at hfrac
    exact hfrac (by linarith)
  unfold roundEven
  split_ifs with h1 h2 h3
  · exact hfl
  · exact hstep h1
  · exact hfl
  · exact hstep h1

theorem le_roundEven (q : ℚ) (N : Int) (h : (N : ℚ) ≤ q) : N ≤ roundEven q := by
  have hfl : N ≤ ⌊q⌋ := Int.le_floor.mpr h
  unfold roundEven
  split_ifs <;> omega

theorem ulpExp_le (x : ℚ) (s : Int) (hs : -149 ≤ s) (hx0 : x ≠ 0)
    (hx : |x| < (2 : ℚ) ^ (s + 24)) : ulpExp x ≤ s := by
  have hpos : (0 : ℚ) < |x| := abs_pos.mpr hx0
  have hb : Int.log 2 |x| < s + 24 :=
    (Int.lt_zpow_iff_log_lt (by norm_num) hpos).mp (by exact_mod_cast hx)
  unfold ulpExp
  have hmax : max (Int.log 2 |x|) (-126) ≤ s + 23 := max_le (by omega) (by omega)
  omega

/-- A multiple of `2 ^ s` above `x` is not below the binary32 value of `x`,
when the spacing of the binary32 values around `x` divides `2 ^ s`. -/
theorem f32_le_grid (x : ℚ) (s n : Int) (hu : ulpExp x ≤ s) (h : x ≤ n * 2 ^ s) :
    f32 x ≤ n * 2 ^ s := by
  obtain ⟨k, hk⟩ : ∃ k : Nat, s = ulpExp x + k := ⟨(s - ulpExp x).toNat, by omega⟩
  have hpu : (0 : ℚ) < 2 ^ ulpExp x := by positivity
  have hsplit : (n : ℚ) * 2 ^ s = ((n * 2 ^ k : Int) : ℚ) * 2 ^ ulpExp x := by
    rw [hk, zpow_add₀ (by norm_num : (2 : ℚ) ≠ 0), zpow_natCast]
    push_cast
    ring
  rw [hsplit] at h ⊢
  unfold f32
  have hq : x / 2 ^ ulpExp x ≤ ((n * 2 ^ k : Int) : ℚ) := by
    rw [div_le_iff₀ hpu]
    exact h
  have hr : roundEven (x / 2 ^ ulpExp x) ≤ n * 2 ^ k := roundEven_le _ _ hq
  have hr1 : ((roundEven (x / 2 ^ ulpExp x) : Int) : ℚ) ≤ ((n * 2 ^ k : Int) : ℚ) := by
    exact_mod_cast hr
  exact mul_le_mul_of_nonneg_right hr1 hpu.le

/-- A multiple of `2 ^ s` below `x` is not above the binary32 value of `x`. -/
theorem grid_le_f32 (x : ℚ) (s n : Int) (hu : ulpExp x ≤ s) (h : (n : ℚ) * 2 ^ s ≤ x) :
    (n : ℚ) * 2 ^ s ≤ f32 x := by
  obtain ⟨k, hk⟩ : ∃ k : Nat, s = ulpExp x + k := ⟨(s - ulpExp x).toNat, by omega⟩
  have hpu : (0 : ℚ) < 2 ^ ulpExp x := by positivity
  have hsplit : (n : ℚ) * 2 ^ s = ((n * 2 ^ k : Int) : ℚ) * 2 ^ ulpExp x := by
    rw [hk, zpow_add₀ (by norm_num : (2 : ℚ) ≠ 0), zpow_natCast]
    push_cast
    ring
  rw [hsplit] at h ⊢
  unfold f32
  have hq : ((n * 2 ^ k : Int) : ℚ) ≤ x / 2 ^ ulpExp x := by
    rw [le_div_iff₀ hpu]
    exact h
  have hr : n * 2 ^ k ≤ roundEven (x / 2 ^ ulpExp x) := le_roundEven _ _ hq
  have hr1 : ((n * 2 ^ k : Int) : ℚ) ≤ ((roundEven (x / 2 ^ ulpExp x) : Int) : ℚ) := by
    exact_mod_cast hr
  exact mul_le_mul_of_nonneg_right hr1 hpu.le

/-- A nonzero multiple of `2 ^ (-24)` below `1` in absolute value is a binary32
value: rounding leaves it unchanged. -/
theorem f32_grid_exact (n : Int) (hn0 : n ≠ 0) (hn : |((n : ℚ) * 2 ^ (-24 : Int))| < 1) :
    f32 ((n : ℚ) * 2 ^ (-24 : Int)) = (n : ℚ) * 2 ^ (-24 : Int) := by
  have hx0 : (n : ℚ) * 2 ^ (-24 : Int) ≠ 0 :=
    mul_ne_zero (by exact_mod_cast hn0) (by positivity)
  have hu : ulpExp ((n : ℚ) * 2 ^ (-24 : Int)) ≤ -24 :=
    ulpExp_le _ (-24) (by norm_num) hx0 (by simpa using hn)
  exact le_antisymm (f32_le_grid _ (-24) n hu le_rfl) (grid_le_f32 _ (-24) n hu le_rfl)

/-- A binary32 value in `[1/2, 1]` is a multiple of `2 ^ (-24)`. -/
theorem f32_fixed_grid (w : ℚ) (hf : f32 w = w) (h0 : 1 / 2 ≤ w) (h1 : w ≤ 1) :
    ∃ k : Int, w = (k : ℚ) * 2 ^ (-24 : Int) := by
  rcases eq_or_lt_of_le h1 with h | h
  · exact ⟨16777216, by rw [h]; norm_num⟩
  · have hu : ulpExp w = -1 - 23 :=
      ulpExp_eq w (-1) (by norm_num) (by rw [abs_of_pos (by linarith)]; norm_num; linarith)
        (by rw [abs_of_pos (by linarith)]; norm_num; linarith)
    refine ⟨roundEven (w / 2 ^ ulpExp w), ?_⟩
    have hdef : f32 w = (roundEven (w / 2 ^ ulpExp w) : ℚ) * 2 ^ ulpExp w := rfl
    rw [hf] at hdef
    rw [hu] at hdef ⊢
    exact hdef

/-- The binary32 evaluation of `(warp - 0.6f) * 2.5f` at a binary32 value
`k / 2 ^ 24` above `0.6f` and up to `1.0f` lies between the multiples of
`2 ^ (-24)` around `5 * (k - 10066330) / 2`. -/
theorem shiftMixF32_bounds (k : Int) (hk0 : 10066330 < k) (hk1 : k ≤ 16777216) :
    (((5 * (k - 10066330)) / 2 : Int) : ℚ) * 2 ^ (-24 : Int)
        ≤ shiftMixF32 ((k : ℚ) * 2 ^ (-24 : Int))
      ∧ shiftMixF32 ((k : ℚ) * 2 ^ (-24 : Int))
        ≤ (((5 * (k - 10066330) + 1) / 2 : Int) : ℚ) * 2 ^ (-24 : Int) := by
  have h24 : (2 : ℚ) ^ (-24 : Int) = 1 / 16777216 := by norm_num
  have hkq0 : (10066330 : ℚ) < k := by exact_mod_cast hk0
  have hkq1 : (k : ℚ) ≤ 16777216 := by exact_mod_cast hk1
  unfold shiftMixF32
  rw [f32_literal_06, f32_literal_25]
  have hd : (k : ℚ) * 2 ^ (-24 : Int) - 10066330 / 16777216
      = ((k - 10066330 : Int) : ℚ) * 2 ^ (-24 : Int) := by
    rw [h24]
    push_cast
    ring
  have hdx : f32 ((k : ℚ) * 2 ^ (-24 : Int) - 10066330 / 16777216)
      = ((k - 10066330 : Int) : ℚ) * 2 ^ (-24 : Int) := by
    rw [hd]
    refine f32_grid_exact _ (by omega) ?_
    rw [h24, abs_of_pos (by push_cast; linarith)]
    push_cast
    linarith
  rw [hdx]
  have hp0 : (0 : ℚ) < ((k - 10066330 : Int) : ℚ) * 2 ^ (-24 : Int) * (5 / 2) := by
    rw [h24]
    push_cast
    linarith
  have hp1 : ((k - 10066330 : Int) : ℚ) * 2 ^ (-24 : Int) * (5 / 2) < 1 := by
    rw [h24]
    push_cast
    linarith
  have hu : ulpExp (((k - 10066330 : Int) : ℚ) * 2 ^ (-24 : Int) * (5 / 2)) ≤ -24 :=
    ulpExp_le _ (-24) (by norm_num) hp0.ne.symm (by rw [abs_of_pos hp0]; simpa using hp1)
  have hlo : (2 : Int) * ((5 * (k - 10066330)) / 2) ≤ 5 * (k - 10066330) := by omega
  have hhi : 5 * (k - 10066330) ≤ 2 * ((5 * (k - 10066330) + 1) / 2) := by omega
  have hloq : (2 : ℚ) * (((5 * (k - 10066330)) / 2 : Int) : ℚ)
      ≤ 5 * ((k - 10066330 : Int) : ℚ) := by exact_mod_cast hlo
  have hhiq : (5 : ℚ) * ((k - 10066330 : Int) : ℚ)
      ≤ 2 * (((5 * (k - 10066330) + 1) / 2 : Int) : ℚ) := by exact_mod_cast hhi
  constructor
  · refine grid_le_f32 _ (-24) _ hu ?_
    rw [h24]
    linarith
  · refine f32_le_grid _ (-24) _ hu ?_
    rw [h24]
    linarith

/-- The ramp as binary32 arithmetic computes it: on the binary32 values above
`0.6f` and up to `1.0f`, `(warp - 0.6f) * 2.5f` is positive, strictly
increasing and at most `16777215 / 16777216`. -/
theorem shiftMixF32_ramp (w v : ℚ) (hfw : f32 w = w) (hfv : f32 v = v)
    (hw : f32 0.6 < w) (hwv : w < v) (hv : v ≤ 1) :
    0 < shiftMixF32 w ∧ shiftMixF32 w < shiftMixF32 v
      ∧ shiftMixF32 v ≤ 16777215 / 16777216 := by
  rw [f32_literal_06] at hw
  have h24 : (2 : ℚ) ^ (-24 : Int) = 1 / 16777216 := by norm_num
  obtain ⟨kw, hkw⟩ := f32_fixed_grid w hfw (by linarith) (by linarith)
  obtain ⟨kv, hkv⟩ := f32_fixed_grid v hfv (by linarith) hv
  have hw0 : (10066330 : ℚ) < kw := by
    rw [hkw, h24] at hw
    linarith
  have hwv1 : (kw : ℚ) < kv := by
    rw [hkw, hkv, h24] at hwv
    linarith
  have hv1 : (kv : ℚ) ≤ 16777216 := by
    rw [hkv, h24] at hv
    linarith
  have hw0i : 10066330 < kw := by exact_mod_cast hw0
  have hwvi : kw < kv := by exact_mod_cast hwv1
  have hv1i : kv ≤ 16777216 := by exact_mod_cast hv1
  obtain ⟨hwlo, hwhi⟩ := shiftMixF32_bounds kw hw0i (by omega)
  obtain ⟨hvlo, hvhi⟩ := shiftMixF32_bounds kv (by omega) hv1i
  rw [← hkw] at hwlo hwhi
  rw [← hkv] at hvlo hvhi
  rw [h24] at hwlo hwhi hvlo hvhi
  have e1 : (1 : Int) ≤ (5 * (kw - 10066330)) / 2 := by omega
  have e2 : (5 * (kw - 10066330) + 1) / 2 < (5 * (kv - 10066330)) / 2 := by omega
  have e3 : (5 * (kv - 10066330) + 1) / 2 ≤ 16777215 := by omega
  have q1 : (1 : ℚ) ≤ (((5 * (kw - 10066330)) / 2 : Int) : ℚ) := by exact_mod_cast e1
  have q2 : (((5 * (kw - 10066330) + 1) / 2 : Int) : ℚ)
      < (((5 * (kv - 10066330)) / 2 : Int) : ℚ) := by exact_mod_cast e2
  have q3 : (((5 * (kv - 10066330) + 1) / 2 : Int) : ℚ) ≤ 16777215 := by exact_mod_cast e3
  refine ⟨?_, ?_, ?_⟩ <;> linarith

theorem f32_three_quarters : f32 (3 / 4) = 3 / 4 := by
  rw [f32_eq (3 / 4) (-1) 12582912 (by norm_num) (by norm_num [abs_of_pos])
    (by norm_num [abs_of_pos]) (by norm_num) (by norm_num)]
  norm_num

theorem f32_one : f32 1 = 1 := by
  rw [f32_eq 1 0 8388608 (by norm_num) (by norm_num [abs_of_pos])
    (by norm_num [abs_of_pos]) (by norm_num) (by norm_num)]
  norm_num

/-- C8 (as stated) fails at `warp = 1.0`: the code evaluates
`(warp - 0.6f) * 2.5f` in binary32, where `0.6f` is `10066330 / 2 ^ 24`, and
obtains `16777215 / 16777216`, one unit in the last place below `1`; so
`shift_mix` is not exactly `1` there. -/
theorem shift_mix_at_one_f32 :
    f32 0.6 = 10066330 / 16777216
      ∧ shiftMixF32 1.0 = 16777215 / 16777216
      ∧ shiftMixF32 1.0 ≠ 1 := by
  have h1 : (1.0 : ℚ) = 1 := by norm_num
  rw [h1, shiftMixF32_one]
  exact ⟨f32_literal_06, rfl, by norm_num⟩

/-- C8 (amended): in Massive mode `shift_mix` equals `(warp - 0.6) * 2.5` on
`(0.6, 1.0]`, is strictly increasing there and takes values in `(0, 1]`. At
`warp = 1.0` the value that the code computes in binary32 is
`16777215 / 16777216`, not `1`; on the binary32 values of `warp` above `0.6f`
and up to `1.0` the binary32 evaluation is still positive and strictly
increasing. -/
theorem shift_mix_ramp {σ : Type} (w v : ℚ) (sh sh1 : Shimmers σ)
    (hw : 0.6 < w) (hwv : w < v) (hv : v ≤ 1.0) :
    (blockSetup FdnMode.MODE_MASSIVE w sh).shift_mix = (w - 0.6) * 2.5
      ∧ (blockSetup FdnMode.MODE_MASSIVE v sh1).shift_mix = (v - 0.6) * 2.5
      ∧ (blockSetup FdnMode.MODE_MASSIVE w sh).shift_mix
          < (blockSetup FdnMode.MODE_MASSIVE v sh1).shift_mix
      ∧ 0 < (blockSetup FdnMode.MODE_MASSIVE w sh).shift_mix
      ∧ (blockSetup FdnMode.MODE_MASSIVE w sh).shift_mix ≤ 1
      ∧ 0 < (blockSetup FdnMode.MODE_MASSIVE v sh1).shift_mix
      ∧ (blockSetup FdnMode.MODE_MASSIVE v sh1).shift_mix ≤ 1
      ∧ shiftMixF32 1.0 = 16777215 / 16777216
      ∧ (f32 w = w → f32 v = v → f32 0.6 < w →
          0 < shiftMixF32 w ∧ shiftMixF32 w < shiftMixF32 v
            ∧ shiftMixF32 v ≤ 16777215 / 16777216) := by
  have h1 : (1.0 : ℚ) = 1 := by norm_num
  have hv1 : v ≤ 1 := by rw [← h1]; exact hv
  have hsw : (blockSetup FdnMode.MODE_MASSIVE w sh).shift_mix = (w - 0.6) * 2.5 := by
    rw [blockSetup_massive_high w sh hw]
  have hsv : (blockSetup FdnMode.MODE_MASSIVE v sh1).shift_mix = (v - 0.6) * 2.5 := by
    rw [blockSetup_massive_high v sh1 (lt_trans hw hwv)]
  rw [hsw, hsv]
  norm_num at hw
  refine ⟨rfl, rfl, ?_, ?_, ?_, ?_, ?_, ?_, ?_⟩
  · linarith
  · linarith
  · linarith
  · linarith
  · linarith
  · rw [h1]
    exact shiftMixF32_one
  · intro hfw hfv hw32
    exact shiftMixF32_ramp w v hfw hfv hw32 hwv hv1

theorem shift_mix_ramp_witness :
    (blockSetup FdnMode.MODE_MASSIVE 0.75 initShimmers).shift_mix = (0.75 - 0.6) * 2.5
      ∧ (blockSetup FdnMode.MODE_MASSIVE 1.0 initShimmers).shift_mix = (1.0 - 0.6) * 2.5
      ∧ (blockSetup FdnMode.MODE_MASSIVE 0.75 initShimmers).shift_mix
          < (blockSetup FdnMode.MODE_MASSIVE 1.0 initShimmers).shift_mix
      ∧ 0 < (blockSetup FdnMode.MODE_MASSIVE 0.75 initShimmers).shift_mix
      ∧ (blockSetup FdnMode.MODE_MASSIVE 0.75 initShimmers).shift_mix ≤ 1
      ∧ 0 < (blockSetup FdnMode.MODE_MASSIVE 1.0 initShimmers).shift_mix
      ∧ (blockSetup FdnMode.MODE_MASSIVE 1.0 initShimmers).shift_mix ≤ 1
      ∧ shiftMixF32 1.0 = 16777215 / 16777216
      ∧ f32 0.75 = 0.75 ∧ f32 1.0 = 1.0 ∧ f32 0.6 < 0.75
      ∧ 0 < shiftMixF32 0.75 ∧ shiftMixF32 0.75 < shiftMixF32 1.0
      ∧ shiftMixF32 1.0 ≤ 16777215 / 16777216 :=
  have h75 : f32 0.75 = 0.75 := by
    have e : (0.75 : ℚ) = 3 / 4 := by norm_num
    rw [e]
    exact f32_three_quarters
  have h10 : f32 1.0 = 1.0 := by
    have e : (1.0 : ℚ) = 1 := by norm_num
    rw [e]
    exact f32_one
  have h06 : f32 0.6 < 0.75 := by
    rw [f32_literal_06]
    norm_num
  have h := shift_mix_ramp 0.75 1.0 initShimmers initShimmers (by norm_num) (by norm_num)
    (by norm_num)
  ⟨h.1, h.2.1, h.2.2.1, h.2.2.2.1, h.2.2.2.2.1, h.2.2.2.2.2.1, h.2.2.2.2.2.2.1,
    h.2.2.2.2.2.2.2.1, h75, h10, h06, h.2.2.2.2.2.2.2.2 h75 h10 h06⟩

/-- C13: `OmniDelay::Read(1e13f)` on a line of capacity `240000` with its
cursor at `0` does not terminate in binary32. The delay `1e13f` is
`9999999827968`, `read_pos` starts at `-9999999827968`, and
`read_pos += (float)max_len_` rounds back to the same value (the binary32
values there are `2 ^ 20` apart), so the first loop has not finished after any
number of iterations and `Read` returns nothing. -/
theorem OmniDelay.ReadF32_stalls :
    f32 1e13 = 9999999827968
      ∧ f32 (-9999999827968 + 240000) = -9999999827968
      ∧ ∀ fuel : Nat,
          OmniDelay.ReadF32 { buffer_ := 0, max_len_ := 240000, write_ptr_ := 0 } fuel
            (fun _ => 0) (f32 1e13) = none := by
  refine ⟨f32_literal_1e13, f32_absorbs_capacity, fun fuel => ?_⟩
  have hz : f32 (((0 : Int) : ℚ)) = 0 := by
    rw [Int.cast_zero]
    exact f32_zero
  simp only [OmniDelay.ReadF32, OmniDelay.readPosF32, f32_literal_1e13, f32_capacity, hz,
    f32_neg_1e13]
  rw [wrapUpF32_stall 240000 (-9999999827968) (by norm_num) f32_absorbs_capacity fuel]
  rfl

end OAM
